import Mathlib

/-!
Verification development for the `binarymap` package
(`src/binarymap/binarymap.py`).

The Python module defines a single class `BinaryMap` that converts variants
(space-delimited substitution strings such as `"M1C K3A"`) into binary
index vectors, together with the inverse decoding.  This file gives a
shallow embedding of that code:

* Python `str` values are modelled as `List Char` (`PyStr`); character
  classes (`isalpha`, `\d`, whitespace) are modelled at ASCII fidelity,
  which covers every input exercised here.
* sites are `Site` (`int` sites in numeric mode, `str` sites when
  `sites_as_str` is set);
* the third-party `natsort.natsorted(..., alg=natsort.ns.SIGNED)` call is
  modelled by `natKey` below, following natsort's documented behaviour:
  a string is split into alternating non-numeric / signed-numeric chunks
  and chunk lists are compared lexicographically (numeric chunks
  numerically); Python's `sorted`/`natsorted` are modelled by
  `List.insertionSort`, which agrees with them whenever the sort keys are
  pairwise distinct (ties between distinct keys-equal elements depend on
  Python set iteration order and are not observable in any claim proved
  here);
* every `raise` site of the Python code becomes a distinct constructor of
  `BMError`, and fallible operations return `Except BMError _`.
-/

/-- Python strings are modelled as lists of characters. -/
abbrev PyStr := List Char

/-- Site identifier: `int` in numeric mode, `str` when `sites_as_str` is set. -/
inductive Site where
  | num (n : Int)
  | str (s : PyStr)
deriving DecidableEq, Repr

/-- Chunk of a natural-sort key: a run of non-numeric characters or a
(signed) number, as produced by natsort's tokenizer. -/
inductive Chunk where
  | cstr (s : PyStr)
  | cnum (n : Int)
deriving DecidableEq, Repr

/-- Lexicographic less-or-equal on lists over a base boolean `le`
(assumed reflexive/antisymmetric where the lemmas need it).  A proper
initial segment compares as smaller, matching Python tuple/str comparison. -/
def lexLeB [DecidableEq α] (le : α → α → Bool) : List α → List α → Bool
  | [], _ => true
  | _ :: _, [] => false
  | a :: as, b :: bs => if a = b then lexLeB le as bs else le a b

/-- Laws making a boolean `le` a total preorder. -/
structure LeLaws (le : α → α → Bool) : Prop where
  total : ∀ a b, le a b = true ∨ le b a = true
  trans : ∀ a b c, le a b = true → le b c = true → le a c = true

/-- Antisymmetry of a boolean `le`. -/
def AntiLaw (le : α → α → Bool) : Prop :=
  ∀ a b, le a b = true → le b a = true → a = b

theorem LeLaws.refl {le : α → α → Bool} (h : LeLaws le) (a : α) : le a a = true := by
  rcases h.total a a with h' | h' <;> exact h'

theorem lexLeB_total [DecidableEq α] {le : α → α → Bool} (h : LeLaws le) :
    ∀ l m : List α, lexLeB le l m = true ∨ lexLeB le m l = true := by
  intro l
  induction l with
  | nil => intro m; left; rfl
  | cons a as ih =>
    intro m
    cases m with
    | nil => right; rfl
    | cons b bs =>
      by_cases hab : a = b
      · subst hab
        rcases ih bs with h' | h'
        · left; simpa [lexLeB] using h'
        · right; simpa [lexLeB] using h'
      · have hba : ¬ b = a := fun hh => hab hh.symm
        rcases h.total a b with h' | h'
        · left; simpa [lexLeB, hab] using h'
        · right; simpa [lexLeB, hba] using h'

theorem lexLeB_trans [DecidableEq α] {le : α → α → Bool} (h : LeLaws le) (ha : AntiLaw le) :
    ∀ l m k : List α, lexLeB le l m = true → lexLeB le m k = true →
      lexLeB le l k = true := by
  intro l
  induction l with
  | nil => intro m k _ _; rfl
  | cons a as ih =>
    intro m k hlm hmk
    cases m with
    | nil => simp [lexLeB] at hlm
    | cons b bs =>
      cases k with
      | nil => simp [lexLeB] at hmk
      | cons c cs =>
        by_cases hab : a = b
        · subst hab
          by_cases hbc : a = c
          · subst hbc
            simp only [lexLeB, if_pos rfl] at hlm hmk ⊢
            exact ih bs cs hlm hmk
          · simp only [lexLeB, if_pos rfl] at hlm
            simpa [lexLeB, hbc] using hmk
        · by_cases hbc : b = c
          · subst hbc
            simpa [lexLeB, hab] using hlm
          · simp only [lexLeB, if_neg hab] at hlm
            simp only [lexLeB, if_neg hbc] at hmk
            by_cases hac : a = c
            · subst hac
              exact absurd (ha a b hlm hmk) hab
            · simpa [lexLeB, hac] using h.trans a b c hlm hmk

theorem lexLeB_anti [DecidableEq α] {le : α → α → Bool} (ha : AntiLaw le) :
    AntiLaw (lexLeB le) := by
  intro l
  induction l with
  | nil =>
    intro m h₁ h₂
    cases m with
    | nil => rfl
    | cons b bs => simp [lexLeB] at h₂
  | cons a as ih =>
    intro m h₁ h₂
    cases m with
    | nil => simp [lexLeB] at h₁
    | cons b bs =>
      by_cases hab : a = b
      · subst hab
        simp only [lexLeB, if_pos rfl] at h₁ h₂
        rw [ih bs h₁ h₂]
      · have hba : ¬ b = a := fun hh => hab hh.symm
        simp only [lexLeB, if_neg hab] at h₁
        simp only [lexLeB, if_neg hba] at h₂
        exact absurd (ha a b h₁ h₂) hab

theorem lexLeB_laws [DecidableEq α] {le : α → α → Bool} (h : LeLaws le) (ha : AntiLaw le) :
    LeLaws (lexLeB le) :=
  ⟨lexLeB_total h, lexLeB_trans h ha⟩

/-- Boolean less-or-equal on characters (by code point, as in Python). -/
def chLeB (a b : Char) : Bool := a ≤ b

theorem chLeB_laws : LeLaws chLeB :=
  ⟨fun a b => by simpa [chLeB] using le_total a b,
   fun a b c h₁ h₂ => by
     simp only [chLeB, decide_eq_true_eq] at *
     exact le_trans h₁ h₂⟩

theorem chLeB_anti : AntiLaw chLeB := fun a b h₁ h₂ => by
  simp only [chLeB, decide_eq_true_eq] at *
  exact le_antisymm h₁ h₂

/-- Boolean lexicographic less-or-equal on Python strings
(code-point order, as used by Python `sorted` on `str`). -/
def pyStrLeB (a b : PyStr) : Bool := lexLeB chLeB a b

theorem pyStrLeB_laws : LeLaws pyStrLeB := lexLeB_laws chLeB_laws chLeB_anti

theorem pyStrLeB_anti : AntiLaw pyStrLeB := lexLeB_anti chLeB_anti

/-- Boolean less-or-equal on key chunks: non-numeric chunks by string
order, numeric chunks numerically.  Chunks of different kinds are never
compared at the same key position by natsort (keys interleave string and
number chunks), so the mixed-kind direction is an arbitrary fixed choice. -/
def chunkLeB : Chunk → Chunk → Bool
  | .cstr s, .cstr t => pyStrLeB s t
  | .cstr _, .cnum _ => true
  | .cnum _, .cstr _ => false
  | .cnum m, .cnum n => m ≤ n

theorem chunkLeB_laws : LeLaws chunkLeB := by
  constructor
  · intro a b
    cases a <;> cases b <;> simp [chunkLeB]
    · exact pyStrLeB_laws.total _ _
    · exact le_total _ _
  · intro a b c h₁ h₂
    cases a <;> cases b <;> cases c <;> simp [chunkLeB] at *
    · exact pyStrLeB_laws.trans _ _ _ h₁ h₂
    · exact le_trans h₁ h₂

theorem chunkLeB_anti : AntiLaw chunkLeB := by
  intro a b h₁ h₂
  cases a <;> cases b <;> simp [chunkLeB] at *
  · exact pyStrLeB_anti _ _ h₁ h₂
  · exact le_antisymm h₁ h₂

/-- Boolean less-or-equal on whole natural-sort keys. -/
def chunksLeB (a b : List Chunk) : Bool := lexLeB chunkLeB a b

theorem chunksLeB_laws : LeLaws chunksLeB := lexLeB_laws chunkLeB_laws chunkLeB_anti

theorem chunksLeB_anti : AntiLaw chunksLeB := lexLeB_anti chunkLeB_anti

/-- Value of a list of decimal digit characters, as Python `int` on a
digit string (leading zeros allowed). -/
def digitsToNat (ds : PyStr) : Nat :=
  ds.foldl (fun acc d => acc * 10 + (d.toNat - 48)) 0

theorem dropWhile_len_le (p : α → Bool) :
    ∀ l : List α, (l.dropWhile p).length ≤ l.length := by
  intro l
  induction l with
  | nil => simp
  | cons a as ih =>
    simp only [List.dropWhile]
    split
    · exact le_trans ih (Nat.le_succ _)
    · exact le_refl _

/-- Tests whether a string starts with a decimal digit. -/
def headIsDigit : PyStr → Bool
  | [] => false
  | d :: _ => d.isDigit

/-- Helper for `natKey`: `acc` is the reversed current non-numeric run.
Mirrors natsort's tokenizer for `ns.SIGNED`: a number is `[-+]?[0-9]+`
starting at the leftmost possible position; a (possibly empty)
non-numeric chunk is emitted before every number so that keys alternate
string, number, string, number, ... -/
def natChunksAux : Nat → PyStr → PyStr → List Chunk
  | 0, _, _ => []
  | _ + 1, acc, [] => if acc = [] then [] else [.cstr acc.reverse]
  | fuel + 1, acc, c :: rest =>
    if c.isDigit then
      let ds := c :: rest.takeWhile Char.isDigit
      .cstr acc.reverse :: .cnum (digitsToNat ds : Int) ::
        natChunksAux fuel [] (rest.dropWhile Char.isDigit)
    else if (c = '-' ∨ c = '+') ∧ headIsDigit rest = true then
      let ds := rest.takeWhile Char.isDigit
      let n : Int := if c = '-' then -(digitsToNat ds : Int) else (digitsToNat ds : Int)
      .cstr acc.reverse :: .cnum n :: natChunksAux fuel [] (rest.dropWhile Char.isDigit)
    else
      natChunksAux fuel (c :: acc) rest

/-- Natural-sort key of a string site, modelling
`natsort.natsorted(..., alg=natsort.ns.SIGNED)`'s key function.  The
fuel argument (structural recursion, so that the kernel can evaluate
closed instances) strictly exceeds the number of remaining characters at
every call, so it is never exhausted. -/
def natKey (s : PyStr) : List Chunk := natChunksAux (s.length + 1) [] s

/-- Boolean natural less-or-equal on sites: numeric sites numerically,
string sites by natural key.  The two kinds never meet within one map. -/
def siteLeB : Site → Site → Bool
  | .num m, .num n => m ≤ n
  | .num _, .str _ => true
  | .str _, .num _ => false
  | .str s, .str t => chunksLeB (natKey s) (natKey t)

theorem siteLeB_laws : LeLaws siteLeB := by
  constructor
  · intro a b
    cases a <;> cases b <;> simp [siteLeB]
    · exact le_total _ _
    · exact chunksLeB_laws.total _ _
  · intro a b c h₁ h₂
    cases a <;> cases b <;> cases c <;> simp [siteLeB] at *
    · exact le_trans h₁ h₂
    · exact chunksLeB_laws.trans _ _ _ h₁ h₂

/-- Natural less-or-equal on sites, as a proposition. -/
def siteLe (a b : Site) : Prop := siteLeB a b = true

instance : DecidableRel siteLe := fun a b =>
  instDecidableEqBool (siteLeB a b) true

instance : IsTotal Site siteLe := ⟨siteLeB_laws.total⟩

instance : IsTrans Site siteLe := ⟨siteLeB_laws.trans⟩

/-- Strict natural order on sites. -/
def siteLt (a b : Site) : Prop := siteLe a b ∧ ¬ siteLe b a

/-- Natural key of a single character, as used by natsort when it keys
the wildtype character that `natsorted` sees as the second tuple slot. -/
def charKey (c : Char) : List Chunk := natKey [c]

/-- Boolean less-or-equal used by the model of
`natsort.natsorted(wts.items(), alg=ns.SIGNED)`: items are compared by
site key first, then (on a site-key tie) by the wildtype character key. -/
def wtsLeB (a b : Site × Char) : Bool :=
  if siteLeB a.1 b.1 ∧ siteLeB b.1 a.1 then chunksLeB (charKey a.2) (charKey b.2)
  else siteLeB a.1 b.1

/-- Propositional form of `wtsLeB`. -/
def wtsLe (a b : Site × Char) : Prop := wtsLeB a b = true

instance : DecidableRel wtsLe := fun a b =>
  instDecidableEqBool (wtsLeB a b) true

theorem wtsLe_total : ∀ a b, wtsLe a b ∨ wtsLe b a := by
  intro a b
  unfold wtsLe wtsLeB
  by_cases h : siteLeB a.1 b.1 = true ∧ siteLeB b.1 a.1 = true
  · have h' : siteLeB b.1 a.1 = true ∧ siteLeB a.1 b.1 = true := ⟨h.2, h.1⟩
    rw [if_pos h, if_pos h']
    exact chunksLeB_laws.total _ _
  · rcases siteLeB_laws.total a.1 b.1 with h₁ | h₁
    · left; rw [if_neg h]; exact h₁
    · by_cases h₂ : siteLeB b.1 a.1 = true ∧ siteLeB a.1 b.1 = true
      · exact absurd ⟨h₂.2, h₂.1⟩ h
      · right; rw [if_neg h₂]; exact h₁

theorem wtsLe_trans : ∀ a b c, wtsLe a b → wtsLe b c → wtsLe a c := by
  intro a b c h₁ h₂
  unfold wtsLe wtsLeB at *
  by_cases hab : siteLeB a.1 b.1 = true ∧ siteLeB b.1 a.1 = true
  · by_cases hbc : siteLeB b.1 c.1 = true ∧ siteLeB c.1 b.1 = true
    · have hac : siteLeB a.1 c.1 = true ∧ siteLeB c.1 a.1 = true :=
        ⟨siteLeB_laws.trans _ _ _ hab.1 hbc.1, siteLeB_laws.trans _ _ _ hbc.2 hab.2⟩
      rw [if_pos hab] at h₁
      rw [if_pos hbc] at h₂
      rw [if_pos hac]
      exact chunksLeB_laws.trans _ _ _ h₁ h₂
    · rw [if_neg hbc] at h₂
      have hac1 : siteLeB a.1 c.1 = true := siteLeB_laws.trans _ _ _ hab.1 h₂
      by_cases hac : siteLeB a.1 c.1 = true ∧ siteLeB c.1 a.1 = true
      · exact absurd ⟨siteLeB_laws.trans _ _ _ hab.2 hac.1,
          siteLeB_laws.trans _ _ _ hac.2 hab.1⟩ hbc
      · rw [if_neg hac]; exact hac1
  · rw [if_neg hab] at h₁
    by_cases hbc : siteLeB b.1 c.1 = true ∧ siteLeB c.1 b.1 = true
    · have hac1 : siteLeB a.1 c.1 = true := siteLeB_laws.trans _ _ _ h₁ hbc.1
      by_cases hac : siteLeB a.1 c.1 = true ∧ siteLeB c.1 a.1 = true
      · exact absurd ⟨siteLeB_laws.trans _ _ _ hac.1 hbc.2,
          siteLeB_laws.trans _ _ _ hbc.1 hac.2⟩ hab
      · rw [if_neg hac]; exact hac1
    · rw [if_neg hbc] at h₂
      have hac1 : siteLeB a.1 c.1 = true := siteLeB_laws.trans _ _ _ h₁ h₂
      by_cases hac : siteLeB a.1 c.1 = true ∧ siteLeB c.1 a.1 = true
      · exact absurd ⟨h₂, siteLeB_laws.trans _ _ _ hac.2 h₁⟩ hbc
      · rw [if_neg hac]; exact hac1

instance : IsTotal (Site × Char) wtsLe := ⟨wtsLe_total⟩

instance : IsTrans (Site × Char) wtsLe := ⟨wtsLe_trans⟩

/-- Decimal digit character for a value below ten. -/
def digitChar (n : Nat) : Char :=
  match n with
  | 0 => '0' | 1 => '1' | 2 => '2' | 3 => '3' | 4 => '4'
  | 5 => '5' | 6 => '6' | 7 => '7' | 8 => '8' | _ => '9'

/-- Fuel-driven digit expansion (structural recursion so the kernel can
evaluate closed instances; fuel `n + 1` always suffices). -/
def natDigitsF : Nat → Nat → PyStr
  | 0, _ => []
  | fuel + 1, n =>
    if n < 10 then [digitChar n]
    else natDigitsF fuel (n / 10) ++ [digitChar (n % 10)]

/-- Decimal digit characters of a natural number, most significant first,
with no leading zeros (`natDigits 0 = ['0']`), as Python `str(n)` for
`n ≥ 0`. -/
def natDigits (n : Nat) : PyStr := natDigitsF (n + 1) n

/-- Decimal string of an integer, as Python `str(n)`. -/
def intStr (n : Int) : PyStr :=
  if n < 0 then '-' :: natDigits n.natAbs else natDigits n.toNat

/-- Serialization of a site, as Python f-string interpolation `f"{site}"`. -/
def siteStr : Site → PyStr
  | .num n => intStr n
  | .str s => s

/-- Parsed substitution token: wildtype character, site, mutant character. -/
structure Subst where
  wt : Char
  site : Site
  mutCh : Char
deriving DecidableEq, Repr

/-- Serialization `f"{wt}{site}{mut}"` of a substitution. -/
def subStr (sb : Subst) : PyStr := sb.wt :: siteStr sb.site ++ [sb.mutCh]

/-- Error kinds; one constructor per `raise` site of the Python code
(all of them raise `ValueError` there; the spec's taxonomy calls the
token-grammar failures `ParseError`, the registry/encode/decode failures
`ValidationError` and the missing-key failures `LookupError`). -/
inductive BMError where
  /-- alphabet character that is not a letter, `*` or `-` (regex build). -/
  | invalidAlphabetChar (c : Char)
  /-- substitutions used in the variants but missing from `allowed_subs`,
  sorted lexicographically; a `ValidationError`. -/
  | notAllowed (subs : List PyStr)
  /-- two tokens disagree on the wildtype at a site; a `ValidationError`. -/
  | wtMismatch (site : Site)
  /-- `expand` together with `sites_as_str`. -/
  | expandWithSitesAsStr
  /-- `expand` together with `allowed_subs`. -/
  | expandWithAllowedSubs
  /-- `expand` without a string `wtseq`. -/
  | wtseqNotStr
  /-- `wtseq` has characters outside the alphabet. -/
  | wtseqBadChars
  /-- Python `min(wts.keys())` on an empty dict raises `ValueError`. -/
  | minEmpty
  /-- some site number is below 1 in `expand` mode. -/
  | siteBelowOne
  /-- `wtseq` shorter than the largest site number. -/
  | wtseqTooShort
  /-- `wtseq` disagrees with the variants on the wildtype at a site. -/
  | wtseqDisagrees (site : Site)
  /-- a Python `assert` in `__init__` fails (`AssertionError`). -/
  | assertFail
  /-- `wtseq` supplied although `expand` is `False`. -/
  | wtseqWithoutExpand
  /-- token does not match the substitution regex; a `ParseError`. -/
  | noRegexMatch (tok : PyStr)
  /-- wildtype and mutant characters coincide in a token; a `ParseError`. -/
  | wtEqMut (tok : PyStr)
  /-- two substitutions at the same site in one variant string; a
  `ValidationError`. -/
  | dupSite (site : Site)
  /-- substitution not present in the map; a `LookupError`. -/
  | subNotInMap (tok : PyStr)
  /-- binary vector of the wrong length; a `ValidationError`. -/
  | badLength
  /-- binary vector with entries outside zero and one; a `ValidationError`. -/
  | badValues
  /-- binary vector with several active substitutions at one site; a
  `ValidationError`. -/
  | dupSiteBinary
  /-- index outside the binary representation; a `LookupError`. -/
  | invalidIndex (i : Nat)
deriving DecidableEq, Repr

/-- First code points of the non-ASCII decades of Unicode decimal
digits (category `Nd`): each start `s` begins a run `s .. s+9` of digit
characters with values 0..9.  Together with the ASCII decade `'0'..'9'`
these are exactly the characters Python's `str`-pattern `\d` matches,
and `int()` maps each to its value (table of the CPython 3.11
`unicodedata` the module runs under). -/
def ndNonAsciiStarts : List Nat :=
  [1632, 1776, 1984, 2406, 2534, 2662, 2790,
   2918, 3046, 3174, 3302, 3430, 3558, 3664, 3792,
   3872, 4160, 4240, 6112, 6160, 6470, 6608, 6784,
   6800, 6992, 7088, 7232, 7248, 42528, 43216, 43264,
   43472, 43504, 43600, 44016, 65296, 66720, 68912, 69734,
   69872, 69942, 70096, 70384, 70736, 70864, 71248, 71360,
   71472, 71904, 72016, 72784, 73040, 73120, 92768, 92864,
   93008, 120782, 120792, 120802, 120812, 120822, 123200, 123632,
   125264, 130032]

/-- Decimal value of a Unicode decimal digit, `none` on every other
character: the value Python's `int()` assigns, with `\d` matching
exactly the characters on which this is `some`. -/
def digitVal? (c : Char) : Option Nat :=
  if c.isDigit then some (c.toNat - 48)
  else
    (ndNonAsciiStarts.find? (fun s => s ≤ c.toNat && c.toNat < s + 10)).map
      (fun s => c.toNat - s)

/-- Python's `\d` on `str` patterns: any Unicode decimal digit
(category `Nd`), not only ASCII `[0-9]`. -/
def isUniDigit (c : Char) : Bool := (digitVal? c).isSome

/-- Python `int` on a string of decimal digits (leading zeros allowed,
any script, mixed scripts included). -/
def digitsVal (ds : PyStr) : Nat :=
  ds.foldl (fun acc d => acc * 10 + (digitVal? d).getD 0) 0

/-- Site portion of the token regex: numeric mode demands `-?\d+`
(`\d` = any Unicode decimal digit); string mode matches `.+`, i.e. any
nonempty run of characters that contains no newline. -/
def siteMatch (sitesAsStr : Bool) (mid : PyStr) : Bool :=
  if sitesAsStr then !mid.isEmpty && mid.all (fun c => c != '\n')
  else
    match mid with
    | [] => false
    | c :: ds =>
      if c = '-' then !ds.isEmpty && ds.all isUniDigit
      else (c :: ds).all isUniDigit

/-- Site value from the matched site group: `int(...)` in numeric mode,
the raw string in string mode. -/
def siteOfMid (sitesAsStr : Bool) (mid : PyStr) : Site :=
  if sitesAsStr then .str mid
  else
    match mid with
    | [] => .num 0
    | c :: ds =>
      if c = '-' then .num (-(digitsVal ds : Int))
      else .num (digitsVal (c :: ds) : Int)

/-- Model of `BinaryMap._parse_sub_str`.  The Python code matches the
token with `re.fullmatch` against `(wt)(site)(mut)` where `wt` and `mut`
are single-character alternations over the alphabet and the site group is
as in `siteMatch`; since the wildtype and mutant groups each consume
exactly one character, a full match exists exactly when the first and
last characters lie in the alphabet and the middle matches the site
pattern.  A match with identical wildtype and mutant raises. -/
def parseSub (alphabet : List Char) (sitesAsStr : Bool) (tok : PyStr) :
    Except BMError Subst :=
  match tok with
  | [] => .error (.noRegexMatch tok)
  | w :: rest =>
    match rest.getLast? with
    | none => .error (.noRegexMatch tok)
    | some m =>
      let mid := rest.dropLast
      if w ∈ alphabet ∧ m ∈ alphabet ∧ siteMatch sitesAsStr mid = true then
        if w = m then .error (.wtEqMut tok)
        else .ok ⟨w, siteOfMid sitesAsStr mid, m⟩
      else .error (.noRegexMatch tok)

/-- Model of Python `str.split()` with no arguments: split on runs of
whitespace, discarding empty pieces. -/
def tokenizeF : Nat → PyStr → List PyStr
  | 0, _ => []
  | fuel + 1, s =>
    match s with
    | [] => []
    | c :: rest =>
      if c.isWhitespace then tokenizeF fuel rest
      else (c :: rest.takeWhile (fun d => ¬ d.isWhitespace)) ::
        tokenizeF fuel (rest.dropWhile (fun d => ¬ d.isWhitespace))

/-- Tokenization entry point; the fuel strictly exceeds the number of
remaining characters at every call, so it is never exhausted. -/
def tokenize (s : PyStr) : List PyStr := tokenizeF (s.length + 1) s

/-- Model of `" ".join(...)`. -/
def joinSpace : List PyStr → PyStr
  | [] => []
  | [t] => t
  | t :: rest => t ++ ' ' :: joinSpace rest

/-- Propositional lexicographic order on Python strings. -/
def pyStrLe (a b : PyStr) : Prop := pyStrLeB a b = true

instance : DecidableRel pyStrLe := fun a b =>
  instDecidableEqBool (pyStrLeB a b) true

instance : IsTotal PyStr pyStrLe := ⟨pyStrLeB_laws.total⟩

instance : IsTrans PyStr pyStrLe := ⟨pyStrLeB_laws.trans⟩

instance : IsAntisymm PyStr pyStrLe := ⟨pyStrLeB_anti⟩

/-- Position used to order mutant characters: Python builds
`char_order = {c: i for i, c in enumerate(alphabet)}`, so a character
maps to the index of its last occurrence in the alphabet (for an
alphabet without repeats this is just its index). -/
def char_order (alphabet : List Char) (c : Char) : Nat :=
  alphabet.length - 1 - alphabet.reverse.indexOf c

/-- Order on mutant characters at one site: by alphabet position. -/
def mutLe (alphabet : List Char) (m m' : Char) : Prop :=
  char_order alphabet m ≤ char_order alphabet m'

instance (alphabet : List Char) : DecidableRel (mutLe alphabet) := fun m m' =>
  Nat.decLe (char_order alphabet m) (char_order alphabet m')

/-- The `BinaryMap` object: the fields kept by the Python `__init__`
that the verified operations read (`scipy` sparse rows are kept as the
per-variant lists of active indices). -/
structure BinaryMap where
  alphabet : List Char
  sites_as_str : Bool
  i_to_sub_list : List PyStr
  binary_sites : List Site
  wt_indices : List (Site × Nat)
  substitution_variants : List PyStr
  binary_variants : List (List Nat)
deriving DecidableEq, Repr

namespace BinaryMap

/-- Length of the binary representation (`self.binarylength`). -/
def binarylength (bm : BinaryMap) : Nat := bm.i_to_sub_list.length

/-- The set `self._wt_index_set` of wildtype indices. -/
def wtIndexSet (bm : BinaryMap) : List Nat := bm.wt_indices.map (fun p => p.2)

end BinaryMap

/-- Index of the first occurrence of `t` in `l`.  The Python dict
`self._sub_to_i = {sub: i for i, sub in self._i_to_sub.items()}` keeps
the last occurrence of a repeated key, but construction asserts that no
key repeats, so first and last coincide on every reachable map. -/
def lookupIdx (l : List PyStr) (t : PyStr) : Option Nat :=
  match l with
  | [] => none
  | s :: rest => if s = t then some 0 else (lookupIdx rest t).map (fun i => i + 1)

namespace BinaryMap

/-- Model of `BinaryMap.sub_to_i`. -/
def sub_to_i (bm : BinaryMap) (sub : PyStr) : Except BMError Nat :=
  match lookupIdx bm.i_to_sub_list sub with
  | some i => .ok i
  | none => .error (.subNotInMap sub)

/-- Model of `BinaryMap.i_to_sub` (on natural indices; `flatnonzero`
and `range` only ever produce those). -/
def i_to_sub (bm : BinaryMap) (i : Nat) : Except BMError PyStr :=
  if i ∈ bm.wtIndexSet then .ok []
  else
    match bm.i_to_sub_list[i]? with
    | some s => .ok s
    | none => .error (.invalidIndex i)

/-- Per-token loop of `BinaryMap.sub_str_to_indices`: parse each token,
reject a site that was already seen, and look the token up in the map.
Returns the sites and indices of the remaining tokens in token order. -/
def encodeTokens (bm : BinaryMap) : List PyStr → List Site →
    Except BMError (List Site × List Nat)
  | [], _ => .ok ([], [])
  | tok :: rest, seen => do
    let sb ← parseSub bm.alphabet bm.sites_as_str tok
    if sb.site ∈ seen then .error (.dupSite sb.site)
    else do
      let i ← bm.sub_to_i tok
      let (sites, idxs) ← encodeTokens bm rest (sb.site :: seen)
      .ok (sb.site :: sites, i :: idxs)

/-- Model of `BinaryMap.sub_str_to_indices`: token indices plus the
wildtype index of every site the variant does not mention, sorted. -/
def sub_str_to_indices (bm : BinaryMap) (sub_str : PyStr) :
    Except BMError (List Nat) := do
  let (sites, idxs) ← bm.encodeTokens (tokenize sub_str) []
  let extras := (bm.wt_indices.filter (fun p => p.1 ∉ sites)).map (fun p => p.2)
  .ok (List.insertionSort (fun i j => i ≤ j) (idxs ++ extras))

/-- Model of `BinaryMap.sub_str_to_binary`: the indicator vector of the
index list (every index returned by `sub_str_to_indices` is below
`binarylength`, so numpy fancy assignment is exactly this indicator). -/
def sub_str_to_binary (bm : BinaryMap) (sub_str : PyStr) :
    Except BMError (List Int) := do
  let idxs ← bm.sub_str_to_indices sub_str
  .ok ((List.range bm.binarylength).map (fun j => if j ∈ idxs then (1 : Int) else 0))

end BinaryMap

/-- Model of `numpy.flatnonzero`: indices of nonzero entries, ascending. -/
def flatnonzeroAux : Nat → List Int → List Nat
  | _, [] => []
  | i, x :: xs =>
    if x = 0 then flatnonzeroAux (i + 1) xs else i :: flatnonzeroAux (i + 1) xs

/-- Indices of the nonzero entries of a vector. -/
def flatnonzero (b : List Int) : List Nat := flatnonzeroAux 0 b

namespace BinaryMap

/-- Model of `BinaryMap.binary_to_sub_str`: length and 0/1 checks, then
decode the active indices (wildtype indices decode to the empty string
and are dropped), re-parse to detect two substitutions at one site, and
join with spaces. -/
def binary_to_sub_str (bm : BinaryMap) (binary : List Int) :
    Except BMError PyStr :=
  if binary.length ≠ bm.binarylength then .error .badLength
  else if ¬ (binary.all (fun x => x == 0 || x == 1) = true) then .error .badValues
  else do
    let subs0 ← (flatnonzero binary).mapM bm.i_to_sub
    let subs := subs0.filter (fun s => ¬ s.isEmpty)
    let sbs ← subs.mapM (fun t => parseSub bm.alphabet bm.sites_as_str t)
    let sites : List Site := sbs.map (fun sb => sb.site)
    if sites.Nodup then .ok (joinSpace subs) else .error .dupSiteBinary

/-- Model of the `BinaryMap.all_subs` property. -/
def all_subs (bm : BinaryMap) : List PyStr :=
  (List.range bm.binarylength).filterMap (fun i =>
    match bm.i_to_sub i with
    | .ok s => if s.isEmpty then none else some s
    | .error _ => none)

end BinaryMap

/-- Validation of the alphabet performed while building the regex:
every character must be a letter, `*`, or `-`. -/
def validAlphabetChar (c : Char) : Bool := c.isAlpha || c = '*' || c = '-'

/-- Regex-build loop over the alphabet characters. -/
def checkAlphabet : List Char → Except BMError Unit
  | [] => .ok ()
  | c :: rest =>
    if validAlphabetChar c then checkAlphabet rest
    else .error (.invalidAlphabetChar c)

/-- Association-list lookup on sites (Python dict membership/read). -/
def lookupSite (l : List (Site × α)) (s : Site) : Option α :=
  match l with
  | [] => none
  | (s', a) :: rest => if s' = s then some a else lookupSite rest s

/-- Insert a mutant character into the per-site set `muts[site]`
(`collections.defaultdict(set)` with `.add`). -/
def addMutChar (l : List (Site × List Char)) (s : Site) (m : Char) :
    List (Site × List Char) :=
  match l with
  | [] => [(s, [m])]
  | (s', ms) :: rest =>
    if s' = s then (s', if m ∈ ms then ms else ms ++ [m]) :: rest
    else (s', ms) :: addMutChar rest s m

/-- The `for sub in subs_in_variants` loop of `__init__`: parse every
substitution, record the wildtype seen at each site (raising on a
disagreement) and collect the set of mutant characters per site. -/
def collectSubs (alphabet : List Char) (sitesAsStr : Bool) :
    List PyStr → List (Site × Char) → List (Site × List Char) →
    Except BMError (List (Site × Char) × List (Site × List Char))
  | [], wts, muts => .ok (wts, muts)
  | sub :: rest, wts, muts => do
    let sb ← parseSub alphabet sitesAsStr sub
    match lookupSite wts sb.site with
    | none =>
      collectSubs alphabet sitesAsStr rest (wts ++ [(sb.site, sb.wt)])
        (addMutChar muts sb.site sb.mutCh)
    | some w =>
      if sb.wt = w then
        collectSubs alphabet sitesAsStr rest wts (addMutChar muts sb.site sb.mutCh)
      else .error (.wtMismatch sb.site)

/-- Inner loop of the `expand` branch: one site, all alphabet
characters.  `i` is the running index counter and `wtIdx` the wildtype
index recorded so far for this site; recording it twice (possible only
when the wildtype character repeats in the alphabet) hits the Python
`assert site not in self._wt_indices`. -/
def expandChars (wt : Char) (site : Int) : List Char → Nat → Option Nat →
    Except BMError (List PyStr × Nat × Option Nat)
  | [], i, wtIdx => .ok ([], i, wtIdx)
  | c :: cs, i, wtIdx =>
    if c = wt then
      match wtIdx with
      | some _ => .error .assertFail
      | none => do
        let (es, i', w') ← expandChars wt site cs (i + 1) (some i)
        .ok ((wt :: intStr site ++ [c]) :: es, i', w')
    else do
      let (es, i', w') ← expandChars wt site cs (i + 1) wtIdx
      .ok ((wt :: intStr site ++ [c]) :: es, i', w')

/-- The Python `assert (site not in wts) or (wts[site] == wt)` of the
`expand` branch (kept as a check, although the preceding consistency
loop guarantees it). -/
def expandGuard (wts : List (Site × Char)) (site : Int) (wt : Char) :
    Except BMError Unit :=
  match lookupSite wts (.num site) with
  | some w => if w = wt then pure () else .error .assertFail
  | none => pure ()

/-- Outer loop of the `expand` branch: `for site, wt in
enumerate(wtseq, start=1)`. -/
def expandSites (alphabet : List Char) (wts : List (Site × Char)) :
    List Char → Int → Nat →
    Except BMError (List PyStr × List Site × List (Site × Nat))
  | [], _, _ => .ok ([], [], [])
  | wt :: wseq, site, i => do
    expandGuard wts site wt
    let (es, i', wtIdx?) ← expandChars wt site alphabet i none
    let (es', sites', wtIdxs) ← expandSites alphabet wts wseq (site + 1) i'
    let sites : List Site := alphabet.map (fun _ => Site.num site)
    match wtIdx? with
    | none => .ok (es ++ es', sites ++ sites', wtIdxs)
    | some j => .ok (es ++ es', sites ++ sites', (Site.num site, j) :: wtIdxs)

/-- Set of mutant characters at a site (`muts[site]`). -/
def mutsOfSite (muts : List (Site × List Char)) (site : Site) : List Char :=
  (lookupSite muts site).getD []

/-- Index-assignment loop of the observed-only branch: for each site in
natural order, the distinct mutant characters sorted by alphabet
position. -/
def observedBuild (alphabet : List Char) (muts : List (Site × List Char)) :
    List (Site × Char) → List PyStr × List Site
  | [] => ([], [])
  | (site, wt) :: rest =>
    let ms := List.insertionSort (mutLe alphabet) (mutsOfSite muts site)
    let (es, ss) := observedBuild alphabet muts rest
    (ms.map (fun m => wt :: siteStr site ++ [m]) ++ es,
     ms.map (fun _ => site) ++ ss)

/-- Numeric values of the site keys (in `expand` mode every site is
numeric, so this is exactly `wts.keys()`). -/
def siteNums (wts : List (Site × Char)) : List Int :=
  wts.filterMap (fun p => match p.1 with | .num n => some n | .str _ => none)

/-- The `for site, wt in wts.items()` consistency loop of the `expand`
branch, comparing each observed wildtype with `wtseq[site - 1]`.  The
string-site case cannot occur in `expand` mode. -/
def checkWtsAgainst (wtseq : PyStr) : List (Site × Char) → Except BMError Unit
  | [] => .ok ()
  | (site, wt) :: rest =>
    match site with
    | .num n =>
      if wtseq[(n - 1).toNat]? = some wt then checkWtsAgainst wtseq rest
      else .error (.wtseqDisagrees site)
    | .str _ => .error .assertFail

/-- Final steps shared by both branches: the Python
`assert len(self._sub_to_i) == len(self._i_to_sub) == self.binarylength`
(equivalent to the entry list having no repeats), then building
`binary_variants` by encoding every variant. -/
def finishMap (alphabet : List Char) (sites_as_str : Bool)
    (variants : List PyStr) (entries : List PyStr) (sites : List Site)
    (wtIdxs : List (Site × Nat)) : Except BMError BinaryMap :=
  if entries.Nodup then do
    let bm0 : BinaryMap :=
      ⟨alphabet, sites_as_str, entries, sites, wtIdxs, variants, []⟩
    let rows ← variants.mapM (fun v => bm0.sub_str_to_indices v)
    .ok { bm0 with binary_variants := rows }
  else .error .assertFail

/-- Everything `__init__` does after `subs_in_variants` is fixed:
parse and group the substitutions, then run the `expand` or
observed-only branch and build the matrix.  `allowedIsSome` records
whether `allowed_subs` was supplied (read again inside the `expand`
branch). -/
def mkFromSubs (variants : List PyStr) (alphabet : List Char)
    (allowedIsSome : Bool) (sites_as_str : Bool) (expand : Bool)
    (wtseq : Option PyStr) (subsInVariants : List PyStr) :
    Except BMError BinaryMap := do
  let (wts, muts) ← collectSubs alphabet sites_as_str subsInVariants [] []
  if expand then
    if sites_as_str then throw .expandWithSitesAsStr
    else if allowedIsSome then throw .expandWithAllowedSubs
    else
      match wtseq with
      | none => throw .wtseqNotStr
      | some w =>
        if ¬ (w.all (fun c => decide (c ∈ alphabet)) = true) then throw .wtseqBadChars
        else
          match (siteNums wts).min?, (siteNums wts).max? with
          | none, _ => throw .minEmpty
          | some _, none => throw .minEmpty
          | some lo, some hi =>
            if lo < 1 then throw .siteBelowOne
            else if hi > (w.length : Int) then throw .wtseqTooShort
            else do
              checkWtsAgainst w wts
              let (entries, sites, wtIdxs) ← expandSites alphabet wts w 1 0
              finishMap alphabet sites_as_str variants entries sites wtIdxs
  else
    match wtseq with
    | some _ => throw .wtseqWithoutExpand
    | none =>
      let sortedWts := List.insertionSort wtsLe wts
      let (entries, sites) := observedBuild alphabet muts sortedWts
      finishMap alphabet sites_as_str variants entries sites []

/-- Model of `BinaryMap.__init__` (the registry and matrix parts; the
scalar-annotation columns are independent of every claim verified here
and are omitted).  Arguments mirror the Python keyword arguments. -/
def mkBinaryMap (variants : List PyStr) (alphabet : List Char)
    (allowed_subs : Option (List PyStr)) (sites_as_str : Bool)
    (expand : Bool) (wtseq : Option PyStr) : Except BMError BinaryMap := do
  checkAlphabet alphabet
  let observed := (variants.map tokenize).join.dedup
  match allowed_subs with
  | none => mkFromSubs variants alphabet false sites_as_str expand wtseq observed
  | some a =>
    let extras := List.insertionSort pyStrLe (observed.filter (fun t => t ∉ a))
    if extras.isEmpty then
      mkFromSubs variants alphabet true sites_as_str expand wtseq a.dedup
    else throw (.notAllowed extras)

/-! ### Lemmas about the substitution grammar -/

theorem digitsToNat_concat (ds : PyStr) (d : Char) :
    digitsToNat (ds ++ [d]) = digitsToNat ds * 10 + (d.toNat - 48) := by
  simp [digitsToNat, List.foldl_append]

theorem digitChar_isDigit {n : Nat} (h : n < 10) : (digitChar n).isDigit = true := by
  interval_cases n <;> decide

theorem digitChar_toNat {n : Nat} (h : n < 10) : (digitChar n).toNat = n + 48 := by
  interval_cases n <;> decide

theorem natDigitsF_spec : ∀ f n, n < f →
    natDigitsF f n ≠ [] ∧ (∀ c ∈ natDigitsF f n, c.isDigit = true) ∧
      digitsToNat (natDigitsF f n) = n := by
  intro f
  induction f with
  | zero => intro n hn; omega
  | succ f ih =>
    intro n hn
    by_cases h10 : n < 10
    · refine ⟨by simp [natDigitsF, h10], ?_, ?_⟩
      · intro c hc
        simp only [natDigitsF, if_pos h10, List.mem_singleton] at hc
        subst hc
        exact digitChar_isDigit h10
      · have : digitsToNat [digitChar n] = (digitChar n).toNat - 48 := by
          simp [digitsToNat]
        simp [natDigitsF, if_pos h10, this, digitChar_toNat h10]
    · have hdiv : n / 10 < f := by
        have h1 : n / 10 < n := Nat.div_lt_self (by omega) (by omega)
        omega
      obtain ⟨hne, hdig, hval⟩ := ih (n / 10) hdiv
      have hmod : n % 10 < 10 := Nat.mod_lt _ (by omega)
      refine ⟨by simp [natDigitsF, if_neg h10], ?_, ?_⟩
      · intro c hc
        simp only [natDigitsF, if_neg h10, List.mem_append, List.mem_singleton] at hc
        rcases hc with hc | hc
        · exact hdig c hc
        · subst hc; exact digitChar_isDigit hmod
      · simp only [natDigitsF, if_neg h10, digitsToNat_concat, hval,
          digitChar_toNat hmod]
        omega

theorem natDigits_ne_nil (n : Nat) : natDigits n ≠ [] :=
  (natDigitsF_spec (n + 1) n (by omega)).1

theorem natDigits_all_digit (n : Nat) : ∀ c ∈ natDigits n, c.isDigit = true :=
  (natDigitsF_spec (n + 1) n (by omega)).2.1

theorem digitsToNat_natDigits (n : Nat) : digitsToNat (natDigits n) = n :=
  (natDigitsF_spec (n + 1) n (by omega)).2.2

theorem digitVal?_ascii {c : Char} (h : c.isDigit = true) :
    digitVal? c = some (c.toNat - 48) := by
  rw [digitVal?, if_pos h]

theorem isUniDigit_of_isDigit {c : Char} (h : c.isDigit = true) :
    isUniDigit c = true := by
  rw [isUniDigit, digitVal?_ascii h]
  rfl

theorem digitsVal_eq_digitsToNat :
    ∀ (ds : PyStr), (∀ c ∈ ds, c.isDigit = true) →
      digitsVal ds = digitsToNat ds := by
  suffices haux : ∀ (ds : PyStr) (acc : Nat), (∀ c ∈ ds, c.isDigit = true) →
      ds.foldl (fun a d => a * 10 + (digitVal? d).getD 0) acc =
        ds.foldl (fun a d => a * 10 + (d.toNat - 48)) acc by
    intro ds h
    exact haux ds 0 h
  intro ds
  induction ds with
  | nil => intro acc _; rfl
  | cons d ds ih =>
    intro acc h
    rw [List.foldl_cons, List.foldl_cons,
      digitVal?_ascii (h d (List.mem_cons_self _ _))]
    exact ih _ (fun c hc => h c (List.mem_cons_of_mem _ hc))

theorem digitsVal_natDigits (n : Nat) : digitsVal (natDigits n) = n := by
  rw [digitsVal_eq_digitsToNat _ (natDigits_all_digit n), digitsToNat_natDigits]

theorem siteMatch_false_cons (c : Char) (ds : PyStr) :
    siteMatch false (c :: ds) =
      (if c = '-' then !ds.isEmpty && ds.all isUniDigit
       else (c :: ds).all isUniDigit) := rfl

theorem siteOfMid_false_cons (c : Char) (ds : PyStr) :
    siteOfMid false (c :: ds) =
      (if c = '-' then .num (-(digitsVal ds : Int))
       else .num (digitsVal (c :: ds) : Int)) := rfl

theorem intStr_neg {n : Int} (hn : n < 0) : intStr n = '-' :: natDigits n.natAbs := by
  simp [intStr, if_pos hn]

theorem intStr_nonneg {n : Int} (hn : ¬ n < 0) : intStr n = natDigits n.toNat := by
  simp [intStr, if_neg hn]

theorem siteMatch_intStr (n : Int) : siteMatch false (intStr n) = true := by
  by_cases hn : n < 0
  · rw [intStr_neg hn, siteMatch_false_cons, if_pos rfl]
    have hall := natDigits_all_digit n.natAbs
    have hne := natDigits_ne_nil n.natAbs
    simp only [Bool.and_eq_true, List.all_eq_true]
    exact ⟨by simpa [List.isEmpty_iff] using hne,
      fun c hc => isUniDigit_of_isDigit (hall c hc)⟩
  · rw [intStr_nonneg hn]
    rcases hx : natDigits n.toNat with _ | ⟨c, ds⟩
    · exact absurd hx (natDigits_ne_nil _)
    · have hall : ∀ c' ∈ natDigits n.toNat, c'.isDigit = true := natDigits_all_digit _
      rw [hx] at hall
      have hc : c.isDigit = true := hall c (by simp)
      have hcne : ¬ c = '-' := by
        intro h; subst h; simp [Char.isDigit] at hc
      rw [siteMatch_false_cons, if_neg hcne]
      simp only [List.all_eq_true]
      exact fun c' hc' => isUniDigit_of_isDigit (hall c' hc')

theorem siteOfMid_intStr (n : Int) : siteOfMid false (intStr n) = .num n := by
  by_cases hn : n < 0
  · rw [intStr_neg hn, siteOfMid_false_cons, if_pos rfl, digitsVal_natDigits]
    have h' : ((n.natAbs : Int)) = -n := by omega
    rw [h', neg_neg]
  · rw [intStr_nonneg hn]
    rcases hx : natDigits n.toNat with _ | ⟨c, ds⟩
    · exact absurd hx (natDigits_ne_nil _)
    · have hall : ∀ c' ∈ natDigits n.toNat, c'.isDigit = true := natDigits_all_digit _
      rw [hx] at hall
      have hc : c.isDigit = true := hall c (by simp)
      have hcne : ¬ c = '-' := by
        intro h; subst h; simp [Char.isDigit] at hc
      rw [siteOfMid_false_cons, if_neg hcne, ← hx, digitsVal_natDigits]
      have h' : ((n.toNat : Int)) = n := by omega
      rw [h']

/-- Sites whose serialization parses back to themselves: every `int` site
in numeric mode, every nonempty newline-free string site in string mode.
Every site produced by a successful parse is of this shape. -/
def ValidSite (sitesAsStr : Bool) (st : Site) : Prop :=
  siteMatch sitesAsStr (siteStr st) = true ∧ siteOfMid sitesAsStr (siteStr st) = st

theorem validSite_num (n : Int) : ValidSite false (.num n) :=
  ⟨siteMatch_intStr n, siteOfMid_intStr n⟩

theorem validSite_ofMid {mode : Bool} {mid : PyStr}
    (h : siteMatch mode mid = true) : ValidSite mode (siteOfMid mode mid) := by
  cases mode with
  | true => exact ⟨h, rfl⟩
  | false =>
    rcases mid with _ | ⟨c, ds⟩
    · simp [siteMatch] at h
    · rw [siteOfMid_false_cons]
      by_cases hc : c = '-'
      · rw [if_pos hc]; exact validSite_num _
      · rw [if_neg hc]; exact validSite_num _

theorem getLast?_concat' (l : List α) (a : α) : (l ++ [a]).getLast? = some a := by
  rw [List.getLast?_eq_head?_reverse]
  simp

theorem dropLast_concat' (l : List α) (a : α) : (l ++ [a]).dropLast = l := by
  simp

theorem getLast?_decomp {l : List α} {m : α} (h : l.getLast? = some m) :
    l.dropLast ++ [m] = l :=
  List.dropLast_append_getLast? m (Option.mem_def.mpr h)

/-- Cons-equation of the parser (the `rfl` keeps later rewriting
independent of generated equation lemmas). -/
theorem parseSub_cons (alphabet : List Char) (mode : Bool) (w : Char) (rest : PyStr) :
    parseSub alphabet mode (w :: rest) =
      (match rest.getLast? with
       | none => .error (.noRegexMatch (w :: rest))
       | some m =>
         if w ∈ alphabet ∧ m ∈ alphabet ∧ siteMatch mode rest.dropLast = true then
           if w = m then .error (.wtEqMut (w :: rest))
           else .ok ⟨w, siteOfMid mode rest.dropLast, m⟩
         else .error (.noRegexMatch (w :: rest))) := rfl

/-- Characterization of a successful parse. -/
theorem parseSub_ok_iff {alphabet : List Char} {sitesAsStr : Bool}
    {tok : PyStr} {sb : Subst} :
    parseSub alphabet sitesAsStr tok = .ok sb ↔
    ∃ mid, tok = sb.wt :: mid ++ [sb.mutCh] ∧ sb.wt ∈ alphabet ∧
      sb.mutCh ∈ alphabet ∧ siteMatch sitesAsStr mid = true ∧
      sb.wt ≠ sb.mutCh ∧ sb.site = siteOfMid sitesAsStr mid := by
  constructor
  · intro h
    rcases tok with _ | ⟨w, rest⟩
    · simp [parseSub] at h
    · rcases hg : rest.getLast? with _ | m
      · simp [parseSub_cons, hg] at h
      · simp only [parseSub_cons, hg] at h
        by_cases hcond : w ∈ alphabet ∧ m ∈ alphabet ∧
            siteMatch sitesAsStr rest.dropLast = true
        · rw [if_pos hcond] at h
          by_cases hwm : w = m
          · rw [if_pos hwm] at h; exact absurd h (by simp)
          · rw [if_neg hwm] at h
            have hsb : sb = ⟨w, siteOfMid sitesAsStr rest.dropLast, m⟩ := by
              cases h; rfl
            subst hsb
            refine ⟨rest.dropLast, ?_, hcond.1, hcond.2.1, hcond.2.2, hwm, rfl⟩
            show w :: rest = w :: (rest.dropLast ++ [m])
            rw [getLast?_decomp hg]
        · rw [if_neg hcond] at h
          exact absurd h (by simp)
  · rintro ⟨mid, htok, hw, hm, hmatch, hne, hsite⟩
    subst htok
    have hg : (mid ++ [sb.mutCh]).getLast? = some sb.mutCh := getLast?_concat' _ _
    have hd : (mid ++ [sb.mutCh]).dropLast = mid := dropLast_concat' _ _
    show parseSub alphabet sitesAsStr (sb.wt :: (mid ++ [sb.mutCh])) = .ok sb
    rw [parseSub_cons, hg]
    show (if sb.wt ∈ alphabet ∧ sb.mutCh ∈ alphabet ∧
          siteMatch sitesAsStr (mid ++ [sb.mutCh]).dropLast = true then
        if sb.wt = sb.mutCh then
          Except.error (BMError.wtEqMut (sb.wt :: (mid ++ [sb.mutCh])))
        else Except.ok (⟨sb.wt, siteOfMid sitesAsStr (mid ++ [sb.mutCh]).dropLast,
          sb.mutCh⟩ : Subst)
      else Except.error (BMError.noRegexMatch (sb.wt :: (mid ++ [sb.mutCh])))) =
      Except.ok sb
    rw [hd, if_pos ⟨hw, hm, hmatch⟩, if_neg hne]
    cases sb with
    | mk wt site mutCh =>
      rw [← hsite]

/-- Every successful parse yields a valid site, alphabet characters, and
distinct wildtype and mutant. -/
theorem parseSub_ok_props {alphabet : List Char} {sitesAsStr : Bool}
    {tok : PyStr} {sb : Subst} (h : parseSub alphabet sitesAsStr tok = .ok sb) :
    ValidSite sitesAsStr sb.site ∧ sb.wt ∈ alphabet ∧ sb.mutCh ∈ alphabet ∧
      sb.wt ≠ sb.mutCh := by
  obtain ⟨mid, _, hw, hm, hmatch, hne, hsite⟩ := parseSub_ok_iff.mp h
  exact ⟨hsite ▸ validSite_ofMid hmatch, hw, hm, hne⟩

/-- Re-parsing the serialization of a valid substitution gives it back. -/
theorem parseSub_subStr {alphabet : List Char} {mode : Bool} (sb : Subst)
    (hw : sb.wt ∈ alphabet) (hm : sb.mutCh ∈ alphabet) (hne : sb.wt ≠ sb.mutCh)
    (hv : ValidSite mode sb.site) :
    parseSub alphabet mode (subStr sb) = .ok sb :=
  parseSub_ok_iff.mpr ⟨siteStr sb.site, rfl, hw, hm, hv.1, hne, hv.2.symm⟩

/-! ### Claim C9: the token grammar -/

/-- The site-group shape exactly as the spec words it, amended in string
mode by the newline exclusion that Python's regex `.` imposes. -/
def specSiteForm (sitesAsStr : Bool) (mid : PyStr) : Prop :=
  if sitesAsStr then mid ≠ [] ∧ ∀ c ∈ mid, c ≠ '\n'
  else ∃ ds, (mid = ds ∨ mid = '-' :: ds) ∧ ds ≠ [] ∧
    ∀ c ∈ ds, isUniDigit c = true

theorem siteMatch_true_eq (mid : PyStr) :
    siteMatch true mid = (!mid.isEmpty && mid.all (fun c => c != '\n')) := rfl

theorem siteMatch_iff_spec (mode : Bool) (mid : PyStr) :
    siteMatch mode mid = true ↔ specSiteForm mode mid := by
  cases mode with
  | true =>
    show _ ↔ (mid ≠ [] ∧ ∀ c ∈ mid, c ≠ '\n')
    rw [siteMatch_true_eq, Bool.and_eq_true, List.all_eq_true]
    constructor
    · rintro ⟨h1, h2⟩
      refine ⟨fun hnil => by subst hnil; simp at h1, fun c hc => ?_⟩
      simpa using h2 c hc
    · rintro ⟨h1, h2⟩
      refine ⟨?_, fun c hc => by simpa using h2 c hc⟩
      cases mid with
      | nil => exact absurd rfl h1
      | cons a l => simp
  | false =>
    show _ ↔ ∃ ds, (mid = ds ∨ mid = '-' :: ds) ∧ ds ≠ [] ∧
      ∀ c ∈ ds, isUniDigit c = true
    rcases mid with _ | ⟨c, ds⟩
    · constructor
      · intro h; exact absurd h (by decide)
      · rintro ⟨ds, hds, hne, _⟩
        rcases hds with h | h
        · exact absurd h.symm hne
        · exact absurd h (by simp)
    · rw [siteMatch_false_cons]
      by_cases hc : c = '-'
      · subst hc
        rw [if_pos rfl, Bool.and_eq_true, List.all_eq_true]
        constructor
        · rintro ⟨h1, h2⟩
          refine ⟨ds, Or.inr rfl, ?_, h2⟩
          intro hnil; subst hnil; simp at h1
        · rintro ⟨ds', hds, hne, hdig⟩
          rcases hds with h | h
          · exfalso
            have hdd : isUniDigit '-' = true :=
              hdig '-' (h ▸ List.mem_cons_self '-' ds)
            exact absurd hdd (by decide)
          · have hds' : ds = ds' := by injection h
            subst hds'
            refine ⟨?_, hdig⟩
            cases ds with
            | nil => exact absurd rfl hne
            | cons a l => simp
      · rw [if_neg hc]
        constructor
        · intro h
          exact ⟨c :: ds, Or.inl rfl, by simp, List.all_eq_true.mp h⟩
        · rintro ⟨ds', hds, hne, hdig⟩
          rcases hds with h | h
          · rw [List.all_eq_true]
            intro x hx
            exact hdig x (h ▸ hx)
          · exfalso
            have hcm : c = '-' := by injection h with h1 h2
            exact hc hcm

theorem except_error_iff_not_ok {x : Except BMError α} :
    (∃ e, x = .error e) ↔ ¬ ∃ a, x = .ok a := by
  cases x with
  | ok a => simp
  | error e => simp

/-- Amino-acid alphabet with stop (`AAS_WITHSTOP` of the Python module). -/
def AAS_WITHSTOP : List Char :=
  ['A','C','D','E','F','G','H','I','K','L','M','N','P','Q','R','S','T','V','W','Y','*']

/-- Claim C9 (amended): parsing fails exactly when the token does not
decompose as `wt ++ site ++ mut` with `wt`, `mut` in the alphabet and
the site group matching the configured site kind — `-?\d+` in numeric
mode, where `\d` is any Unicode decimal digit (category `Nd`), not
only ASCII `[0-9]` as the claim states; and in string mode any
non-empty remainder that contains no newline (Python's `.` never
matches a newline) — or when `wt = mut`.  In particular `"L3aT"` fails
to parse under the numeric-site configuration. -/
theorem C9_parse_error_iff :
    (∀ (alphabet : List Char) (sitesAsStr : Bool) (tok : PyStr),
      (∃ e, parseSub alphabet sitesAsStr tok = .error e) ↔
      ¬ ∃ w mid m, tok = w :: (mid ++ [m]) ∧ w ∈ alphabet ∧ m ∈ alphabet ∧
          specSiteForm sitesAsStr mid ∧ w ≠ m) ∧
    (∃ e, parseSub AAS_WITHSTOP false ['L','3','a','T'] = .error e) := by
  constructor
  · intro alphabet sitesAsStr tok
    rw [except_error_iff_not_ok]
    apply not_congr
    constructor
    · rintro ⟨sb, hsb⟩
      obtain ⟨mid, htok, hw, hm, hmatch, hne, _⟩ := parseSub_ok_iff.mp hsb
      exact ⟨sb.wt, mid, sb.mutCh, htok, hw, hm,
        (siteMatch_iff_spec _ _).mp hmatch, hne⟩
    · rintro ⟨w, mid, m, htok, hw, hm, hform, hne⟩
      refine ⟨⟨w, siteOfMid sitesAsStr mid, m⟩, parseSub_ok_iff.mpr
        ⟨mid, htok, hw, hm, (siteMatch_iff_spec _ _).mpr hform, hne, rfl⟩⟩
  · exact ⟨.noRegexMatch _, rfl⟩

/-- Counterexample to claim C9 as stated, in both site modes.  String
mode: the spec's "any non-empty remainder" admits a newline but the
code's regex does not, so `"A1\n2C"` satisfies the claim's success
condition yet fails.  Numeric mode: the code's `\d` is Unicode-aware
and `int()` accepts such digits, so the token `"A٥C"` (Arabic-Indic
five, not an ASCII digit, hence not `-?[0-9]+`) parses with site 5
although the claim says it must fail. -/
theorem C9_counterexample :
    (∃ e, parseSub ['A', 'C'] true ['A', '1', '\n', '2', 'C'] = .error e) ∧
    (['A', '1', '\n', '2', 'C'] : PyStr) = 'A' :: (['1', '\n', '2'] ++ ['C']) ∧
    'A' ∈ (['A', 'C'] : List Char) ∧ 'C' ∈ (['A', 'C'] : List Char) ∧
    (['1', '\n', '2'] : PyStr) ≠ [] ∧ ('A' : Char) ≠ 'C' ∧
    parseSub ['A', 'C'] false ['A', '٥', 'C'] =
      .ok ⟨'A', Site.num 5, 'C'⟩ ∧
    ('٥' : Char).isDigit = false :=
  ⟨⟨.noRegexMatch _, rfl⟩, rfl, by decide, by decide, by decide, by decide,
   by rfl, by decide⟩

/-! ### Staging lemmas for the constructor -/

theorem checkAlphabet_ok {l : List Char} (h : ∀ c ∈ l, validAlphabetChar c = true) :
    checkAlphabet l = .ok () := by
  induction l with
  | nil => rfl
  | cons c cs ih =>
    show (if validAlphabetChar c = true then checkAlphabet cs
      else .error (.invalidAlphabetChar c)) = .ok ()
    rw [if_pos (h c (List.mem_cons_self c cs))]
    exact ih fun c' hc' => h c' (List.mem_cons_of_mem c hc')

theorem mkBinaryMap_none (variants : List PyStr) (alphabet : List Char)
    (strMode expand : Bool) (wtseq : Option PyStr)
    (halpha : ∀ c ∈ alphabet, validAlphabetChar c = true) :
    mkBinaryMap variants alphabet none strMode expand wtseq =
      mkFromSubs variants alphabet false strMode expand wtseq
        ((variants.map tokenize).join.dedup) := by
  unfold mkBinaryMap
  rw [checkAlphabet_ok halpha]
  rfl

theorem mkBinaryMap_some (variants : List PyStr) (alphabet : List Char)
    (a : List PyStr) (strMode expand : Bool) (wtseq : Option PyStr)
    (halpha : ∀ c ∈ alphabet, validAlphabetChar c = true) :
    mkBinaryMap variants alphabet (some a) strMode expand wtseq =
      (if (List.insertionSort pyStrLe
            (((variants.map tokenize).join.dedup).filter (fun t => t ∉ a))).isEmpty then
        mkFromSubs variants alphabet true strMode expand wtseq a.dedup
      else .error (.notAllowed (List.insertionSort pyStrLe
        (((variants.map tokenize).join.dedup).filter (fun t => t ∉ a))))) := by
  unfold mkBinaryMap
  rw [checkAlphabet_ok halpha]
  rfl

/-! ### Claim C10: expand mode with no observed substitution -/

/-- Claim C10: in expand mode with a valid wildtype sequence, if no
variant contributes any substitution token then construction stops with
the error Python raises from `min(wts.keys())` on an empty dict, instead
of succeeding with all-wildtype rows. -/
theorem C10_expand_empty (variants : List PyStr) (alphabet : List Char) (w : PyStr)
    (halpha : ∀ c ∈ alphabet, validAlphabetChar c = true)
    (hw : ∀ c ∈ w, c ∈ alphabet)
    (hv : ∀ v ∈ variants, tokenize v = []) :
    mkBinaryMap variants alphabet none false true (some w) = .error .minEmpty := by
  have hobs : (variants.map tokenize).join = [] := by
    rw [List.join_eq_nil]
    intro l hl
    rw [List.mem_map] at hl
    obtain ⟨v, hv', rfl⟩ := hl
    exact hv v hv'
  rw [mkBinaryMap_none variants alphabet false true (some w) halpha, hobs]
  show mkFromSubs variants alphabet false false true (some w) [] = .error .minEmpty
  have hall : w.all (fun c => decide (c ∈ alphabet)) = true := by
    rw [List.all_eq_true]
    intro c hc
    exact decide_eq_true (hw c hc)
  unfold mkFromSubs
  show (if ¬ (w.all (fun c => decide (c ∈ alphabet)) = true) then
      Except.error BMError.wtseqBadChars
    else Except.error BMError.minEmpty) = Except.error BMError.minEmpty
  rw [if_neg (not_not_intro hall)]

/-- Witness for C10 at a concrete input. -/
theorem C10_expand_empty_witness :
    mkBinaryMap [[], []] ['A', 'C'] none false true (some ['A', 'C']) =
      .error .minEmpty :=
  C10_expand_empty [[], []] ['A', 'C'] ['A', 'C'] (by decide)
    (by decide) (by decide)

/-! ### Unfolding equations and error-shape lemmas for the pipeline -/

theorem exc_ok_bind (a : α) (f : α → Except BMError β) :
    (Except.ok a >>= f) = f a := rfl

theorem exc_error_bind (e : BMError) (f : α → Except BMError β) :
    ((Except.error e : Except BMError α) >>= f) = Except.error e := rfl

theorem collectSubs_cons (alpha : List Char) (mode : Bool) (sub : PyStr)
    (rest : List PyStr) (wts : List (Site × Char)) (muts : List (Site × List Char)) :
    collectSubs alpha mode (sub :: rest) wts muts =
      (parseSub alpha mode sub >>= fun sb =>
        match lookupSite wts sb.site with
        | none => collectSubs alpha mode rest (wts ++ [(sb.site, sb.wt)])
            (addMutChar muts sb.site sb.mutCh)
        | some w =>
          if sb.wt = w then
            collectSubs alpha mode rest wts (addMutChar muts sb.site sb.mutCh)
          else .error (.wtMismatch sb.site)) := rfl

theorem encodeTokens_cons (bm : BinaryMap) (tok : PyStr) (rest : List PyStr)
    (seen : List Site) :
    bm.encodeTokens (tok :: rest) seen =
      (parseSub bm.alphabet bm.sites_as_str tok >>= fun sb =>
        if sb.site ∈ seen then .error (.dupSite sb.site)
        else
          bm.sub_to_i tok >>= fun i =>
            bm.encodeTokens rest (sb.site :: seen) >>= fun p =>
              .ok (sb.site :: p.1, i :: p.2)) := rfl

theorem expandChars_cons (wt : Char) (site : Int) (c : Char) (cs : List Char)
    (i : Nat) (wtIdx : Option Nat) :
    expandChars wt site (c :: cs) i wtIdx =
      (if c = wt then
        match wtIdx with
        | some _ => .error .assertFail
        | none =>
          expandChars wt site cs (i + 1) (some i) >>= fun p =>
            .ok ((wt :: intStr site ++ [c]) :: p.1, p.2.1, p.2.2)
      else
        expandChars wt site cs (i + 1) wtIdx >>= fun p =>
          .ok ((wt :: intStr site ++ [c]) :: p.1, p.2.1, p.2.2)) := rfl

theorem expandSites_cons (alphabet : List Char) (wts : List (Site × Char))
    (wt : Char) (wseq : List Char) (site : Int) (i : Nat) :
    expandSites alphabet wts (wt :: wseq) site i = (do
      expandGuard wts site wt
      let (es, i', wtIdx?) ← expandChars wt site alphabet i none
      let (es', sites', wtIdxs) ← expandSites alphabet wts wseq (site + 1) i'
      let sites : List Site := alphabet.map (fun _ => Site.num site)
      match wtIdx? with
      | none => .ok (es ++ es', sites ++ sites', wtIdxs)
      | some j => .ok (es ++ es', sites ++ sites', (Site.num site, j) :: wtIdxs)) := rfl

theorem checkWtsAgainst_cons (wtseq : PyStr) (site : Site) (wt : Char)
    (rest : List (Site × Char)) :
    checkWtsAgainst wtseq ((site, wt) :: rest) =
      (match site with
       | .num n =>
         if wtseq[(n - 1).toNat]? = some wt then checkWtsAgainst wtseq rest
         else .error (.wtseqDisagrees site)
       | .str _ => .error .assertFail) := rfl

/-- No error an `Except` computation can surface is the
`allowed_subs` validation error. -/
def NotNA (x : Except BMError α) : Prop := ∀ l, x ≠ .error (.notAllowed l)

theorem notNA_ok (a : α) : NotNA (Except.ok a) := by
  intro l h
  exact absurd h (by simp)

theorem notNA_error {e : BMError} (h : ∀ l, e ≠ .notAllowed l) :
    NotNA (Except.error (α := α) e) := by
  intro l hl
  have he : e = .notAllowed l := by injection hl
  exact h l he

theorem notNA_bind {x : Except BMError α} {f : α → Except BMError β}
    (hx : NotNA x) (hf : ∀ a, NotNA (f a)) : NotNA (x >>= f) := by
  cases x with
  | ok a => rw [exc_ok_bind]; exact hf a
  | error e =>
    rw [exc_error_bind]
    refine notNA_error fun l hl => ?_
    exact hx l (by rw [hl])

/-- Variant of `notNA_error` for `throw`. -/
theorem notNA_throw {e : BMError} (h : ∀ l, e ≠ .notAllowed l) :
    NotNA (throw e : Except BMError α) := notNA_error h

/-- The `expand`-branch site guard raises only `assertFail`. -/
theorem expandGuard_notNA (wts : List (Site × Char)) (site : Int) (wt : Char) :
    NotNA (expandGuard wts site wt) := by
  unfold expandGuard
  split
  · split
    · exact notNA_ok _
    · exact notNA_error (by intro l h; cases h)
  · exact notNA_ok _

theorem parseSub_notNA (alpha : List Char) (mode : Bool) (tok : PyStr) :
    NotNA (parseSub alpha mode tok) := by
  rcases tok with _ | ⟨w, rest⟩
  · exact notNA_error (by intro l h; cases h)
  · rw [parseSub_cons]
    split
    · exact notNA_error (by intro l h; cases h)
    · split
      · split
        · exact notNA_error (by intro l h; cases h)
        · exact notNA_ok _
      · exact notNA_error (by intro l h; cases h)

theorem collectSubs_notNA (alpha : List Char) (mode : Bool) :
    ∀ (subs : List PyStr) (wts : List (Site × Char))
      (muts : List (Site × List Char)),
      NotNA (collectSubs alpha mode subs wts muts) := by
  intro subs
  induction subs with
  | nil => intro wts muts; exact notNA_ok _
  | cons sub rest ih =>
    intro wts muts
    rw [collectSubs_cons]
    refine notNA_bind (parseSub_notNA _ _ _) fun sb => ?_
    split
    · exact ih _ _
    · split
      · exact ih _ _
      · exact notNA_error (by intro l h; cases h)

theorem lookupIdx_notNA (bm : BinaryMap) (tok : PyStr) :
    NotNA (bm.sub_to_i tok) := by
  unfold BinaryMap.sub_to_i
  split
  · exact notNA_ok _
  · exact notNA_error (by intro l h; cases h)

theorem encodeTokens_notNA (bm : BinaryMap) :
    ∀ (toks : List PyStr) (seen : List Site), NotNA (bm.encodeTokens toks seen) := by
  intro toks
  induction toks with
  | nil => intro seen; exact notNA_ok _
  | cons tok rest ih =>
    intro seen
    rw [encodeTokens_cons]
    refine notNA_bind (parseSub_notNA _ _ _) fun sb => ?_
    split
    · exact notNA_error (by intro l h; cases h)
    · refine notNA_bind (lookupIdx_notNA _ _) fun i => ?_
      exact notNA_bind (ih _) fun p => notNA_ok _

theorem sub_str_to_indices_notNA (bm : BinaryMap) (s : PyStr) :
    NotNA (bm.sub_str_to_indices s) := by
  unfold BinaryMap.sub_str_to_indices
  exact notNA_bind (encodeTokens_notNA _ _ _) fun p => notNA_ok _

theorem mapM_indices_notNA (bm : BinaryMap) :
    ∀ variants : List PyStr,
      NotNA (variants.mapM (fun v => bm.sub_str_to_indices v)) := by
  intro variants
  induction variants with
  | nil => exact notNA_ok _
  | cons v rest ih =>
    rw [List.mapM_cons]
    refine notNA_bind (sub_str_to_indices_notNA _ _) fun r => ?_
    exact notNA_bind ih fun rs => notNA_ok _

theorem finishMap_notNA (alphabet : List Char) (strMode : Bool)
    (variants entries : List PyStr) (sites : List Site)
    (wtIdxs : List (Site × Nat)) :
    NotNA (finishMap alphabet strMode variants entries sites wtIdxs) := by
  unfold finishMap
  split
  · exact notNA_bind (mapM_indices_notNA _ _) fun rows => notNA_ok _
  · exact notNA_error (by intro l h; cases h)

theorem checkWtsAgainst_notNA (wtseq : PyStr) :
    ∀ wts : List (Site × Char), NotNA (checkWtsAgainst wtseq wts) := by
  intro wts
  induction wts with
  | nil => exact notNA_ok _
  | cons p rest ih =>
    obtain ⟨site, wt⟩ := p
    rw [checkWtsAgainst_cons]
    split
    · split
      · exact ih
      · exact notNA_error (by intro l h; cases h)
    · exact notNA_error (by intro l h; cases h)

theorem expandChars_notNA (wt : Char) (site : Int) :
    ∀ (cs : List Char) (i : Nat) (wtIdx : Option Nat),
      NotNA (expandChars wt site cs i wtIdx) := by
  intro cs
  induction cs with
  | nil => intro i wtIdx; exact notNA_ok _
  | cons c cs ih =>
    intro i wtIdx
    rw [expandChars_cons]
    split
    · split
      · exact notNA_error (by intro l h; cases h)
      · exact notNA_bind (ih _ _) fun p => notNA_ok _
    · exact notNA_bind (ih _ _) fun p => notNA_ok _

theorem expandSites_notNA (alphabet : List Char) (wts : List (Site × Char)) :
    ∀ (wseq : List Char) (site : Int) (i : Nat),
      NotNA (expandSites alphabet wts wseq site i) := by
  intro wseq
  induction wseq with
  | nil => intro site i; exact notNA_ok _
  | cons wt wseq ih =>
    intro site i
    rw [expandSites_cons]
    refine notNA_bind (expandGuard_notNA _ _ _) fun _ => ?_
    refine notNA_bind (expandChars_notNA _ _ _ _ _) fun q => ?_
    obtain ⟨es, i', wtIdx?⟩ := q
    refine notNA_bind (ih _ _) fun r => ?_
    obtain ⟨es2, sites2, wtIdxs2⟩ := r
    rcases wtIdx? with _ | j
    · exact notNA_ok _
    · exact notNA_ok _

/-- Helper for the observed-only tail of the constructor. -/
theorem observedFinish_notNA (alphabet : List Char) (strMode : Bool)
    (variants : List PyStr) (muts : List (Site × List Char))
    (sortedWts : List (Site × Char)) :
    NotNA (match observedBuild alphabet muts sortedWts with
           | (entries, sites) => finishMap alphabet strMode variants entries sites []) := by
  rcases hq : observedBuild alphabet muts sortedWts with ⟨entries, sites⟩
  exact finishMap_notNA _ _ _ _ _ _

/-- Helper for the expand tail of the constructor. -/
theorem expandFinish_notNA (alphabet : List Char) (strMode : Bool)
    (variants : List PyStr) (wts : List (Site × Char)) (w : PyStr) :
    NotNA (do
      checkWtsAgainst w wts
      let (entries, sites, wtIdxs) ← expandSites alphabet wts w 1 0
      finishMap alphabet strMode variants entries sites wtIdxs) := by
  refine notNA_bind (checkWtsAgainst_notNA _ _) fun _ => ?_
  refine notNA_bind (expandSites_notNA _ _ _ _ _) fun q => ?_
  obtain ⟨entries, sites, wtIdxs⟩ := q
  exact finishMap_notNA _ _ _ _ _ _

/-- No stage after the `allowed_subs` check can raise the
`allowed_subs` validation error. -/
theorem mkFromSubs_notNA (variants : List PyStr) (alphabet : List Char)
    (allowedIsSome strMode expand : Bool) (wtseq : Option PyStr)
    (subs : List PyStr) :
    NotNA (mkFromSubs variants alphabet allowedIsSome strMode expand wtseq subs) := by
  unfold mkFromSubs
  refine notNA_bind (collectSubs_notNA _ _ _ _ _) fun p => ?_
  obtain ⟨wts, muts⟩ := p
  repeat' split
  all_goals first
    | exact notNA_throw (by intro l h; cases h)
    | exact notNA_error (by intro l h; cases h)
    | exact expandFinish_notNA _ _ _ _ _
    | exact observedFinish_notNA _ _ _ _ _

/-! ### Claim C8: the allowed_subs superset check -/

theorem mem_observed_iff (variants : List PyStr) (t : PyStr) :
    t ∈ (variants.map tokenize).join.dedup ↔ ∃ v ∈ variants, t ∈ tokenize v := by
  rw [List.mem_dedup, List.mem_join]
  constructor
  · rintro ⟨l, hl, ht⟩
    rw [List.mem_map] at hl
    obtain ⟨v, hv, rfl⟩ := hl
    exact ⟨v, hv, ht⟩
  · rintro ⟨v, hv, ht⟩
    exact ⟨tokenize v, List.mem_map_of_mem tokenize hv, ht⟩

/-- Claim C8: with `allowed_subs` supplied, construction fails with the
`ValidationError` listing exactly the substitutions that occur in the
variants but are missing from `allowed_subs` (lexicographically sorted,
without repeats) whenever there is such a substitution; when
`allowed_subs` covers every used substitution, no `allowed_subs`
validation error can be raised (construction proceeds, subject only to
the other preconditions). -/
theorem C8_allowed_subs (variants : List PyStr) (alphabet : List Char)
    (a : List PyStr) (strMode expand : Bool) (wtseq : Option PyStr)
    (halpha : ∀ c ∈ alphabet, validAlphabetChar c = true) :
    ((∃ t ∈ (variants.map tokenize).join.dedup, t ∉ a) →
      mkBinaryMap variants alphabet (some a) strMode expand wtseq =
        .error (.notAllowed (List.insertionSort pyStrLe
          (((variants.map tokenize).join.dedup).filter (fun t => t ∉ a)))) ∧
      (∀ t, t ∈ List.insertionSort pyStrLe
          (((variants.map tokenize).join.dedup).filter (fun t => t ∉ a)) ↔
        ((∃ v ∈ variants, t ∈ tokenize v) ∧ t ∉ a)) ∧
      (List.insertionSort pyStrLe
          (((variants.map tokenize).join.dedup).filter (fun t => t ∉ a))).Nodup) ∧
    ((∀ t ∈ (variants.map tokenize).join.dedup, t ∈ a) →
      ∀ l, mkBinaryMap variants alphabet (some a) strMode expand wtseq ≠
        .error (.notAllowed l)) := by
  rw [mkBinaryMap_some variants alphabet a strMode expand wtseq halpha]
  constructor
  · rintro ⟨t, ht, hta⟩
    have hmem : ∀ s, s ∈ List.insertionSort pyStrLe
        (((variants.map tokenize).join.dedup).filter (fun u => u ∉ a)) ↔
        ((∃ v ∈ variants, s ∈ tokenize v) ∧ s ∉ a) := by
      intro s
      rw [List.mem_insertionSort, List.mem_filter, mem_observed_iff]
      simp
    have hne : ¬ (List.insertionSort pyStrLe
        (((variants.map tokenize).join.dedup).filter (fun u => u ∉ a))).isEmpty = true := by
      intro hempty
      rw [List.isEmpty_iff] at hempty
      have : t ∈ List.insertionSort pyStrLe
          (((variants.map tokenize).join.dedup).filter (fun u => u ∉ a)) :=
        (hmem t).mpr ⟨(mem_observed_iff variants t).mp ht, hta⟩
      rw [hempty] at this
      exact absurd this (by simp)
    refine ⟨by rw [if_neg hne], hmem, ?_⟩
    exact (List.perm_insertionSort _ _).nodup_iff.mpr
      (List.Nodup.filter _ (List.nodup_dedup _))
  · intro hsub l
    have hnil : ((variants.map tokenize).join.dedup).filter (fun u => u ∉ a) = [] := by
      rw [List.filter_eq_nil]
      intro u hu
      simp [hsub u hu]
    rw [hnil]
    rw [show (List.insertionSort pyStrLe ([] : List PyStr)).isEmpty = true from rfl,
      if_pos rfl]
    exact mkFromSubs_notNA _ _ _ _ _ _ _ l

/-- Witness for C8 at the doctest-like input: `allowed_subs` misses
`"M1A"`, so construction fails naming exactly that substitution. -/
theorem C8_allowed_subs_witness :
    mkBinaryMap [['M', '1', 'A']] ['A', 'C', 'M'] (some [['M', '1', 'C']])
        false false none =
      .error (.notAllowed [['M', '1', 'A']]) :=
  ((C8_allowed_subs [['M', '1', 'A']] ['A', 'C', 'M'] [['M', '1', 'C']]
      false false none (by decide)).1 (by decide)).1

/-! ### Claim C7: duplicate sites within one variant -/

/-- Sites referenced by a token list (tokens that fail to parse
contribute nothing; every token parses under the hypotheses below). -/
def tokenSites (bm : BinaryMap) (toks : List PyStr) : List Site :=
  toks.filterMap (fun t =>
    (parseSub bm.alphabet bm.sites_as_str t).toOption.map (fun sb => sb.site))

theorem tokenSites_cons_ok {bm : BinaryMap} {tok : PyStr} {sb : Subst}
    (hp : parseSub bm.alphabet bm.sites_as_str tok = .ok sb) (rest : List PyStr) :
    tokenSites bm (tok :: rest) = sb.site :: tokenSites bm rest := by
  unfold tokenSites
  rw [List.filterMap_cons]
  rw [hp]
  rfl

theorem encodeTokens_ok_of_valid (bm : BinaryMap) :
    ∀ (toks : List PyStr) (seen : List Site),
      (∀ tok ∈ toks, ∃ sb, parseSub bm.alphabet bm.sites_as_str tok = .ok sb ∧
        ∃ i, bm.sub_to_i tok = .ok i) →
      (tokenSites bm toks).Nodup →
      (∀ st ∈ tokenSites bm toks, st ∉ seen) →
      ∃ out, bm.encodeTokens toks seen = .ok out := by
  intro toks
  induction toks with
  | nil => intro seen _ _ _; exact ⟨([], []), rfl⟩
  | cons tok rest ih =>
    intro seen hvalid hnodup hdisj
    obtain ⟨sb, hp, i, hi⟩ := hvalid tok (List.mem_cons_self _ _)
    rw [tokenSites_cons_ok hp] at hnodup hdisj
    have hs : sb.site ∉ seen := hdisj sb.site (List.mem_cons_self _ _)
    have hnodup' : (tokenSites bm rest).Nodup := hnodup.of_cons
    have hhead : sb.site ∉ tokenSites bm rest := (List.nodup_cons.mp hnodup).1
    have hdisj' : ∀ st ∈ tokenSites bm rest, st ∉ sb.site :: seen := by
      intro st hst
      rw [List.mem_cons]
      rintro (h | h)
      · exact hhead (h ▸ hst)
      · exact hdisj st (List.mem_cons_of_mem _ hst) h
    obtain ⟨out, hout⟩ :=
      ih (sb.site :: seen) (fun t ht => hvalid t (List.mem_cons_of_mem _ ht))
        hnodup' hdisj'
    refine ⟨(sb.site :: out.1, i :: out.2), ?_⟩
    rw [encodeTokens_cons, hp, exc_ok_bind, if_neg hs, hi, exc_ok_bind, hout,
      exc_ok_bind]

theorem encodeTokens_dup (bm : BinaryMap) :
    ∀ (toks : List PyStr) (seen : List Site),
      (∀ tok ∈ toks, ∃ sb, parseSub bm.alphabet bm.sites_as_str tok = .ok sb ∧
        ∃ i, bm.sub_to_i tok = .ok i) →
      ¬ ((tokenSites bm toks).Nodup ∧ ∀ st ∈ tokenSites bm toks, st ∉ seen) →
      ∃ site, bm.encodeTokens toks seen = .error (.dupSite site) := by
  intro toks
  induction toks with
  | nil =>
    intro seen _ hbad
    exact absurd ⟨List.nodup_nil, by intro st hst; cases hst⟩ hbad
  | cons tok rest ih =>
    intro seen hvalid hbad
    obtain ⟨sb, hp, i, hi⟩ := hvalid tok (List.mem_cons_self _ _)
    by_cases hs : sb.site ∈ seen
    · refine ⟨sb.site, ?_⟩
      rw [encodeTokens_cons, hp, exc_ok_bind, if_pos hs]
    · have hbad' : ¬ ((tokenSites bm rest).Nodup ∧
          ∀ st ∈ tokenSites bm rest, st ∉ sb.site :: seen) := by
        rintro ⟨hnd, hdj⟩
        apply hbad
        rw [tokenSites_cons_ok hp]
        constructor
        · rw [List.nodup_cons]
          refine ⟨fun hmem => ?_, hnd⟩
          exact hdj sb.site hmem (List.mem_cons_self _ _)
        · intro st hst
          rw [List.mem_cons] at hst
          rcases hst with h | h
          · exact h ▸ hs
          · intro hstseen
            exact hdj st h (List.mem_cons_of_mem _ hstseen)
      obtain ⟨site, hsite⟩ :=
        ih (sb.site :: seen) (fun t ht => hvalid t (List.mem_cons_of_mem _ ht)) hbad'
      refine ⟨site, ?_⟩
      rw [encodeTokens_cons, hp, exc_ok_bind, if_neg hs, hi, exc_ok_bind, hsite,
        exc_error_bind]

/-- Claim C7 (amended): for a variant string all of whose tokens are
valid — each parses and is present in the map — encoding fails with the
duplicate-site `ValidationError` exactly when two tokens reference the
same site; with all sites distinct it succeeds.  (The validity
hypothesis is necessary: a token that parses but is absent from the map
makes encoding fail with the `LookupError` instead, even if a later
token repeats its site; see the counterexample.) -/
theorem C7_dup_site (bm : BinaryMap) (s : PyStr)
    (hvalid : ∀ tok ∈ tokenize s, ∃ sb,
      parseSub bm.alphabet bm.sites_as_str tok = .ok sb ∧
      ∃ i, bm.sub_to_i tok = .ok i) :
    (¬ (tokenSites bm (tokenize s)).Nodup →
      ∃ site, bm.sub_str_to_indices s = .error (.dupSite site)) ∧
    ((tokenSites bm (tokenize s)).Nodup →
      ∃ idxs, bm.sub_str_to_indices s = .ok idxs) := by
  constructor
  · intro hdup
    obtain ⟨site, hsite⟩ := encodeTokens_dup bm (tokenize s) [] hvalid
      (fun h => hdup h.1)
    refine ⟨site, ?_⟩
    unfold BinaryMap.sub_str_to_indices
    rw [hsite, exc_error_bind]
  · intro hnodup
    obtain ⟨out, hout⟩ := encodeTokens_ok_of_valid bm (tokenize s) [] hvalid hnodup
      (by intro st _ h; cases h)
    obtain ⟨sites, idxs⟩ := out
    unfold BinaryMap.sub_str_to_indices
    rw [hout, exc_ok_bind]
    exact ⟨_, rfl⟩

/-- The observed-only map built from the single variant `"M1A"` over
alphabet `ACMX`. -/
def c7map : BinaryMap :=
  ⟨['A', 'C', 'M', 'X'], false, [['M', '1', 'A']], [.num 1], [],
   [['M', '1', 'A']], [[0]]⟩

/-- Counterexample to claim C7 as stated: in `"M1X M1C"` both tokens
reference site 1, yet encoding fails with the `LookupError` for `"M1X"`
(which parses but is not in the map), not with the duplicate-site
`ValidationError`. -/
theorem C7_counterexample :
    mkBinaryMap [['M', '1', 'A']] ['A', 'C', 'M', 'X'] none false false none =
      .ok c7map ∧
    parseSub c7map.alphabet c7map.sites_as_str ['M', '1', 'X'] =
      .ok ⟨'M', .num 1, 'X'⟩ ∧
    parseSub c7map.alphabet c7map.sites_as_str ['M', '1', 'C'] =
      .ok ⟨'M', .num 1, 'C'⟩ ∧
    c7map.sub_str_to_indices ['M', '1', 'X', ' ', 'M', '1', 'C'] =
      .error (.subNotInMap ['M', '1', 'X']) :=
  ⟨rfl, rfl, rfl, rfl⟩

/-- The observed-only map built from the two variants `"M1A"` and
`"M1C"` over alphabet `ACMX`. -/
def c7map2 : BinaryMap :=
  ⟨['A', 'C', 'M', 'X'], false, [['M', '1', 'A'], ['M', '1', 'C']],
   [.num 1, .num 1], [], [['M', '1', 'A'], ['M', '1', 'C']], [[0], [1]]⟩

/-- Witness for C7: `"M1A M1C"` (both tokens valid, same site) fails
with the duplicate-site error, and `"M1A"` alone encodes fine. -/
theorem C7_dup_site_witness :
    (∃ site, c7map2.sub_str_to_indices ['M', '1', 'A', ' ', 'M', '1', 'C'] =
      .error (.dupSite site)) ∧
    (∃ idxs, c7map2.sub_str_to_indices ['M', '1', 'A'] = .ok idxs) := by
  constructor
  · refine (C7_dup_site c7map2 ['M', '1', 'A', ' ', 'M', '1', 'C'] ?_).1 (by decide)
    intro tok htok
    have he : tokenize ['M', '1', 'A', ' ', 'M', '1', 'C'] =
        [['M', '1', 'A'], ['M', '1', 'C']] := rfl
    rw [he] at htok
    rcases List.mem_cons.mp htok with rfl | htok
    · exact ⟨⟨'M', .num 1, 'A'⟩, rfl, 0, rfl⟩
    · rcases List.mem_cons.mp htok with rfl | htok
      · exact ⟨⟨'M', .num 1, 'C'⟩, rfl, 1, rfl⟩
      · cases htok
  · refine (C7_dup_site c7map2 ['M', '1', 'A'] ?_).2 (by decide)
    intro tok htok
    have he : tokenize ['M', '1', 'A'] = [['M', '1', 'A']] := rfl
    rw [he] at htok
    rcases List.mem_cons.mp htok with rfl | htok
    · exact ⟨⟨'M', .num 1, 'A'⟩, rfl, 0, rfl⟩
    · cases htok

/-! ### Association-list and lookup lemmas -/

theorem lookupIdx_some_get :
    ∀ {l : List PyStr} {t : PyStr} {i : Nat},
      lookupIdx l t = some i → l[i]? = some t := by
  intro l
  induction l with
  | nil => intro t i h; cases h
  | cons s rest ih =>
    intro t i h
    rw [lookupIdx] at h
    by_cases hst : s = t
    · rw [if_pos hst] at h
      cases h
      simpa using hst
    · rw [if_neg hst] at h
      rcases hli : lookupIdx rest t with _ | j
      · rw [hli] at h; cases h
      · rw [hli] at h
        simp only [Option.map_some'] at h
        have hi : j + 1 = i := by injection h
        subst hi
        simpa using ih hli

theorem lookupIdx_lt_length {l : List PyStr} {t : PyStr} {i : Nat}
    (h : lookupIdx l t = some i) : i < l.length := by
  have := lookupIdx_some_get h
  exact (List.getElem?_eq_some.mp this).1

theorem lookupIdx_isSome_of_mem :
    ∀ {l : List PyStr} {t : PyStr}, t ∈ l → ∃ i, lookupIdx l t = some i := by
  intro l
  induction l with
  | nil => intro t h; cases h
  | cons s rest ih =>
    intro t h
    by_cases hst : s = t
    · exact ⟨0, by rw [lookupIdx, if_pos hst]⟩
    · rcases List.mem_cons.mp h with h' | h'
      · exact absurd h'.symm hst
      · obtain ⟨j, hj⟩ := ih h'
        exact ⟨j + 1, by rw [lookupIdx, if_neg hst, hj]; rfl⟩

theorem lookupIdx_of_get_nodup :
    ∀ {l : List PyStr}, l.Nodup → ∀ {i : Nat} {t : PyStr},
      l[i]? = some t → lookupIdx l t = some i := by
  intro l
  induction l with
  | nil => intro _ i t h; cases h
  | cons s rest ih =>
    intro hnd i t h
    rcases i with _ | j
    · rw [List.getElem?_cons_zero] at h
      have hst : s = t := by injection h
      rw [lookupIdx, if_pos hst]
    · rw [List.getElem?_cons_succ] at h
      have hst : ¬ s = t := by
        intro hst
        subst hst
        exact (List.nodup_cons.mp hnd).1 (List.getElem?_mem h)
      rw [lookupIdx, if_neg hst, ih (List.nodup_cons.mp hnd).2 h]
      rfl

theorem lookupSite_mem :
    ∀ {l : List (Site × α)} {s : Site} {a : α},
      lookupSite l s = some a → (s, a) ∈ l := by
  intro l
  induction l with
  | nil => intro s a h; cases h
  | cons p rest ih =>
    intro s a h
    obtain ⟨s', a'⟩ := p
    rw [lookupSite] at h
    by_cases hs : s' = s
    · rw [if_pos hs] at h
      have ha : a' = a := by injection h
      subst hs; subst ha
      exact List.mem_cons_self _ _
    · rw [if_neg hs] at h
      exact List.mem_cons_of_mem _ (ih h)

theorem lookupSite_append_left {l l' : List (Site × α)} {s : Site} {a : α}
    (h : lookupSite l s = some a) : lookupSite (l ++ l') s = some a := by
  induction l with
  | nil => cases h
  | cons p rest ih =>
    obtain ⟨s', a'⟩ := p
    rw [lookupSite] at h
    rw [List.cons_append, lookupSite]
    by_cases hs : s' = s
    · rwa [if_pos hs] at h ⊢
    · rw [if_neg hs] at h ⊢
      exact ih h

theorem lookupSite_eq_none_iff :
    ∀ {l : List (Site × α)} {s : Site},
      lookupSite l s = none ↔ s ∉ l.map (fun p => p.1) := by
  intro l
  induction l with
  | nil => intro s; simp [lookupSite]
  | cons p rest ih =>
    intro s
    obtain ⟨s', a'⟩ := p
    rw [lookupSite]
    by_cases hs : s' = s
    · subst hs
      rw [if_pos rfl]
      simp
    · rw [if_neg hs]
      rw [ih]
      simp only [List.map_cons, List.mem_cons]
      constructor
      · rintro hns (h | h)
        · exact hs h.symm
        · exact hns h
      · intro hn
        intro hmem
        exact hn (Or.inr hmem)

theorem mutsOfSite_addMutChar_same :
    ∀ (muts : List (Site × List Char)) (s : Site) (m : Char),
      mutsOfSite (addMutChar muts s m) s =
        (if m ∈ mutsOfSite muts s then mutsOfSite muts s
         else mutsOfSite muts s ++ [m]) := by
  intro muts
  induction muts with
  | nil => intro s m; simp [addMutChar, mutsOfSite, lookupSite]
  | cons p rest ih =>
    intro s m
    obtain ⟨s', ms⟩ := p
    rw [addMutChar]
    by_cases hs : s' = s
    · subst hs
      rw [if_pos rfl]
      simp [mutsOfSite, lookupSite]
    · rw [if_neg hs]
      have h1 : mutsOfSite ((s', ms) :: addMutChar rest s m) s =
          mutsOfSite (addMutChar rest s m) s := by
        simp [mutsOfSite, lookupSite, if_neg hs]
      have h2 : mutsOfSite ((s', ms) :: rest) s = mutsOfSite rest s := by
        simp [mutsOfSite, lookupSite, if_neg hs]
      rw [h1, h2, ih]

theorem mutsOfSite_addMutChar_other :
    ∀ (muts : List (Site × List Char)) (s s' : Site) (m : Char),
      s' ≠ s → mutsOfSite (addMutChar muts s m) s' = mutsOfSite muts s' := by
  intro muts
  induction muts with
  | nil =>
    intro s s' m hne
    have hsne : ¬ s = s' := fun h => hne h.symm
    simp [addMutChar, mutsOfSite, lookupSite, if_neg hsne]
  | cons p rest ih =>
    intro s s' m hne
    obtain ⟨s0, ms⟩ := p
    rw [addMutChar]
    by_cases hs : s0 = s
    · subst hs
      rw [if_pos rfl]
      have hne' : ¬ s0 = s' := fun h => hne (h ▸ rfl)
      simp [mutsOfSite, lookupSite, if_neg hne']
    · rw [if_neg hs]
      by_cases hs' : s0 = s'
      · subst hs'
        simp [mutsOfSite, lookupSite]
      · simp only [mutsOfSite, lookupSite, if_neg hs']
        exact ih s s' m hne

/-! ### Properties of the substitution-collection loop -/

theorem lookupSite_of_mem_nodup :
    ∀ {l : List (Site × α)}, (l.map (fun p => p.1)).Nodup →
      ∀ {s : Site} {a : α}, (s, a) ∈ l → lookupSite l s = some a := by
  intro l
  induction l with
  | nil => intro _ s a h; cases h
  | cons p rest ih =>
    intro hnd s a h
    obtain ⟨s', a'⟩ := p
    rcases List.mem_cons.mp h with h' | h'
    · have h1 : s' = s := by cases h'; rfl
      have h2 : a' = a := by cases h'; rfl
      subst h1; subst h2
      rw [lookupSite, if_pos rfl]
    · have hs : ¬ s' = s := by
        intro hss
        subst hss
        have hmem : s' ∈ rest.map (fun p => p.1) := by
          rw [List.mem_map]
          exact ⟨(s', a), h', rfl⟩
        exact (List.nodup_cons.mp (by simpa using hnd)).1 hmem
      rw [lookupSite, if_neg hs]
      exact ih (by simpa using (List.nodup_cons.mp (by simpa using hnd)).2) h'

theorem lookupSite_append_nil_right {l : List (Site × α)} {s : Site} {w : α}
    (h : lookupSite l s = none) : lookupSite (l ++ [(s, w)]) s = some w := by
  induction l with
  | nil => simp [lookupSite]
  | cons p rest ih =>
    obtain ⟨s', a'⟩ := p
    rw [lookupSite] at h
    rw [List.cons_append, lookupSite]
    by_cases hs : s' = s
    · rw [if_pos hs] at h; cases h
    · rw [if_neg hs] at h ⊢
      exact ih h

theorem lookupSite_none_of_append {l l' : List (Site × α)} {s : Site}
    (h : lookupSite (l ++ l') s = none) : lookupSite l s = none := by
  rw [lookupSite_eq_none_iff] at h ⊢
  intro hmem
  apply h
  rw [List.map_append, List.mem_append]
  exact Or.inl hmem

/-- Invariant carried by the `for sub in subs_in_variants` loop of
`__init__`. -/
structure CollectInv (alphabet : List Char) (mode : Bool)
    (wts : List (Site × Char)) (muts : List (Site × List Char)) : Prop where
  keys_nodup : (wts.map (fun p => p.1)).Nodup
  wts_good : ∀ p ∈ wts, ValidSite mode p.1 ∧ p.2 ∈ alphabet
  muts_good : ∀ p ∈ wts, ∀ m ∈ mutsOfSite muts p.1, m ∈ alphabet ∧ m ≠ p.2
  muts_nodup : ∀ p ∈ wts, (mutsOfSite muts p.1).Nodup
  muts_empty : ∀ s, lookupSite wts s = none → mutsOfSite muts s = []

theorem collectInv_nil (alphabet : List Char) (mode : Bool) :
    CollectInv alphabet mode [] [] := by
  refine ⟨by simp, ?_, ?_, ?_, ?_⟩
  · intro p hp; cases hp
  · intro p hp; cases hp
  · intro p hp; cases hp
  · intro s _; rfl

/-- Destructor for one successful step of the collection loop. -/
theorem collectSubs_cons_ok {alpha : List Char} {mode : Bool} {sub : PyStr}
    {rest : List PyStr} {wts0 : List (Site × Char)}
    {muts0 : List (Site × List Char)} {wts : List (Site × Char)}
    {muts : List (Site × List Char)}
    (h : collectSubs alpha mode (sub :: rest) wts0 muts0 = .ok (wts, muts)) :
    ∃ sb, parseSub alpha mode sub = .ok sb ∧
      ((lookupSite wts0 sb.site = none ∧
        collectSubs alpha mode rest (wts0 ++ [(sb.site, sb.wt)])
          (addMutChar muts0 sb.site sb.mutCh) = .ok (wts, muts)) ∨
       (lookupSite wts0 sb.site = some sb.wt ∧
        collectSubs alpha mode rest wts0 (addMutChar muts0 sb.site sb.mutCh) =
          .ok (wts, muts))) := by
  rw [collectSubs_cons] at h
  rcases hp : parseSub alpha mode sub with e | sb
  · rw [hp, exc_error_bind] at h; cases h
  · rw [hp, exc_ok_bind] at h
    refine ⟨sb, rfl, ?_⟩
    split at h
    next heq => exact Or.inl ⟨heq, h⟩
    next w heq =>
      split at h
      next hww => exact Or.inr ⟨by rw [heq, hww], h⟩
      next => cases h

theorem collectSubs_inv (alpha : List Char) (mode : Bool) :
    ∀ (subs : List PyStr) (wts0 : List (Site × Char))
      (muts0 : List (Site × List Char)) (wts : List (Site × Char))
      (muts : List (Site × List Char)),
      collectSubs alpha mode subs wts0 muts0 = .ok (wts, muts) →
      CollectInv alpha mode wts0 muts0 → CollectInv alpha mode wts muts := by
  intro subs
  induction subs with
  | nil =>
    intro wts0 muts0 wts muts h hinv
    have h1 : wts0 = wts := by cases h; rfl
    have h2 : muts0 = muts := by cases h; rfl
    subst h1; subst h2
    exact hinv
  | cons sub rest ih =>
    intro wts0 muts0 wts muts h hinv
    obtain ⟨sb, hp, hcase⟩ := collectSubs_cons_ok h
    obtain ⟨hvalid, hwalpha, hmalpha, hwm⟩ := parseSub_ok_props hp
    rcases hcase with ⟨hl, hrec⟩ | ⟨hl, hrec⟩
    · refine ih _ _ _ _ hrec ?_
      have hknew : sb.site ∉ wts0.map (fun p => p.1) :=
        lookupSite_eq_none_iff.mp hl
      refine ⟨?_, ?_, ?_, ?_, ?_⟩
      · rw [List.map_append]
        rw [List.nodup_append]
        refine ⟨hinv.keys_nodup, by simp, ?_⟩
        intro x hx
        simp only [List.map_cons, List.map_nil, List.mem_singleton]
        intro hx'
        subst hx'
        exact hknew hx
      · intro p hp'
        rcases List.mem_append.mp hp' with h' | h'
        · exact hinv.wts_good p h'
        · have hpp : p = (sb.site, sb.wt) := by simpa using h'
          subst hpp
          exact ⟨hvalid, hwalpha⟩
      · intro p hp' m hm
        rcases List.mem_append.mp hp' with h' | h'
        · have hne : p.1 ≠ sb.site := by
            intro hps
            apply hknew
            rw [← hps, List.mem_map]
            exact ⟨p, h', rfl⟩
          rw [mutsOfSite_addMutChar_other _ _ _ _ hne] at hm
          exact hinv.muts_good p h' m hm
        · have hpp : p = (sb.site, sb.wt) := by simpa using h'
          subst hpp
          rw [mutsOfSite_addMutChar_same, hinv.muts_empty _ hl] at hm
          simp only [List.not_mem_nil, if_false, List.nil_append,
            List.mem_singleton] at hm
          subst hm
          exact ⟨hmalpha, hwm.symm⟩
      · intro p hp'
        rcases List.mem_append.mp hp' with h' | h'
        · have hne : p.1 ≠ sb.site := by
            intro hps
            apply hknew
            rw [← hps, List.mem_map]
            exact ⟨p, h', rfl⟩
          rw [mutsOfSite_addMutChar_other _ _ _ _ hne]
          exact hinv.muts_nodup p h'
        · have hpp : p = (sb.site, sb.wt) := by simpa using h'
          subst hpp
          rw [mutsOfSite_addMutChar_same, hinv.muts_empty _ hl]
          simp
      · intro s hs
        have hs0 : lookupSite wts0 s = none := lookupSite_none_of_append hs
        have hne : s ≠ sb.site := by
          intro hss
          subst hss
          rw [lookupSite_eq_none_iff] at hs
          apply hs
          rw [List.map_append, List.mem_append]
          right
          simp
        rw [mutsOfSite_addMutChar_other _ _ _ _ hne]
        exact hinv.muts_empty s hs0
    · refine ih _ _ _ _ hrec ?_
      have hmem : (sb.site, sb.wt) ∈ wts0 := lookupSite_mem hl
      refine ⟨hinv.keys_nodup, hinv.wts_good, ?_, ?_, ?_⟩
      · intro p hp' m hm
        by_cases hps : p.1 = sb.site
        · rw [hps, mutsOfSite_addMutChar_same] at hm
          have hpw : p.2 = sb.wt := by
            have e1 : lookupSite wts0 p.1 = some p.2 :=
              lookupSite_of_mem_nodup hinv.keys_nodup
                (by rcases p with ⟨a, b⟩; exact hp')
            rw [hps, hl] at e1
            injection e1 with e1'
            exact e1'.symm
          split at hm
          · exact hinv.muts_good p hp' m (by rwa [hps])
          · rcases List.mem_append.mp hm with h' | h'
            · exact hinv.muts_good p hp' m (by rwa [hps])
            · have hmm : m = sb.mutCh := by simpa using h'
              subst hmm
              rw [hpw]
              exact ⟨hmalpha, hwm.symm⟩
        · rw [mutsOfSite_addMutChar_other _ _ _ _ hps] at hm
          exact hinv.muts_good p hp' m hm
      · intro p hp'
        by_cases hps : p.1 = sb.site
        · rw [hps, mutsOfSite_addMutChar_same]
          split
          next => exact hps ▸ hinv.muts_nodup p hp'
          next hnm =>
            refine List.Nodup.append (hps ▸ hinv.muts_nodup p hp')
              (List.nodup_singleton _) ?_
            intro x hx hx'
            have hxe : x = sb.mutCh := by simpa using hx'
            subst hxe
            exact hnm hx
        · rw [mutsOfSite_addMutChar_other _ _ _ _ hps]
          exact hinv.muts_nodup p hp'
      · intro s hs
        have hne : s ≠ sb.site := by
          intro hss
          subst hss
          rw [hs] at hl
          cases hl
        rw [mutsOfSite_addMutChar_other _ _ _ _ hne]
        exact hinv.muts_empty s hs

theorem lookupSite_append_self {l : List (Site × α)} {s : Site}
    (h : lookupSite l s = none) (w : α) :
    lookupSite (l ++ [(s, w)]) s = some w := by
  induction l with
  | nil => simp [lookupSite]
  | cons p rest ih =>
    obtain ⟨s', a⟩ := p
    rw [List.cons_append, lookupSite]
    rw [lookupSite] at h
    split at h
    · cases h
    next hne => rw [if_neg hne]; exact ih h

theorem collectSubs_wts_mono (alpha : List Char) (mode : Bool) :
    ∀ (subs : List PyStr) (wts0 : List (Site × Char))
      (muts0 : List (Site × List Char)) (wts : List (Site × Char))
      (muts : List (Site × List Char)) (s : Site) (w : Char),
      collectSubs alpha mode subs wts0 muts0 = .ok (wts, muts) →
      lookupSite wts0 s = some w → lookupSite wts s = some w := by
  intro subs
  induction subs with
  | nil =>
    intro wts0 muts0 wts muts s w h hl
    have h1 : wts0 = wts := by cases h; rfl
    subst h1; exact hl
  | cons sub rest ih =>
    intro wts0 muts0 wts muts s w h hl
    obtain ⟨sb, _, hcase⟩ := collectSubs_cons_ok h
    rcases hcase with ⟨_, hrec⟩ | ⟨_, hrec⟩
    · exact ih _ _ _ _ _ _ hrec (lookupSite_append_left hl)
    · exact ih _ _ _ _ _ _ hrec hl

theorem collectSubs_lookup_final (alpha : List Char) (mode : Bool) :
    ∀ (subs : List PyStr) (wts0 : List (Site × Char))
      (muts0 : List (Site × List Char)) (wts : List (Site × Char))
      (muts : List (Site × List Char)),
      collectSubs alpha mode subs wts0 muts0 = .ok (wts, muts) →
      ∀ sub ∈ subs, ∀ sb, parseSub alpha mode sub = .ok sb →
        lookupSite wts sb.site = some sb.wt := by
  intro subs
  induction subs with
  | nil => intro _ _ _ _ _ _ hmem; cases hmem
  | cons sub rest ih =>
    intro wts0 muts0 wts muts h t ht sb hp
    obtain ⟨sb0, hp0, hcase⟩ := collectSubs_cons_ok h
    rcases List.mem_cons.mp ht with rfl | ht'
    · have hsb : sb0 = sb := by
        rw [hp] at hp0; injection hp0 with e; exact e.symm
      subst hsb
      rcases hcase with ⟨hl, hrec⟩ | ⟨hl, hrec⟩
      · exact collectSubs_wts_mono alpha mode _ _ _ _ _ _ _ hrec
          (lookupSite_append_self hl _)
      · exact collectSubs_wts_mono alpha mode _ _ _ _ _ _ _ hrec hl
    · rcases hcase with ⟨_, hrec⟩ | ⟨_, hrec⟩
      · exact ih _ _ _ _ hrec t ht' sb hp
      · exact ih _ _ _ _ hrec t ht' sb hp

theorem mem_mutsOfSite_addMutChar {muts : List (Site × List Char)}
    {s : Site} {m : Char} (s' : Site) (c : Char)
    (h : m ∈ mutsOfSite muts s) :
    m ∈ mutsOfSite (addMutChar muts s' c) s := by
  by_cases hs : s = s'
  · subst hs
    rw [mutsOfSite_addMutChar_same]
    split
    · exact h
    · exact List.mem_append_left _ h
  · rw [mutsOfSite_addMutChar_other _ _ _ _ hs]
    exact h

theorem addMutChar_self_mem (muts : List (Site × List Char)) (s : Site)
    (c : Char) : c ∈ mutsOfSite (addMutChar muts s c) s := by
  rw [mutsOfSite_addMutChar_same]
  split
  next h => exact h
  next => exact List.mem_append_right _ (List.mem_singleton.mpr rfl)

theorem mem_of_mem_addMutChar {muts : List (Site × List Char)}
    {s s' : Site} {m c : Char}
    (h : m ∈ mutsOfSite (addMutChar muts s' c) s) :
    m ∈ mutsOfSite muts s ∨ (s = s' ∧ m = c) := by
  by_cases hs : s = s'
  · subst hs
    rw [mutsOfSite_addMutChar_same] at h
    split at h
    · exact Or.inl h
    · rcases List.mem_append.mp h with h' | h'
      · exact Or.inl h'
      · exact Or.inr ⟨rfl, List.mem_singleton.mp h'⟩
  · rw [mutsOfSite_addMutChar_other _ _ _ _ hs] at h
    exact Or.inl h

theorem collectSubs_muts_mono (alpha : List Char) (mode : Bool) :
    ∀ (subs : List PyStr) (wts0 : List (Site × Char))
      (muts0 : List (Site × List Char)) (wts : List (Site × Char))
      (muts : List (Site × List Char)) (s : Site) (m : Char),
      collectSubs alpha mode subs wts0 muts0 = .ok (wts, muts) →
      m ∈ mutsOfSite muts0 s → m ∈ mutsOfSite muts s := by
  intro subs
  induction subs with
  | nil =>
    intro wts0 muts0 wts muts s m h hm
    have h2 : muts0 = muts := by cases h; rfl
    subst h2; exact hm
  | cons sub rest ih =>
    intro wts0 muts0 wts muts s m h hm
    obtain ⟨sb, _, hcase⟩ := collectSubs_cons_ok h
    rcases hcase with ⟨_, hrec⟩ | ⟨_, hrec⟩ <;>
      exact ih _ _ _ _ _ _ hrec (mem_mutsOfSite_addMutChar _ _ hm)

theorem collectSubs_mut_final (alpha : List Char) (mode : Bool) :
    ∀ (subs : List PyStr) (wts0 : List (Site × Char))
      (muts0 : List (Site × List Char)) (wts : List (Site × Char))
      (muts : List (Site × List Char)),
      collectSubs alpha mode subs wts0 muts0 = .ok (wts, muts) →
      ∀ sub ∈ subs, ∀ sb, parseSub alpha mode sub = .ok sb →
        sb.mutCh ∈ mutsOfSite muts sb.site := by
  intro subs
  induction subs with
  | nil => intro _ _ _ _ _ _ hmem; cases hmem
  | cons sub rest ih =>
    intro wts0 muts0 wts muts h t ht sb hp
    obtain ⟨sb0, hp0, hcase⟩ := collectSubs_cons_ok h
    rcases List.mem_cons.mp ht with rfl | ht'
    · have hsb : sb0 = sb := by
        rw [hp] at hp0; injection hp0 with e; exact e.symm
      subst hsb
      rcases hcase with ⟨_, hrec⟩ | ⟨_, hrec⟩ <;>
        exact collectSubs_muts_mono alpha mode _ _ _ _ _ _ _ hrec
          (addMutChar_self_mem _ _ _)
    · rcases hcase with ⟨_, hrec⟩ | ⟨_, hrec⟩ <;>
        exact ih _ _ _ _ hrec t ht' sb hp

theorem collectSubs_wts_sound (alpha : List Char) (mode : Bool) :
    ∀ (subs : List PyStr) (wts0 : List (Site × Char))
      (muts0 : List (Site × List Char)) (wts : List (Site × Char))
      (muts : List (Site × List Char)),
      collectSubs alpha mode subs wts0 muts0 = .ok (wts, muts) →
      ∀ p ∈ wts, p ∈ wts0 ∨ ∃ sub ∈ subs, ∃ sb,
        parseSub alpha mode sub = .ok sb ∧ sb.site = p.1 ∧ sb.wt = p.2 := by
  intro subs
  induction subs with
  | nil =>
    intro wts0 muts0 wts muts h p hp
    have h1 : wts0 = wts := by cases h; rfl
    subst h1; exact Or.inl hp
  | cons sub rest ih =>
    intro wts0 muts0 wts muts h p hp
    obtain ⟨sb0, hp0, hcase⟩ := collectSubs_cons_ok h
    rcases hcase with ⟨_, hrec⟩ | ⟨_, hrec⟩
    · rcases ih _ _ _ _ hrec p hp with h' | ⟨t, ht, sb, hps, he⟩
      · rcases List.mem_append.mp h' with h'' | h''
        · exact Or.inl h''
        · have hpp : p = (sb0.site, sb0.wt) := by simpa using h''
          exact Or.inr ⟨sub, List.mem_cons_self _ _,
            sb0, hp0, by rw [hpp], by rw [hpp]⟩
      · exact Or.inr ⟨t, List.mem_cons_of_mem _ ht, sb, hps, he⟩
    · rcases ih _ _ _ _ hrec p hp with h' | ⟨t, ht, sb, hps, he⟩
      · exact Or.inl h'
      · exact Or.inr ⟨t, List.mem_cons_of_mem _ ht, sb, hps, he⟩

theorem collectSubs_muts_sound (alpha : List Char) (mode : Bool) :
    ∀ (subs : List PyStr) (wts0 : List (Site × Char))
      (muts0 : List (Site × List Char)) (wts : List (Site × Char))
      (muts : List (Site × List Char)),
      collectSubs alpha mode subs wts0 muts0 = .ok (wts, muts) →
      ∀ s m, m ∈ mutsOfSite muts s → m ∈ mutsOfSite muts0 s ∨
        ∃ sub ∈ subs, ∃ sb, parseSub alpha mode sub = .ok sb ∧
          sb.site = s ∧ sb.mutCh = m := by
  intro subs
  induction subs with
  | nil =>
    intro wts0 muts0 wts muts h s m hm
    have h2 : muts0 = muts := by cases h; rfl
    subst h2; exact Or.inl hm
  | cons sub rest ih =>
    intro wts0 muts0 wts muts h s m hm
    obtain ⟨sb0, hp0, hcase⟩ := collectSubs_cons_ok h
    rcases hcase with ⟨_, hrec⟩ | ⟨_, hrec⟩ <;>
    · rcases ih _ _ _ _ hrec s m hm with h' | ⟨t, ht, sb, hps, he⟩
      · rcases mem_of_mem_addMutChar h' with h'' | ⟨hs, hc⟩
        · exact Or.inl h''
        · exact Or.inr ⟨sub, List.mem_cons_self _ _, sb0, hp0, hs.symm, hc.symm⟩
      · exact Or.inr ⟨t, List.mem_cons_of_mem _ ht, sb, hps, he⟩

/-- One block of the observed-only registry: the entries and their site
for one `(site, wt)` pair, as `(entry, site)` pairs. -/
def obsBlock (alphabet : List Char) (muts : List (Site × List Char))
    (p : Site × Char) : List (PyStr × Site) :=
  (List.insertionSort (mutLe alphabet) (mutsOfSite muts p.1)).map
    (fun m => (p.2 :: siteStr p.1 ++ [m], p.1))

theorem observedBuild_cons (alphabet : List Char)
    (muts : List (Site × List Char)) (site : Site) (wt : Char)
    (rest : List (Site × Char)) :
    observedBuild alphabet muts ((site, wt) :: rest) =
      ((List.insertionSort (mutLe alphabet) (mutsOfSite muts site)).map
          (fun m => wt :: siteStr site ++ [m]) ++
        (observedBuild alphabet muts rest).1,
       (List.insertionSort (mutLe alphabet) (mutsOfSite muts site)).map
          (fun _ => site) ++
        (observedBuild alphabet muts rest).2) := by
  rcases hb : observedBuild alphabet muts rest with ⟨es, ss⟩
  rw [observedBuild, hb]

theorem observedBuild_length (alphabet : List Char)
    (muts : List (Site × List Char)) :
    ∀ wl : List (Site × Char),
      (observedBuild alphabet muts wl).1.length =
        (observedBuild alphabet muts wl).2.length := by
  intro wl
  induction wl with
  | nil => rfl
  | cons p rest ih =>
    obtain ⟨site, wt⟩ := p
    rw [observedBuild_cons]
    simp [ih]

theorem observedBuild_zip (alphabet : List Char)
    (muts : List (Site × List Char)) :
    ∀ wl : List (Site × Char),
      (observedBuild alphabet muts wl).1.zip
          (observedBuild alphabet muts wl).2 =
        (wl.map (obsBlock alphabet muts)).flatten := by
  intro wl
  induction wl with
  | nil => rfl
  | cons p rest ih =>
    obtain ⟨site, wt⟩ := p
    rw [observedBuild_cons]
    simp only [List.map_cons, List.flatten_cons]
    rw [List.zip_append (by simp), List.zip_map', ← ih]
    rfl

theorem finishMap_ok {alphabet : List Char} {mode : Bool}
    {variants : List PyStr} {entries : List PyStr} {sites : List Site}
    {wtIdxs : List (Site × Nat)} {bm : BinaryMap}
    (h : finishMap alphabet mode variants entries sites wtIdxs = .ok bm) :
    entries.Nodup ∧ bm.alphabet = alphabet ∧ bm.sites_as_str = mode ∧
      bm.i_to_sub_list = entries ∧ bm.binary_sites = sites ∧
      bm.wt_indices = wtIdxs ∧ bm.substitution_variants = variants ∧
      variants.mapM
        (fun v => BinaryMap.sub_str_to_indices
          ⟨alphabet, mode, entries, sites, wtIdxs, variants, []⟩ v) =
        .ok bm.binary_variants := by
  rw [finishMap] at h
  split at h
  next hnd =>
    replace h : (variants.mapM
        (fun v => BinaryMap.sub_str_to_indices
          ⟨alphabet, mode, entries, sites, wtIdxs, variants, []⟩ v) >>=
        (fun rows =>
          Except.ok (⟨alphabet, mode, entries, sites, wtIdxs, variants,
            rows⟩ : BinaryMap))) = .ok bm := h
    rcases hr : variants.mapM
        (fun v => BinaryMap.sub_str_to_indices
          ⟨alphabet, mode, entries, sites, wtIdxs, variants, []⟩ v)
      with e | rows
    · rw [hr, exc_error_bind] at h; cases h
    · rw [hr, exc_ok_bind] at h
      injection h with h'
      subst h'
      exact ⟨hnd, rfl, rfl, rfl, rfl, rfl, rfl, rfl⟩
  next => cases h

theorem mkFromSubs_observed_ok {variants : List PyStr}
    {alphabet : List Char} {ais : Bool} {mode : Bool} {subs : List PyStr}
    {bm : BinaryMap}
    (h : mkFromSubs variants alphabet ais mode false none subs = .ok bm) :
    ∃ wts muts, collectSubs alphabet mode subs [] [] = .ok (wts, muts) ∧
      finishMap alphabet mode variants
        (observedBuild alphabet muts (List.insertionSort wtsLe wts)).1
        (observedBuild alphabet muts (List.insertionSort wtsLe wts)).2 [] =
        .ok bm := by
  rw [mkFromSubs] at h
  rcases hc : collectSubs alphabet mode subs [] [] with e | ⟨wts, muts⟩
  · rw [hc, exc_error_bind] at h; cases h
  · rw [hc, exc_ok_bind] at h
    refine ⟨wts, muts, rfl, ?_⟩
    exact h

theorem mkBinaryMap_ok_cases {variants : List PyStr} {alphabet : List Char}
    {allowed : Option (List PyStr)} {mode exp : Bool} {wtseq : Option PyStr}
    {bm : BinaryMap}
    (h : mkBinaryMap variants alphabet allowed mode exp wtseq = .ok bm) :
    (allowed = none ∧
      mkFromSubs variants alphabet false mode exp wtseq
        ((variants.map tokenize).join.dedup) = .ok bm) ∨
    (∃ a, allowed = some a ∧
      (∀ t ∈ (variants.map tokenize).join.dedup, t ∈ a) ∧
      mkFromSubs variants alphabet true mode exp wtseq a.dedup = .ok bm) := by
  rw [mkBinaryMap] at h
  rcases hca : checkAlphabet alphabet with e | u
  · rw [hca, exc_error_bind] at h; cases h
  · obtain ⟨⟩ := u
    rw [hca, exc_ok_bind] at h
    rcases allowed with _ | a
    · exact Or.inl ⟨rfl, h⟩
    · refine Or.inr ⟨a, rfl, ?_⟩
      replace h : (if (List.insertionSort pyStrLe
          (((variants.map tokenize).join.dedup).filter
            (fun t => t ∉ a))).isEmpty then
          mkFromSubs variants alphabet true mode exp wtseq a.dedup
        else throw (BMError.notAllowed (List.insertionSort pyStrLe
          (((variants.map tokenize).join.dedup).filter
            (fun t => t ∉ a))))) = .ok bm := h
      split at h
      next hemp =>
        refine ⟨?_, h⟩
        intro t ht
        by_contra hta
        have hmem : t ∈ List.insertionSort pyStrLe
            (((variants.map tokenize).join.dedup).filter (fun u => u ∉ a)) :=
          (List.perm_insertionSort _ _).mem_iff.mpr
            (List.mem_filter.mpr ⟨ht, by simpa using hta⟩)
        rw [List.isEmpty_iff] at hemp
        rw [hemp] at hmem
        cases hmem
      next => cases h

theorem expandChars_ok (wt : Char) (site : Int) :
    ∀ (cs : List Char) (i : Nat) (wtIdx : Option Nat) (es : List PyStr)
      (i' : Nat) (w' : Option Nat),
      expandChars wt site cs i wtIdx = .ok (es, i', w') →
      es = cs.map (fun c => wt :: intStr site ++ [c]) ∧
      i' = i + cs.length ∧
      (∀ j, wtIdx = some j → w' = some j ∧ wt ∉ cs) ∧
      (wtIdx = none →
        ((w' = none ∧ wt ∉ cs) ∨
         ∃ m, ∃ hm : m < cs.length, w' = some (i + m) ∧
           cs.get ⟨m, hm⟩ = wt ∧
           ∀ m', ∀ hm' : m' < cs.length, cs.get ⟨m', hm'⟩ = wt → m' = m)) := by
  intro cs
  induction cs with
  | nil =>
    intro i wtIdx es i' w' h
    have h' : (Except.ok ([], i, wtIdx) : Except BMError _) = .ok (es, i', w') := h
    injection h' with h''
    obtain ⟨he, hi, hw⟩ : es = [] ∧ i = i' ∧ wtIdx = w' := by
      refine ⟨?_, ?_, ?_⟩ <;> injection h'' with e1 e2 <;>
        first
        | exact e1.symm
        | injection e2 with e3 e4
    subst he; subst hi; subst hw
    refine ⟨rfl, rfl, ?_, ?_⟩
    · intro j hj; exact ⟨hj, by simp⟩
    · intro hn; exact Or.inl ⟨hn, by simp⟩
  | cons c cs ih =>
    intro i wtIdx es i' w' h
    rw [expandChars_cons] at h
    by_cases hc : c = wt
    · rw [if_pos hc] at h
      rcases wtIdx with _ | j
      · rcases hrec : expandChars wt site cs (i + 1) (some i)
          with e | ⟨es0, i0, w0⟩
        · rw [hrec, exc_error_bind] at h; cases h
        · rw [hrec, exc_ok_bind] at h
          injection h with h'
          have he : (wt :: intStr site ++ [c]) :: es0 = es ∧ i0 = i' ∧ w0 = w' := by
            refine ⟨?_, ?_, ?_⟩ <;> injection h' with e1 e2 <;>
              first
              | exact e1
              | injection e2 with e3 e4
          obtain ⟨he1, he2, he3⟩ := he
          subst he1; subst he2; subst he3
          obtain ⟨d1, d2, d3, _⟩ := ih _ _ _ _ _ hrec
          obtain ⟨dw, dnm⟩ := d3 i rfl
          subst hc
          refine ⟨by rw [d1]; simp, by rw [d2, List.length_cons]; omega, ?_, ?_⟩
          · intro j hj; cases hj
          · intro _
            refine Or.inr ⟨0, by simp, by simpa using dw, rfl, ?_⟩
            intro m' hm' hget
            cases m' with
            | zero => rfl
            | succ k =>
              exfalso
              apply dnm
              have : (c :: cs).get ⟨k + 1, hm'⟩ = cs.get ⟨k, by rw [List.length_cons] at hm'; omega⟩ := rfl
              rw [this] at hget
              exact hget ▸ List.get_mem cs _ _
      · cases h
    · rw [if_neg hc] at h
      rcases hrec : expandChars wt site cs (i + 1) wtIdx
        with e | ⟨es0, i0, w0⟩
      · rw [hrec, exc_error_bind] at h; cases h
      · rw [hrec, exc_ok_bind] at h
        injection h with h'
        have he : (wt :: intStr site ++ [c]) :: es0 = es ∧ i0 = i' ∧ w0 = w' := by
          refine ⟨?_, ?_, ?_⟩ <;> injection h' with e1 e2 <;>
            first
            | exact e1
            | injection e2 with e3 e4
        obtain ⟨he1, he2, he3⟩ := he
        subst he1; subst he2; subst he3
        obtain ⟨d1, d2, d3, d4⟩ := ih _ _ _ _ _ hrec
        have hwc : wt ≠ c := fun e => hc e.symm
        refine ⟨by rw [d1]; simp, by rw [d2, List.length_cons]; omega, ?_, ?_⟩
        · intro j hj
          obtain ⟨dw, dnm⟩ := d3 j hj
          exact ⟨dw, by simp [hwc]; exact dnm⟩
        · intro hn
          rcases d4 hn with ⟨dw, dnm⟩ | ⟨m, hm, dw, dget, duniq⟩
          · exact Or.inl ⟨dw, by simp [hwc]; exact dnm⟩
          · refine Or.inr ⟨m + 1, by rw [List.length_cons]; omega, ?_, ?_, ?_⟩
            · rw [dw]; congr 1; omega
            · exact dget
            · intro m' hm' hget
              cases m' with
              | zero => exact absurd hget.symm hwc
              | succ k =>
                have : (c :: cs).get ⟨k + 1, hm'⟩ = cs.get ⟨k, by rw [List.length_cons] at hm'; omega⟩ := rfl
                rw [this] at hget
                exact congrArg Nat.succ (duniq k (by rw [List.length_cons] at hm'; omega) hget)

theorem expandSites_ok (alphabet : List Char) (wts : List (Site × Char)) :
    ∀ (wseq : List Char) (site : Int) (i : Nat) (es : List PyStr)
      (ss : List Site) (wtIdxs : List (Site × Nat)),
      expandSites alphabet wts wseq site i = .ok (es, ss, wtIdxs) →
      (∀ wt ∈ wseq, wt ∈ alphabet) →
      es.length = wseq.length * alphabet.length ∧
      ss.length = es.length ∧
      (∀ q ∈ es.zip ss, ∃ w s c, q = (w :: intStr s ++ [c], Site.num s) ∧
         w ∈ wseq ∧ c ∈ alphabet) ∧
      wtIdxs.map (fun p => p.1) =
        (List.range wseq.length).map (fun (k : Nat) => Site.num (site + (k : Int))) ∧
      (∀ p ∈ wtIdxs, i ≤ p.2 ∧ p.2 < i + es.length ∧
         ss.getD (p.2 - i) (Site.num 0) = p.1) ∧
      (∀ j, j < es.length →
         ((i + j) ∈ wtIdxs.map (fun p => p.2) ↔
           (es.getD j []).headD ' ' = (es.getD j []).getLastD ' ')) ∧
      (∀ st ∈ ss, ∃ k, k < wseq.length ∧ st = Site.num (site + (k : Int))) := by
  intro wseq
  induction wseq with
  | nil =>
    intro site i es ss wtIdxs h _
    have h' : (Except.ok ([], [], []) : Except BMError _) =
        .ok (es, ss, wtIdxs) := h
    injection h' with h1
    injection h1 with ha hbc
    injection hbc with hb hc
    subst ha; subst hb; subst hc
    simp
  | cons wt wseq ih =>
    intro site i es ss wtIdxs h hw
    rw [expandSites_cons] at h
    rcases hg : expandGuard wts site wt with e | u
    · rw [hg, exc_error_bind] at h; cases h
    obtain ⟨⟩ := u
    rw [hg, exc_ok_bind] at h
    rcases hrec1 : expandChars wt site alphabet i none with e | ⟨es1, i1, w1⟩
    · rw [hrec1, exc_error_bind] at h; cases h
    rw [hrec1, exc_ok_bind] at h
    obtain ⟨d1, d2, _, d4⟩ := expandChars_ok wt site _ _ _ _ _ _ hrec1
    rcases d4 rfl with ⟨_, dnm⟩ | ⟨m0, hm0, dw, dget, duniq⟩
    · exact absurd (hw wt (List.mem_cons_self _ _)) dnm
    subst dw
    replace h : (expandSites alphabet wts wseq (site + 1) i1 >>=
        fun p => Except.ok (es1 ++ p.1,
          alphabet.map (fun _ => Site.num site) ++ p.2.1,
          (Site.num site, i + m0) :: p.2.2)) = .ok (es, ss, wtIdxs) := h
    rcases hrec2 : expandSites alphabet wts wseq (site + 1) i1
      with e | ⟨es2, ss2, wtIdxs2⟩
    · rw [hrec2, exc_error_bind] at h; cases h
    rw [hrec2, exc_ok_bind] at h
    replace h : Except.ok (es1 ++ es2,
        alphabet.map (fun _ => Site.num site) ++ ss2,
        (Site.num site, i + m0) :: wtIdxs2) = Except.ok (es, ss, wtIdxs) := h
    injection h with h'
    injection h' with h1 hbc
    injection hbc with h2 h3
    subst h1; subst h2; subst h3
    obtain ⟨r1, r2, r3, r4, r5, r6, r7⟩ :=
      ih (site + 1) i1 es2 ss2 wtIdxs2 hrec2
        (fun c hc => hw c (List.mem_cons_of_mem _ hc))
    subst d1
    have hA1 : (alphabet.map (fun c => wt :: intStr site ++ [c])).length =
        alphabet.length := by simp
    have hA2 : (alphabet.map (fun _ => Site.num site)).length =
        alphabet.length := by simp
    refine ⟨?_, ?_, ?_, ?_, ?_, ?_, ?_⟩
    · rw [List.length_append, hA1, r1, List.length_cons, Nat.succ_mul]
      omega
    · rw [List.length_append, List.length_append, hA1, hA2, r2]
    · intro q hq
      rw [List.zip_append (by rw [hA1, hA2]), List.zip_map'] at hq
      rcases List.mem_append.mp hq with h' | h'
      · obtain ⟨c, hc, hq'⟩ := List.mem_map.mp h'
        exact ⟨wt, site, c, hq'.symm, List.mem_cons_self _ _, hc⟩
      · obtain ⟨w, s, c, hq', hwm, hcm⟩ := r3 q h'
        exact ⟨w, s, c, hq', List.mem_cons_of_mem _ hwm, hcm⟩
    · rw [List.map_cons, r4, List.length_cons, List.range_succ_eq_map,
        List.map_cons, List.map_map]
      congr 1
      · congr 1
        simp
      · apply List.map_congr_left
        intro k _
        simp only [Function.comp_apply]
        congr 1
        push_cast
        ring
    · intro p hp
      rcases List.mem_cons.mp hp with rfl | hp'
      · refine ⟨Nat.le_add_right _ _, ?_, ?_⟩
        · rw [List.length_append, hA1]
          omega
        · have hsub : i + m0 - i = m0 := by omega
          rw [hsub, List.getD_append _ _ _ _ (by rw [hA2]; exact hm0),
            List.getD_eq_getElem _ _ (by rw [hA2]; exact hm0),
            List.getElem_map]
      · obtain ⟨b1, b2, b3⟩ := r5 p hp'
        refine ⟨by omega, ?_, ?_⟩
        · rw [List.length_append, hA1]
          omega
        · rw [List.getD_append_right _ _ _ _ (by rw [hA2]; omega)]
          rw [hA2]
          have hsub : p.2 - i - alphabet.length = p.2 - i1 := by omega
          rw [hsub]
          exact b3
    · intro j hj
      rw [List.length_append, hA1] at hj
      by_cases hjA : j < alphabet.length
      · have hget : (alphabet.map (fun c => wt :: intStr site ++ [c]) ++
            es2).getD j [] = wt :: intStr site ++ [alphabet.getD j ' '] := by
          rw [List.getD_append _ _ _ _ (by rw [hA1]; exact hjA),
            List.getD_eq_getElem _ _ (by rw [hA1]; exact hjA),
            List.getElem_map, List.getD_eq_getElem _ _ hjA]
        rw [hget]
        have hhead : (wt :: intStr site ++ [alphabet.getD j ' ']).headD ' ' =
            wt := rfl
        have hlast : (wt :: intStr site ++ [alphabet.getD j ' ']).getLastD ' ' =
            alphabet.getD j ' ' := by
          rw [List.getLastD_concat]
        rw [hhead, hlast]
        simp only [List.map_cons, List.mem_cons]
        constructor
        · rintro (hij | hij)
          · have hjm : j = m0 := by omega
            subst hjm
            rw [List.getD_eq_getElem _ _ hjA]
            exact dget.symm
          · exfalso
            obtain ⟨p, hp, hpv⟩ := List.mem_map.mp hij
            have := (r5 p hp).1
            omega
        · intro hcrit
          left
          have hjm : j = m0 := by
            apply duniq j hjA
            rw [List.getD_eq_getElem _ _ hjA] at hcrit
            exact hcrit.symm
          omega
      · have hget : (alphabet.map (fun c => wt :: intStr site ++ [c]) ++
            es2).getD j [] = es2.getD (j - alphabet.length) [] := by
          rw [List.getD_append_right _ _ _ _ (by rw [hA1]; omega), hA1]
        rw [hget]
        have hij : i + j = i1 + (j - alphabet.length) := by omega
        rw [List.map_cons, List.mem_cons, hij]
        have hr6 := r6 (j - alphabet.length) (by omega)
        constructor
        · rintro (hij' | hij')
          · exfalso; omega
          · exact hr6.mp hij'
        · intro hcrit
          exact Or.inr (hr6.mpr hcrit)
    · intro st hst
      rcases List.mem_append.mp hst with h' | h'
      · obtain ⟨c, _, hceq⟩ := List.mem_map.mp h'
        refine ⟨0, by simp, ?_⟩
        rw [← hceq]
        congr 1
        simp
      · obtain ⟨k, hk, heq⟩ := r7 st h'
        refine ⟨k + 1, by simp [hk], ?_⟩
        rw [heq]
        congr 1
        push_cast
        ring

theorem mkFromSubs_expand_ok {variants : List PyStr} {alphabet : List Char}
    {ais mode : Bool} {w : PyStr} {subs : List PyStr} {bm : BinaryMap}
    (h : mkFromSubs variants alphabet ais mode true (some w) subs = .ok bm) :
    mode = false ∧ ais = false ∧
    ∃ wts muts lo hi,
      collectSubs alphabet false subs [] [] = .ok (wts, muts) ∧
      (∀ c ∈ w, c ∈ alphabet) ∧
      (siteNums wts).min? = some lo ∧ (siteNums wts).max? = some hi ∧
      ¬ lo < 1 ∧ ¬ hi > (w.length : Int) ∧
      checkWtsAgainst w wts = .ok () ∧
      ∃ entries sites wtIdxs,
        expandSites alphabet wts w 1 0 = .ok (entries, sites, wtIdxs) ∧
        finishMap alphabet false variants entries sites wtIdxs = .ok bm := by
  rcases hm : mode with _ | _
  swap
  · subst hm
    rw [mkFromSubs] at h
    rcases hc : collectSubs alphabet true subs [] [] with e | ⟨wts, muts⟩
    · rw [hc, exc_error_bind] at h; cases h
    · rw [hc, exc_ok_bind] at h
      replace h : (throw BMError.expandWithSitesAsStr :
          Except BMError BinaryMap) = .ok bm := h
      cases h
  subst hm
  rw [mkFromSubs] at h
  rcases hc : collectSubs alphabet false subs [] [] with e | ⟨wts, muts⟩
  · rw [hc, exc_error_bind] at h; cases h
  rw [hc, exc_ok_bind] at h
  rcases ha : ais with _ | _
  swap
  · subst ha
    replace h : (throw BMError.expandWithAllowedSubs :
        Except BMError BinaryMap) = .ok bm := h
    cases h
  subst ha
  refine ⟨rfl, rfl, wts, muts, ?_⟩
  replace h : (if ¬ (w.all (fun c => decide (c ∈ alphabet)) = true) then
      (throw BMError.wtseqBadChars : Except BMError BinaryMap)
    else
      match (siteNums wts).min?, (siteNums wts).max? with
      | none, _ => throw .minEmpty
      | some _, none => throw .minEmpty
      | some lo, some hi =>
        if lo < 1 then throw .siteBelowOne
        else if hi > (w.length : Int) then throw .wtseqTooShort
        else do
          checkWtsAgainst w wts
          let (entries, sites, wtIdxs) ← expandSites alphabet wts w 1 0
          finishMap alphabet false variants entries sites wtIdxs) =
      .ok bm := h
  by_cases hall : w.all (fun c => decide (c ∈ alphabet)) = true
  swap
  · rw [if_pos hall] at h
    cases h
  rw [if_neg (not_not_intro hall)] at h
  have hwchars : ∀ c ∈ w, c ∈ alphabet := by
    intro c hcmem
    have := List.all_eq_true.mp hall c hcmem
    simpa using this
  rcases hmin : (siteNums wts).min? with _ | lo
  · rw [hmin] at h; cases h
  rcases hmax : (siteNums wts).max? with _ | hi
  · rw [hmin, hmax] at h; cases h
  rw [hmin, hmax] at h
  replace h : (if lo < 1 then
      (throw BMError.siteBelowOne : Except BMError BinaryMap)
    else if hi > (w.length : Int) then throw .wtseqTooShort
    else do
      checkWtsAgainst w wts
      let (entries, sites, wtIdxs) ← expandSites alphabet wts w 1 0
      finishMap alphabet false variants entries sites wtIdxs) = .ok bm := h
  split at h
  next => cases h
  next hlo =>
    split at h
    next => cases h
    next hhi =>
      rcases hck : checkWtsAgainst w wts with e | cu
      · rw [hck, exc_error_bind] at h; cases h
      obtain ⟨⟩ := cu
      rw [hck, exc_ok_bind] at h
      rcases hex : expandSites alphabet wts w 1 0
        with e | ⟨entries, sites, wtIdxs⟩
      · rw [hex, exc_error_bind] at h; cases h
      rw [hex, exc_ok_bind] at h
      exact ⟨lo, hi, rfl, hwchars, rfl, rfl, hlo, hhi, rfl,
        entries, sites, wtIdxs, rfl, h⟩

theorem indexOf_reverse_nodup :
    ∀ (l : List Char), l.Nodup → ∀ c ∈ l,
      l.reverse.indexOf c = l.length - 1 - l.indexOf c := by
  intro l
  induction l with
  | nil => intro _ c hc; cases hc
  | cons a as ih =>
    intro hnd c hc
    have hna : a ∉ as := (List.nodup_cons.mp hnd).1
    have hnd' : as.Nodup := (List.nodup_cons.mp hnd).2
    rw [List.reverse_cons]
    by_cases hca : c = a
    · subst hca
      rw [List.indexOf_append_of_not_mem (by simpa using hna),
        List.indexOf_cons_self, List.length_reverse,
        List.indexOf_cons_self]
      simp
    · have hcas : c ∈ as := by
        rcases List.mem_cons.mp hc with h | h
        · exact absurd h hca
        · exact h
      rw [List.indexOf_append_of_mem (by simpa using hcas),
        ih hnd' c hcas, List.indexOf_cons_ne _ (fun e => hca e.symm)]
      have hlt : as.indexOf c < as.length := List.indexOf_lt_length.mpr hcas
      simp only [List.length_cons]
      omega

theorem char_order_eq_indexOf {l : List Char} (hnd : l.Nodup) {c : Char}
    (hc : c ∈ l) : char_order l c = l.indexOf c := by
  rw [char_order, indexOf_reverse_nodup l hnd c hc]
  have hlt : l.indexOf c < l.length := List.indexOf_lt_length.mpr hc
  omega

theorem char_order_strict {l : List Char} (hnd : l.Nodup) {c c' : Char}
    (hc : c ∈ l) (hc' : c' ∈ l) (hle : mutLe l c c') (hne : c ≠ c') :
    char_order l c < char_order l c' := by
  rw [char_order_eq_indexOf hnd hc, char_order_eq_indexOf hnd hc']
  rw [mutLe, char_order_eq_indexOf hnd hc, char_order_eq_indexOf hnd hc'] at hle
  rcases Nat.lt_or_ge (l.indexOf c) (l.indexOf c') with h | h
  · exact h
  · have : l.indexOf c = l.indexOf c' := le_antisymm hle h
    exact absurd ((List.indexOf_inj hc hc').mp this) hne

theorem siteLe_refl (s : Site) : siteLe s s := siteLeB_laws.refl s

theorem wtsLe_siteLe {a b : Site × Char} (h : wtsLe a b) :
    siteLe a.1 b.1 := by
  rw [wtsLe, wtsLeB] at h
  split at h
  next hc => exact hc.1
  next => exact h

/-- Full description of the registry built by the observed-only branch. -/
theorem observed_description {variants : List PyStr} {alphabet : List Char}
    {ais mode : Bool} {subs : List PyStr} {bm : BinaryMap}
    (h : mkFromSubs variants alphabet ais mode false none subs = .ok bm) :
    ∃ wts muts,
      collectSubs alphabet mode subs [] [] = .ok (wts, muts) ∧
      CollectInv alphabet mode wts muts ∧
      bm.alphabet = alphabet ∧ bm.sites_as_str = mode ∧
      bm.wt_indices = [] ∧ bm.substitution_variants = variants ∧
      bm.i_to_sub_list.Nodup ∧
      bm.binary_sites.length = bm.i_to_sub_list.length ∧
      bm.i_to_sub_list.zip bm.binary_sites =
        ((List.insertionSort wtsLe wts).map (obsBlock alphabet muts)).flatten ∧
      variants.mapM
        (fun v => BinaryMap.sub_str_to_indices
          ⟨alphabet, mode, bm.i_to_sub_list, bm.binary_sites, [], variants, []⟩
          v) = .ok bm.binary_variants := by
  obtain ⟨wts, muts, hc, hf⟩ := mkFromSubs_observed_ok h
  obtain ⟨hnd, ha, hm, hi, hbs, hwt, hsv, hrows⟩ := finishMap_ok hf
  have hinv : CollectInv alphabet mode wts muts :=
    collectSubs_inv alphabet mode _ _ _ _ _ hc (collectInv_nil _ _)
  refine ⟨wts, muts, hc, hinv, ha, hm, hwt, hsv, hi ▸ hnd, ?_, ?_, ?_⟩
  · rw [hi, hbs]
    exact (observedBuild_length alphabet muts _).symm
  · rw [hi, hbs]
    exact observedBuild_zip alphabet muts _
  · rw [hi, hbs]
    exact hrows

/-- Spec-side strict order of C4: ascending site (natural order), and on
equal sites strictly ascending position of the mutant character in the
alphabet. -/
def specObsLt (alphabet : List Char) (a b : PyStr × Site) : Prop :=
  siteLe a.2 b.2 ∧
  (a.2 = b.2 →
    alphabet.indexOf (a.1.getLastD ' ') < alphabet.indexOf (b.1.getLastD ' '))

instance (alphabet : List Char) : IsTotal Char (mutLe alphabet) :=
  ⟨fun a b => le_total _ _⟩

instance (alphabet : List Char) : IsTrans Char (mutLe alphabet) :=
  ⟨fun _ _ _ h h' => le_trans h h'⟩

theorem sorted_wts_pairwise (wts : List (Site × Char))
    (hkeys : (wts.map (fun p => p.1)).Nodup) :
    List.Pairwise (fun p q : Site × Char => wtsLe p q ∧ p.1 ≠ q.1)
      (List.insertionSort wtsLe wts) := by
  have h1 : List.Pairwise wtsLe (List.insertionSort wtsLe wts) :=
    List.sorted_insertionSort wtsLe wts
  have h2 : ((List.insertionSort wtsLe wts).map (fun p => p.1)).Nodup := by
    have hp : List.Perm (List.insertionSort wtsLe wts) wts :=
      List.perm_insertionSort wtsLe wts
    exact ((hp.map (fun p => p.1)).nodup_iff).mpr hkeys
  have h3 : List.Pairwise (fun p q : Site × Char => p.1 ≠ q.1)
      (List.insertionSort wtsLe wts) :=
    (List.pairwise_map).mp h2
  exact h1.and h3

theorem obsBlock_pairwise {alphabet : List Char} (hnd : alphabet.Nodup)
    (muts : List (Site × List Char)) (p : Site × Char)
    (hms : (mutsOfSite muts p.1).Nodup)
    (hmem : ∀ m ∈ mutsOfSite muts p.1, m ∈ alphabet) :
    List.Pairwise (specObsLt alphabet) (obsBlock alphabet muts p) := by
  rw [obsBlock, List.pairwise_map]
  have hsor : List.Pairwise (mutLe alphabet)
      (List.insertionSort (mutLe alphabet) (mutsOfSite muts p.1)) :=
    List.sorted_insertionSort _ _
  have hnd2 : (List.insertionSort (mutLe alphabet)
      (mutsOfSite muts p.1)).Nodup :=
    ((List.perm_insertionSort _ _).nodup_iff).mpr hms
  have hmem2 : ∀ m ∈ List.insertionSort (mutLe alphabet)
      (mutsOfSite muts p.1), m ∈ alphabet := by
    intro m hm
    exact hmem m ((List.perm_insertionSort _ _).mem_iff.mp hm)
  refine (hsor.and hnd2).imp_of_mem ?_
  intro m m' hm hm' hmm
  refine ⟨siteLe_refl _, fun _ => ?_⟩
  have hml : ((p.2 :: siteStr p.1) ++ [m]).getLastD ' ' = m :=
    List.getLastD_concat _ _ _
  have hml' : ((p.2 :: siteStr p.1) ++ [m']).getLastD ' ' = m' :=
    List.getLastD_concat _ _ _
  rw [hml, hml']
  have hco : char_order alphabet m < char_order alphabet m' :=
    char_order_strict hnd (hmem2 m hm) (hmem2 m' hm') hmm.1 hmm.2
  rw [char_order_eq_indexOf hnd (hmem2 m hm),
    char_order_eq_indexOf hnd (hmem2 m' hm')] at hco
  exact hco

theorem obsBlock_site {alphabet : List Char} {muts : List (Site × List Char)}
    {p : Site × Char} {q : PyStr × Site} (hq : q ∈ obsBlock alphabet muts p) :
    q.2 = p.1 := by
  rw [obsBlock, List.mem_map] at hq
  obtain ⟨m, _, hq'⟩ := hq
  rw [← hq']

instance : DecidableRel siteLt := fun a b =>
  inferInstanceAs (Decidable (siteLe a b ∧ ¬ siteLe b a))

theorem siteLt_num_iff (a b : Int) :
    siteLt (Site.num a) (Site.num b) ↔ a < b := by
  simp only [siteLt, siteLe, siteLeB, decide_eq_true_eq]
  omega

/-- C4: in observed-only mode (no `expand`, no `wtseq`) the registry
creates no wildtype indices, and its entries are ordered first by the
natural ascending site order (numeric sites numerically, string sites by
natural key, e.g. "9" before "10a" before "10b") and, within one site,
by strictly ascending position of the mutant character in the
(duplicate-free) alphabet. -/
theorem C4_observed_order {variants : List PyStr} {alphabet : List Char}
    {allowed : Option (List PyStr)} {mode : Bool} {bm : BinaryMap}
    (h : mkBinaryMap variants alphabet allowed mode false none = .ok bm)
    (hnd : alphabet.Nodup) :
    bm.wt_indices = [] ∧
    List.Pairwise (specObsLt alphabet)
      (bm.i_to_sub_list.zip bm.binary_sites) ∧
    (∀ a b : Int, siteLt (Site.num a) (Site.num b) ↔ a < b) ∧
    siteLt (Site.str ['9']) (Site.str ['1', '0', 'a']) ∧
    siteLt (Site.str ['1', '0', 'a']) (Site.str ['1', '0', 'b']) := by
  obtain ⟨subs, ais, hfs⟩ : ∃ subs ais,
      mkFromSubs variants alphabet ais mode false none subs = .ok bm := by
    rcases mkBinaryMap_ok_cases h with ⟨_, hf⟩ | ⟨a, _, _, hf⟩
    · exact ⟨_, _, hf⟩
    · exact ⟨_, _, hf⟩
  obtain ⟨wts, muts, hc, hinv, hba, hbm, hwt, hsv, hndl, hlen, hzip, hrows⟩ :=
    observed_description hfs
  refine ⟨hwt, ?_, siteLt_num_iff, by decide, by decide⟩
  rw [hzip]
  rw [List.pairwise_flatten]
  constructor
  · intro l hl
    obtain ⟨p, hp, hl'⟩ := List.mem_map.mp hl
    have hpw : p ∈ wts :=
      (List.perm_insertionSort wtsLe wts).mem_iff.mp hp
    rw [← hl']
    exact obsBlock_pairwise hnd muts p (hinv.muts_nodup p hpw)
      (fun m hm => (hinv.muts_good p hpw m hm).1)
  · rw [List.pairwise_map]
    refine (sorted_wts_pairwise wts hinv.keys_nodup).imp_of_mem ?_
    intro p q _ _ hpq x hx y hy
    have hxp : x.2 = p.1 := obsBlock_site hx
    have hyq : y.2 = q.1 := obsBlock_site hy
    refine ⟨?_, fun heq => ?_⟩
    · rw [hxp, hyq]
      exact wtsLe_siteLe hpq.1
    · exact absurd (hxp ▸ hyq ▸ heq) hpq.2

def c4bm : BinaryMap :=
  ⟨['A', 'C', 'M'], false,
   [['M', '1', 'A'], ['M', '1', 'C'], ['A', '2', 'C']],
   [Site.num 1, Site.num 1, Site.num 2], [],
   [['M', '1', 'A'], ['M', '1', 'C', ' ', 'A', '2', 'C']],
   [[0], [1, 2]]⟩

theorem C4_observed_order_witness :
    c4bm.wt_indices = [] ∧
    List.Pairwise (specObsLt ['A', 'C', 'M'])
      (c4bm.i_to_sub_list.zip c4bm.binary_sites) ∧
    (∀ a b : Int, siteLt (Site.num a) (Site.num b) ↔ a < b) ∧
    siteLt (Site.str ['9']) (Site.str ['1', '0', 'a']) ∧
    siteLt (Site.str ['1', '0', 'a']) (Site.str ['1', '0', 'b']) :=
  @C4_observed_order [['M', '1', 'A'], ['M', '1', 'C', ' ', 'A', '2', 'C']]
    ['A', 'C', 'M'] none false c4bm (by rfl) (by decide)

theorem mkFromSubs_ok_shape {variants : List PyStr} {alphabet : List Char}
    {ais mode exp : Bool} {wtseq : Option PyStr} {subs : List PyStr}
    {bm : BinaryMap}
    (h : mkFromSubs variants alphabet ais mode exp wtseq subs = .ok bm) :
    bm.i_to_sub_list.Nodup ∧
    ∀ j ∈ bm.wtIndexSet, j < bm.binarylength := by
  rcases exp with _ | _
  · rcases wtseq with _ | w
    · obtain ⟨wts, muts, _, hf⟩ := mkFromSubs_observed_ok h
      obtain ⟨hnd, _, _, hi, _, hwt, _, _⟩ := finishMap_ok hf
      refine ⟨hi ▸ hnd, ?_⟩
      intro j hj
      rw [BinaryMap.wtIndexSet, hwt] at hj
      cases hj
    · rw [mkFromSubs] at h
      rcases hc : collectSubs alphabet mode subs [] [] with e | ⟨wts, muts⟩
      · rw [hc, exc_error_bind] at h; cases h
      · rw [hc, exc_ok_bind] at h
        replace h : (throw BMError.wtseqWithoutExpand :
            Except BMError BinaryMap) = .ok bm := h
        cases h
  · rcases wtseq with _ | w
    · rw [mkFromSubs] at h
      rcases hc : collectSubs alphabet mode subs [] [] with e | ⟨wts, muts⟩
      · rw [hc, exc_error_bind] at h; cases h
      · rw [hc, exc_ok_bind] at h
        rcases mode with _ | _
        · rcases ais with _ | _
          · replace h : (throw BMError.wtseqNotStr :
                Except BMError BinaryMap) = .ok bm := h
            cases h
          · replace h : (throw BMError.expandWithAllowedSubs :
                Except BMError BinaryMap) = .ok bm := h
            cases h
        · replace h : (throw BMError.expandWithSitesAsStr :
              Except BMError BinaryMap) = .ok bm := h
          cases h
    · obtain ⟨hmode, hais, wts, muts, lo, hi, hc, hwchars, hmin, hmax,
        hlo, hhi, hck, entries, sites, wtIdxs, hex, hf⟩ :=
        mkFromSubs_expand_ok h
      obtain ⟨hnd, _, _, hil, _, hwt, _, _⟩ := finishMap_ok hf
      obtain ⟨r1, r2, r3, r4, r5, r6⟩ :=
        expandSites_ok alphabet wts w 1 0 entries sites wtIdxs hex hwchars
      refine ⟨hil ▸ hnd, ?_⟩
      intro j hj
      rw [BinaryMap.wtIndexSet, hwt, List.mem_map] at hj
      obtain ⟨p, hp, hpv⟩ := hj
      have := (r5 p hp).2.1
      rw [BinaryMap.binarylength, hil]
      omega

/-- C6: index bijection of the registry: every index below
`binarylength` that is not a wildtype index decodes to an entry that
`sub_to_i` maps back to the same index; every wildtype index decodes to
the empty string; and `i_to_sub` succeeds exactly on the contiguous
range `[0, binarylength)`. -/
theorem C6_index_bijection {variants : List PyStr} {alphabet : List Char}
    {allowed : Option (List PyStr)} {mode exp : Bool}
    {wtseq : Option PyStr} {bm : BinaryMap}
    (h : mkBinaryMap variants alphabet allowed mode exp wtseq = .ok bm) :
    (∀ i, i < bm.binarylength → i ∉ bm.wtIndexSet →
       ∃ s, bm.i_to_sub i = .ok s ∧ bm.sub_to_i s = .ok i) ∧
    (∀ i ∈ bm.wtIndexSet, bm.i_to_sub i = .ok []) ∧
    (∀ i, (∃ s, bm.i_to_sub i = .ok s) ↔ i < bm.binarylength) := by
  obtain ⟨hnd, hwlt⟩ : bm.i_to_sub_list.Nodup ∧
      ∀ j ∈ bm.wtIndexSet, j < bm.binarylength := by
    rcases mkBinaryMap_ok_cases h with ⟨_, hf⟩ | ⟨a, _, _, hf⟩
    · exact mkFromSubs_ok_shape hf
    · exact mkFromSubs_ok_shape hf
  have hget : ∀ i, i < bm.binarylength →
      bm.i_to_sub_list[i]? = some (bm.i_to_sub_list.getD i []) := by
    intro i hi
    rw [List.getD_eq_getElem _ _ hi, List.getElem?_eq_getElem hi]
  refine ⟨?_, ?_, ?_⟩
  · intro i hi hiw
    refine ⟨bm.i_to_sub_list.getD i [], ?_, ?_⟩
    · rw [BinaryMap.i_to_sub, if_neg hiw, hget i hi]
    · rw [BinaryMap.sub_to_i]
      have hli : lookupIdx bm.i_to_sub_list (bm.i_to_sub_list.getD i []) =
          some i := by
        exact lookupIdx_of_get_nodup hnd (hget i hi)
      rw [hli]
  · intro i hi
    rw [BinaryMap.i_to_sub, if_pos hi]
  · intro i
    constructor
    · rintro ⟨s, hs⟩
      by_cases hiw : i ∈ bm.wtIndexSet
      · exact hwlt i hiw
      · rw [BinaryMap.i_to_sub, if_neg hiw] at hs
        by_contra hilt
        rw [List.getElem?_eq_none (by
          rw [BinaryMap.binarylength] at hilt; omega)] at hs
        cases hs
    · intro hi
      by_cases hiw : i ∈ bm.wtIndexSet
      · exact ⟨[], by rw [BinaryMap.i_to_sub, if_pos hiw]⟩
      · exact ⟨bm.i_to_sub_list.getD i [],
          by rw [BinaryMap.i_to_sub, if_neg hiw, hget i hi]⟩

def c6bm : BinaryMap :=
  ⟨['A', 'C', 'G', 'K', 'M'], false,
   [['M', '1', 'A'], ['M', '1', 'C'], ['M', '1', 'G'], ['M', '1', 'K'],
    ['M', '1', 'M'], ['A', '2', 'A'], ['A', '2', 'C'], ['A', '2', 'G'],
    ['A', '2', 'K'], ['A', '2', 'M'], ['K', '3', 'A'], ['K', '3', 'C'],
    ['K', '3', 'G'], ['K', '3', 'K'], ['K', '3', 'M'], ['G', '4', 'A'],
    ['G', '4', 'C'], ['G', '4', 'G'], ['G', '4', 'K'], ['G', '4', 'M']],
   [Site.num 1, Site.num 1, Site.num 1, Site.num 1, Site.num 1,
    Site.num 2, Site.num 2, Site.num 2, Site.num 2, Site.num 2,
    Site.num 3, Site.num 3, Site.num 3, Site.num 3, Site.num 3,
    Site.num 4, Site.num 4, Site.num 4, Site.num 4, Site.num 4],
   [(Site.num 1, 4), (Site.num 2, 5), (Site.num 3, 13), (Site.num 4, 17)],
   [['M', '1', 'A'], ['M', '1', 'C', ' ', 'K', '3', 'A']],
   [[0, 5, 13, 17], [1, 5, 10, 17]]⟩

theorem C6_index_bijection_witness :
    (∀ i, i < c6bm.binarylength → i ∉ c6bm.wtIndexSet →
       ∃ s, c6bm.i_to_sub i = .ok s ∧ c6bm.sub_to_i s = .ok i) ∧
    (∀ i ∈ c6bm.wtIndexSet, c6bm.i_to_sub i = .ok []) ∧
    (∀ i, (∃ s, c6bm.i_to_sub i = .ok s) ↔ i < c6bm.binarylength) :=
  @C6_index_bijection [['M', '1', 'A'], ['M', '1', 'C', ' ', 'K', '3', 'A']]
    ['A', 'C', 'G', 'K', 'M'] none false true (some ['M', 'A', 'K', 'G'])
    c6bm (by rfl)

theorem subStr_decomp {sb' : Subst} {w : Char} {mid : PyStr} {m : Char}
    (h : (w :: mid) ++ [m] = subStr sb') :
    w = sb'.wt ∧ mid = siteStr sb'.site ∧ m = sb'.mutCh := by
  have h1 : ((w :: mid) ++ [m]).getLast? = (subStr sb').getLast? := by rw [h]
  rw [getLast?_concat', subStr, getLast?_concat'] at h1
  injection h1 with h1
  have h2 : ((w :: mid) ++ [m]).dropLast = (subStr sb').dropLast := by rw [h]
  rw [dropLast_concat', subStr, dropLast_concat'] at h2
  injection h2 with hw hmid
  exact ⟨hw, hmid, h1⟩

/-- Well-formedness facts shared by every constructed map, used by the
encode/decode theorems. -/
structure MapWF (bm : BinaryMap) : Prop where
  nodup : bm.i_to_sub_list.Nodup
  sites_len : bm.binary_sites.length = bm.i_to_sub_list.length
  wt_lt : ∀ j ∈ bm.wtIndexSet, j < bm.binarylength
  wt_keys_nodup : (bm.wt_indices.map (fun p => p.1)).Nodup
  wt_site : ∀ p ∈ bm.wt_indices,
    bm.binary_sites.getD p.2 (Site.num 0) = p.1
  entry_form : ∀ j, j < bm.binarylength →
    ∃ sb : Subst, bm.i_to_sub_list.getD j [] = subStr sb ∧
      sb.wt ∈ bm.alphabet ∧ sb.mutCh ∈ bm.alphabet ∧
      ValidSite bm.sites_as_str sb.site ∧
      sb.site = bm.binary_sites.getD j (Site.num 0) ∧
      (sb.wt = sb.mutCh ↔ j ∈ bm.wtIndexSet)

theorem zip_getD_mem {l1 : List PyStr} {l2 : List Site}
    (hlen : l2.length = l1.length) {j : Nat} (hj : j < l1.length) :
    (l1.getD j [], l2.getD j (Site.num 0)) ∈ l1.zip l2 := by
  have hj2 : j < l2.length := by omega
  have hjz : j < (l1.zip l2).length := by
    rw [List.length_zip]
    omega
  have hz : (l1.zip l2)[j] = (l1[j], l2[j]) := List.getElem_zip
  rw [List.getD_eq_getElem _ _ hj, List.getD_eq_getElem _ _ hj2, ← hz]
  exact List.getElem_mem hjz

theorem mapWF_of_mkFromSubs {variants : List PyStr} {alphabet : List Char}
    {ais mode exp : Bool} {wtseq : Option PyStr} {subs : List PyStr}
    {bm : BinaryMap}
    (h : mkFromSubs variants alphabet ais mode exp wtseq subs = .ok bm) :
    MapWF bm := by
  obtain ⟨hnd, hwlt⟩ := mkFromSubs_ok_shape h
  rcases exp with _ | _
  · rcases wtseq with _ | w
    · obtain ⟨wts, muts, hc, hinv, hba, hbm, hwt, hsv, hndl, hlen, hzip, _⟩ :=
        observed_description h
      refine ⟨hnd, hlen, hwlt, by rw [hwt]; simp, by rw [hwt]; simp, ?_⟩
      intro j hj
      have hp := zip_getD_mem hlen hj
      rw [hzip] at hp
      obtain ⟨blk, hblk, hpin⟩ := List.mem_flatten.mp hp
      obtain ⟨p, hpw, hblk'⟩ := List.mem_map.mp hblk
      rw [← hblk', obsBlock, List.mem_map] at hpin
      obtain ⟨m, hm, heq⟩ := hpin
      have hpmem : p ∈ wts :=
        (List.perm_insertionSort wtsLe wts).mem_iff.mp hpw
      have hmmem : m ∈ mutsOfSite muts p.1 :=
        (List.perm_insertionSort (mutLe alphabet) _).mem_iff.mp hm
      injection heq with e1 e2
      refine ⟨⟨p.2, p.1, m⟩, e1.symm, hba ▸ (hinv.wts_good p hpmem).2,
        hba ▸ (hinv.muts_good p hpmem m hmmem).1,
        hbm ▸ (hinv.wts_good p hpmem).1, e2 ▸ rfl, ?_⟩
      refine iff_of_false ?_ ?_
      · exact fun e => (hinv.muts_good p hpmem m hmmem).2 e.symm
      · rw [BinaryMap.wtIndexSet, hwt]
        simp
    · rw [mkFromSubs] at h
      rcases hc : collectSubs alphabet mode subs [] [] with e | ⟨wts, muts⟩
      · rw [hc, exc_error_bind] at h; cases h
      · rw [hc, exc_ok_bind] at h
        replace h : (throw BMError.wtseqWithoutExpand :
            Except BMError BinaryMap) = .ok bm := h
        cases h
  · rcases wtseq with _ | w
    · rw [mkFromSubs] at h
      rcases hc : collectSubs alphabet mode subs [] [] with e | ⟨wts, muts⟩
      · rw [hc, exc_error_bind] at h; cases h
      · rw [hc, exc_ok_bind] at h
        rcases mode with _ | _
        · rcases ais with _ | _
          · replace h : (throw BMError.wtseqNotStr :
                Except BMError BinaryMap) = .ok bm := h
            cases h
          · replace h : (throw BMError.expandWithAllowedSubs :
                Except BMError BinaryMap) = .ok bm := h
            cases h
        · replace h : (throw BMError.expandWithSitesAsStr :
              Except BMError BinaryMap) = .ok bm := h
          cases h
    · obtain ⟨hmode, hais, wts, muts, lo, hi, hc, hwchars, hmin, hmax,
        hlo, hhi, hck, entries, sites, wtIdxs, hex, hf⟩ :=
        mkFromSubs_expand_ok h
      obtain ⟨hend, hba, hbm, hil, hbs, hwt, hsv, _⟩ := finishMap_ok hf
      obtain ⟨r1, r2, r3, r4, r5, r6, r7⟩ :=
        expandSites_ok alphabet wts w 1 0 entries sites wtIdxs hex hwchars
      have hlen : bm.binary_sites.length = bm.i_to_sub_list.length := by
        rw [hil, hbs, r2]
      refine ⟨hnd, hlen, hwlt, ?_, ?_, ?_⟩
      · rw [hwt, r4]
        refine List.Nodup.map ?_ (List.nodup_range _)
        intro a b hab
        have hab' : (1 : Int) + a = 1 + b := by injection hab
        omega
      · intro p hp
        rw [hwt] at hp
        obtain ⟨_, _, b3⟩ := r5 p hp
        rw [hbs]
        have hz : p.2 - 0 = p.2 := by omega
        rw [hz] at b3
        exact b3
      intro j hj
      have hjL : j < bm.i_to_sub_list.length := hj
      have hp := zip_getD_mem hlen hjL
      rw [hil, hbs] at hp
      obtain ⟨wc, s, c, heq, hwq, hcq⟩ := r3 _ hp
      have he1 : bm.i_to_sub_list.getD j [] = wc :: intStr s ++ [c] := by
        rw [hil]
        have := congrArg Prod.fst heq
        simpa [hil] using this
      have he2 : bm.binary_sites.getD j (Site.num 0) = Site.num s := by
        rw [hbs]
        have := congrArg Prod.snd heq
        simpa [hbs] using this
      have hcrit := r6 j (by
        rw [BinaryMap.binarylength, hil] at hj
        exact hj)
      rw [Nat.zero_add] at hcrit
      refine ⟨⟨wc, Site.num s, c⟩, he1, hba ▸ hwchars wc hwq,
        hba ▸ hcq, hbm ▸ validSite_num s, by rw [he2], ?_⟩
      have hhd : (entries.getD j []).headD ' ' = wc := by
        have : entries.getD j [] = wc :: intStr s ++ [c] := by
          rw [hil] at he1; exact he1
        rw [this]
        rfl
      have hlst : (entries.getD j []).getLastD ' ' = c := by
        have : entries.getD j [] = (wc :: intStr s) ++ [c] := by
          rw [hil] at he1; exact he1
        rw [this, List.getLastD_concat]
      constructor
      · intro hwcc
        have hwcc' : wc = c := hwcc
        have hmem := hcrit.mpr (by rw [hhd, hlst, hwcc'])
        rw [BinaryMap.wtIndexSet, hwt]
        exact hmem
      · intro hjw
        rw [BinaryMap.wtIndexSet, hwt] at hjw
        have := hcrit.mp hjw
        rw [hhd, hlst] at this
        exact this

theorem mapWF_of_mk {variants : List PyStr} {alphabet : List Char}
    {allowed : Option (List PyStr)} {mode exp : Bool} {wtseq : Option PyStr}
    {bm : BinaryMap}
    (h : mkBinaryMap variants alphabet allowed mode exp wtseq = .ok bm) :
    MapWF bm := by
  rcases mkBinaryMap_ok_cases h with ⟨_, hf⟩ | ⟨a, _, _, hf⟩
  · exact mapWF_of_mkFromSubs hf
  · exact mapWF_of_mkFromSubs hf

theorem parse_entry {bm : BinaryMap} (W : MapWF bm) {j : Nat}
    (hj : j < bm.binarylength) {sb : Subst}
    (hp : parseSub bm.alphabet bm.sites_as_str (bm.i_to_sub_list.getD j []) =
      .ok sb) :
    bm.binary_sites.getD j (Site.num 0) = sb.site ∧ j ∉ bm.wtIndexSet := by
  obtain ⟨sb', he, hw', hm', hv', hs', hiff⟩ := W.entry_form j hj
  rw [he] at hp
  obtain ⟨mid, htok, hw, hm, hmatch, hne, hsite⟩ := parseSub_ok_iff.mp hp
  have hd : sb.wt = sb'.wt ∧ mid = siteStr sb'.site ∧ sb.mutCh = sb'.mutCh := by
    have : (sb.wt :: mid) ++ [sb.mutCh] = subStr sb' := htok.symm
    exact subStr_decomp this
  obtain ⟨hdw, hdm, hdc⟩ := hd
  constructor
  · rw [← hs', hsite, hdm, hv'.2]
  · intro hjw
    have : sb'.wt = sb'.mutCh := hiff.mpr hjw
    exact hne (by rw [hdw, hdc, this])

theorem entry_parses {bm : BinaryMap} (W : MapWF bm) {j : Nat}
    (hj : j < bm.binarylength) (hjw : j ∉ bm.wtIndexSet) :
    ∃ sb, parseSub bm.alphabet bm.sites_as_str (bm.i_to_sub_list.getD j []) =
      .ok sb ∧ sb.site = bm.binary_sites.getD j (Site.num 0) := by
  obtain ⟨sb', he, hw', hm', hv', hs', hiff⟩ := W.entry_form j hj
  have hne : sb'.wt ≠ sb'.mutCh := fun e => hjw (hiff.mp e)
  exact ⟨sb', by rw [he]; exact parseSub_subStr sb' hw' hm' hne hv', hs'⟩

theorem wt_entry_parse_fail {bm : BinaryMap} (W : MapWF bm) {j : Nat}
    (hj : j < bm.binarylength) (hjw : j ∈ bm.wtIndexSet) :
    ∀ sb, parseSub bm.alphabet bm.sites_as_str
      (bm.i_to_sub_list.getD j []) ≠ .ok sb := by
  intro sb hp
  exact (parse_entry W hj hp).2 hjw

theorem encodeTokens_cons_ok {bm : BinaryMap} {tok : PyStr}
    {rest : List PyStr} {seen : List Site} {sites : List Site}
    {idxs : List Nat}
    (h : bm.encodeTokens (tok :: rest) seen = .ok (sites, idxs)) :
    ∃ sb i sites' idxs',
      parseSub bm.alphabet bm.sites_as_str tok = .ok sb ∧
      sb.site ∉ seen ∧ bm.sub_to_i tok = .ok i ∧
      bm.encodeTokens rest (sb.site :: seen) = .ok (sites', idxs') ∧
      sites = sb.site :: sites' ∧ idxs = i :: idxs' := by
  rw [encodeTokens_cons] at h
  rcases hp : parseSub bm.alphabet bm.sites_as_str tok with e | sb
  · rw [hp, exc_error_bind] at h; cases h
  rw [hp, exc_ok_bind] at h
  split at h
  next => cases h
  next hs =>
    rcases hi : bm.sub_to_i tok with e | i
    · rw [hi, exc_error_bind] at h; cases h
    rw [hi, exc_ok_bind] at h
    rcases hrec : bm.encodeTokens rest (sb.site :: seen)
      with e | ⟨sites', idxs'⟩
    · rw [hrec, exc_error_bind] at h; cases h
    rw [hrec, exc_ok_bind] at h
    injection h with h'
    injection h' with h1 h2
    exact ⟨sb, i, sites', idxs', rfl, hs, rfl, hrec, h1.symm, h2.symm⟩

theorem encodeTokens_ok_desc (bm : BinaryMap) :
    ∀ (toks : List PyStr) (seen : List Site) (sites : List Site)
      (idxs : List Nat),
      bm.encodeTokens toks seen = .ok (sites, idxs) →
      sites.Nodup ∧ (∀ st ∈ sites, st ∉ seen) ∧
      List.Forall₂ (fun st idx => ∃ tok sb,
        parseSub bm.alphabet bm.sites_as_str tok = .ok sb ∧ sb.site = st ∧
        lookupIdx bm.i_to_sub_list tok = some idx) sites idxs := by
  intro toks
  induction toks with
  | nil =>
    intro seen sites idxs h
    have h' : (Except.ok ([], []) : Except BMError (List Site × List Nat)) =
        .ok (sites, idxs) := h
    injection h' with h''
    injection h'' with h1 h2
    subst h1; subst h2
    exact ⟨List.nodup_nil, by simp, List.Forall₂.nil⟩
  | cons tok rest ih =>
    intro seen sites idxs h
    obtain ⟨sb, i, sites', idxs', hp, hs, hi, hrec, h1, h2⟩ :=
      encodeTokens_cons_ok h
    subst h1; subst h2
    obtain ⟨rnd, rzw, rfa⟩ := ih (sb.site :: seen) sites' idxs' hrec
    refine ⟨?_, ?_, ?_⟩
    · rw [List.nodup_cons]
      exact ⟨fun hmem => rzw sb.site hmem (List.mem_cons_self _ _), rnd⟩
    · intro st hst
      rcases List.mem_cons.mp hst with rfl | hst'
      · exact hs
      · exact fun hmem => rzw st hst' (List.mem_cons_of_mem _ hmem)
    · refine List.Forall₂.cons ⟨tok, sb, hp, rfl, ?_⟩ rfa
      rw [BinaryMap.sub_to_i] at hi
      rcases hli : lookupIdx bm.i_to_sub_list tok with _ | i'
      · rw [hli] at hi; cases hi
      · rw [hli] at hi
        replace hi : (Except.ok i' : Except BMError Nat) = .ok i := hi
        injection hi with hi'
        rw [hi']

theorem sub_str_to_indices_ok_desc {bm : BinaryMap} {s : PyStr}
    {r : List Nat} (h : bm.sub_str_to_indices s = .ok r) :
    ∃ sites idxs, bm.encodeTokens (tokenize s) [] = .ok (sites, idxs) ∧
      r = List.insertionSort (fun i j => i ≤ j)
        (idxs ++ (bm.wt_indices.filter (fun p => p.1 ∉ sites)).map
          (fun p => p.2)) := by
  rw [BinaryMap.sub_str_to_indices] at h
  rcases he : bm.encodeTokens (tokenize s) [] with e | ⟨sites, idxs⟩
  · rw [he, exc_error_bind] at h; cases h
  · rw [he, exc_ok_bind] at h
    replace h : (Except.ok (List.insertionSort (fun i j => i ≤ j)
        (idxs ++ (bm.wt_indices.filter (fun p => p.1 ∉ sites)).map
          (fun p => p.2))) : Except BMError (List Nat)) = .ok r := h
    injection h with h'
    exact ⟨sites, idxs, rfl, h'.symm⟩

theorem idx_of_lookup {bm : BinaryMap} {tok : PyStr} {i : Nat}
    (hli : lookupIdx bm.i_to_sub_list tok = some i) :
    i < bm.binarylength ∧ bm.i_to_sub_list.getD i [] = tok := by
  obtain ⟨hlt, hget⟩ := List.getElem?_eq_some.mp (lookupIdx_some_get hli)
  exact ⟨hlt, by rw [List.getD_eq_getElem _ _ hlt, hget]⟩

theorem forall2_sites_map {bm : BinaryMap} (W : MapWF bm) :
    ∀ {sites : List Site} {idxs : List Nat},
      List.Forall₂ (fun st idx => ∃ tok sb,
        parseSub bm.alphabet bm.sites_as_str tok = .ok sb ∧ sb.site = st ∧
        lookupIdx bm.i_to_sub_list tok = some idx) sites idxs →
      idxs.map (fun j => bm.binary_sites.getD j (Site.num 0)) = sites ∧
      ∀ j ∈ idxs, j < bm.binarylength ∧ j ∉ bm.wtIndexSet := by
  intro sites idxs hfa
  induction hfa with
  | nil => exact ⟨rfl, by simp⟩
  | @cons st idx sites' idxs' hrel hfa ih =>
    obtain ⟨tok, sb, hp, hsite, hli⟩ := hrel
    obtain ⟨hlt, hget⟩ := idx_of_lookup hli
    have hp' : parseSub bm.alphabet bm.sites_as_str
        (bm.i_to_sub_list.getD idx []) = .ok sb := by rw [hget]; exact hp
    obtain ⟨hsx, hnw⟩ := parse_entry W hlt hp'
    obtain ⟨ih1, ih2⟩ := ih
    refine ⟨?_, ?_⟩
    · rw [List.map_cons, ih1, hsx, hsite]
    · intro j hj
      rcases List.mem_cons.mp hj with rfl | hj'
      · exact ⟨hlt, hnw⟩
      · exact ih2 j hj'

theorem sum_indicator_ones (p : Nat → Prop) [DecidablePred p] :
    ∀ (l : List Nat),
      (l.map (fun j => if p j then (1 : Int) else 0)).sum =
        ((l.filter (fun j => decide (p j))).length : Int) := by
  intro l
  induction l with
  | nil => simp
  | cons a as ih =>
    by_cases hpa : p a <;>
      simp [List.filter_cons, hpa, ih] <;> push_cast <;> ring

theorem perm_filter_range {r : List Nat} {L : Nat} (hnd : r.Nodup)
    (hlt : ∀ j ∈ r, j < L) :
    List.Perm ((List.range L).filter (fun j => decide (j ∈ r))) r := by
  refine List.Subperm.antisymm ?_ ?_
  · refine List.subperm_of_subset (List.Nodup.filter _ (List.nodup_range L)) ?_
    intro j hj
    have := List.mem_filter.mp hj
    simpa using this.2
  · refine List.subperm_of_subset hnd ?_
    intro j hj
    rw [List.mem_filter]
    exact ⟨List.mem_range.mpr (hlt j hj), by simpa using hj⟩

theorem mapM_ok_forall2 {f : α → Except BMError β} :
    ∀ {l : List α} {out : List β}, l.mapM f = .ok out →
      List.Forall₂ (fun a b => f a = .ok b) l out := by
  intro l
  induction l with
  | nil =>
    intro out h
    rw [List.mapM_nil] at h
    replace h : (Except.ok ([] : List β) : Except BMError (List β)) =
        .ok out := h
    injection h with h'
    subst h'
    exact List.Forall₂.nil
  | cons a as ih =>
    intro out h
    rw [List.mapM_cons] at h
    rcases ha : f a with e | b
    · rw [ha, exc_error_bind] at h; cases h
    rw [ha, exc_ok_bind] at h
    rcases has : as.mapM f with e | bs
    · rw [has, exc_error_bind] at h; cases h
    rw [has, exc_ok_bind] at h
    replace h : (Except.ok (b :: bs) : Except BMError (List β)) = .ok out := h
    injection h with h'
    subst h'
    exact List.Forall₂.cons ha (ih has)

theorem encodeTokens_congr {bm bm' : BinaryMap}
    (h1 : bm'.alphabet = bm.alphabet)
    (h2 : bm'.sites_as_str = bm.sites_as_str)
    (h3 : bm'.i_to_sub_list = bm.i_to_sub_list) :
    ∀ (toks : List PyStr) (seen : List Site),
      bm'.encodeTokens toks seen = bm.encodeTokens toks seen := by
  intro toks
  induction toks with
  | nil => intro seen; rfl
  | cons tok rest ih =>
    intro seen
    rw [encodeTokens_cons, encodeTokens_cons, h1, h2]
    rcases hp : parseSub bm.alphabet bm.sites_as_str tok with e | sb
    · rw [exc_error_bind, exc_error_bind]
    · rw [exc_ok_bind, exc_ok_bind]
      split
      · rfl
      · rw [BinaryMap.sub_to_i, BinaryMap.sub_to_i, h3]
        rcases hi : lookupIdx bm.i_to_sub_list tok with _ | i
        · rfl
        · rw [exc_ok_bind, exc_ok_bind, ih]

theorem sub_str_to_indices_congr {bm bm' : BinaryMap}
    (h1 : bm'.alphabet = bm.alphabet)
    (h2 : bm'.sites_as_str = bm.sites_as_str)
    (h3 : bm'.i_to_sub_list = bm.i_to_sub_list)
    (h4 : bm'.wt_indices = bm.wt_indices) (v : PyStr) :
    bm'.sub_str_to_indices v = bm.sub_str_to_indices v := by
  rw [BinaryMap.sub_str_to_indices, BinaryMap.sub_str_to_indices,
    encodeTokens_congr h1 h2 h3, h4]

theorem map_fst_filter_key (l : List (Site × Nat)) (sites : List Site) :
    ((l.filter (fun p => p.1 ∉ sites)).map (fun p => p.1)) =
      (l.map (fun p => p.1)).filter (fun st => st ∉ sites) := by
  induction l with
  | nil => rfl
  | cons p rest ih =>
    simp only [decide_not] at ih
    by_cases hp : p.1 ∈ sites <;>
      simp [List.filter_cons, hp, ih]

theorem rangeSites_nodup (n : Nat) :
    ((List.range n).map (fun (k : Nat) => Site.num (1 + (k : Int)))).Nodup := by
  refine List.Nodup.map ?_ (List.nodup_range n)
  intro a b hab
  have : (1 : Int) + a = 1 + b := by
    injection hab
  omega

theorem expand_struct {variants : List PyStr} {alphabet : List Char}
    {allowed : Option (List PyStr)} {mode : Bool} {w : PyStr}
    {bm : BinaryMap}
    (h : mkBinaryMap variants alphabet allowed mode true (some w) = .ok bm) :
    bm.alphabet = alphabet ∧ bm.sites_as_str = false ∧
    bm.substitution_variants = variants ∧
    bm.binarylength = w.length * alphabet.length ∧
    bm.wt_indices.map (fun p => p.1) =
      (List.range w.length).map (fun (k : Nat) => Site.num (1 + (k : Int))) ∧
    (∀ p ∈ bm.wt_indices, p.2 < bm.binarylength ∧
       bm.binary_sites.getD p.2 (Site.num 0) = p.1) ∧
    (∀ st ∈ bm.binary_sites, ∃ k, k < w.length ∧
       st = Site.num (1 + (k : Int))) ∧
    List.Forall₂ (fun v r => bm.sub_str_to_indices v = .ok r)
      variants bm.binary_variants := by
  obtain ⟨subs, ais, hfs⟩ : ∃ subs ais,
      mkFromSubs variants alphabet ais mode true (some w) subs = .ok bm := by
    rcases mkBinaryMap_ok_cases h with ⟨_, hf⟩ | ⟨a, _, _, hf⟩
    · exact ⟨_, _, hf⟩
    · exact ⟨_, _, hf⟩
  obtain ⟨hmode, hais, wts, muts, lo, hi, hc, hwchars, hmin, hmax,
      hlo, hhi, hck, entries, sites, wtIdxs, hex, hf⟩ :=
    mkFromSubs_expand_ok hfs
  obtain ⟨hnd, hba, hbm, hil, hbs, hwt, hsv, hrows⟩ := finishMap_ok hf
  obtain ⟨r1, r2, r3, r4, r5, r6, r7⟩ :=
    expandSites_ok alphabet wts w 1 0 entries sites wtIdxs hex hwchars
  have hL : bm.binarylength = w.length * alphabet.length := by
    rw [BinaryMap.binarylength, hil, r1]
  refine ⟨hba, hbm, hsv, hL, ?_, ?_, ?_, ?_⟩
  · rw [hwt, r4]
  · intro p hp
    rw [hwt] at hp
    obtain ⟨b1, b2, b3⟩ := r5 p hp
    constructor
    · rw [BinaryMap.binarylength, hil]
      omega
    · rw [hbs]
      have : p.2 - 0 = p.2 := by omega
      rw [this] at b3
      exact b3
  · intro st hst
    rw [hbs] at hst
    exact r7 st hst
  · have hcongr : ∀ v, BinaryMap.sub_str_to_indices
        ⟨alphabet, false, entries, sites, wtIdxs, variants, []⟩ v =
        bm.sub_str_to_indices v := by
      intro v
      refine sub_str_to_indices_congr ?_ ?_ ?_ ?_ v
      · show alphabet = bm.alphabet
        rw [hba]
      · show false = bm.sites_as_str
        rw [hbm]
      · show entries = bm.i_to_sub_list
        rw [hil]
      · show wtIdxs = bm.wt_indices
        rw [hwt]
    refine (mapM_ok_forall2 hrows).imp ?_
    intro v r hvr
    rw [← hcongr v]
    exact hvr

/-- C5: in expansion mode, `binarylength` is `len(wtseq) * len(alphabet)`,
and every successfully encoded variant activates exactly one index per
site of the wildtype sequence (the sites of its indices are a
permutation of 1..len(wtseq)), so its indicator row sums to
`len(wtseq)`. -/
theorem C5_expand_invariants {variants : List PyStr} {alphabet : List Char}
    {allowed : Option (List PyStr)} {mode : Bool} {w : PyStr}
    {bm : BinaryMap}
    (h : mkBinaryMap variants alphabet allowed mode true (some w) = .ok bm) :
    bm.binarylength = w.length * alphabet.length ∧
    (∀ s r, bm.sub_str_to_indices s = .ok r →
       List.Perm (r.map (fun j => bm.binary_sites.getD j (Site.num 0)))
         ((List.range w.length).map
           (fun (k : Nat) => Site.num (1 + (k : Int)))) ∧
       ((List.range bm.binarylength).map
         (fun j => if j ∈ r then (1 : Int) else 0)).sum = (w.length : Int)) ∧
    List.Forall₂ (fun v r => bm.sub_str_to_indices v = .ok r)
      variants bm.binary_variants := by
  have W := mapWF_of_mk h
  obtain ⟨hba, hbm, hsv, hL, hkeys, hwti, hsr, hfa2⟩ := expand_struct h
  refine ⟨hL, ?_, hfa2⟩
  intro s r hr
  obtain ⟨sites, idxs, he, hrdef⟩ := sub_str_to_indices_ok_desc hr
  obtain ⟨hnds, _, hfa⟩ := encodeTokens_ok_desc bm _ _ _ _ he
  obtain ⟨hmap, hbounds⟩ := forall2_sites_map W hfa
  have hperm0 : List.Perm r
      (idxs ++ (bm.wt_indices.filter (fun p => p.1 ∉ sites)).map
        (fun p => p.2)) := by
    rw [hrdef]
    exact List.perm_insertionSort _ _
  have hexmap : ((bm.wt_indices.filter (fun p => p.1 ∉ sites)).map
        (fun p => p.2)).map (fun j => bm.binary_sites.getD j (Site.num 0)) =
      (bm.wt_indices.map (fun p => p.1)).filter (fun st => st ∉ sites) := by
    rw [List.map_map]
    have hmc : ((bm.wt_indices.filter (fun p => p.1 ∉ sites)).map
        ((fun j => bm.binary_sites.getD j (Site.num 0)) ∘ (fun p => p.2))) =
        (bm.wt_indices.filter (fun p => p.1 ∉ sites)).map (fun p => p.1) := by
      refine List.map_congr_left ?_
      intro p hp
      exact (hwti p (List.mem_filter.mp hp).1).2
    rw [hmc, map_fst_filter_key]
  have hksnodup : (bm.wt_indices.map (fun p => p.1)).Nodup := by
    rw [hkeys]
    exact rangeSites_nodup _
  have hsites_sub : ∀ st ∈ sites, st ∈ bm.wt_indices.map (fun p => p.1) := by
    intro st hst
    rw [← hmap] at hst
    obtain ⟨j, hj, hjeq⟩ := List.mem_map.mp hst
    obtain ⟨hjL, _⟩ := hbounds j hj
    have hjlen : j < bm.binary_sites.length := by
      rw [W.sites_len]
      exact hjL
    have hmem : bm.binary_sites.getD j (Site.num 0) ∈ bm.binary_sites := by
      rw [List.getD_eq_getElem _ _ hjlen]
      exact List.getElem_mem hjlen
    obtain ⟨k, hk, hkeq⟩ := hsr _ hmem
    rw [hkeys, ← hjeq, hkeq]
    exact List.mem_map.mpr ⟨k, List.mem_range.mpr hk, rfl⟩
  have hsites_perm : List.Perm sites
      ((bm.wt_indices.map (fun p => p.1)).filter
        (fun st => decide (st ∈ sites))) := by
    refine List.Subperm.antisymm ?_ ?_
    · refine List.subperm_of_subset hnds ?_
      intro st hst
      rw [List.mem_filter]
      exact ⟨hsites_sub st hst, by simpa using hst⟩
    · refine List.subperm_of_subset (List.Nodup.filter _ hksnodup) ?_
      intro st hst
      have := (List.mem_filter.mp hst).2
      simpa using this
  have hfilter_eq : (bm.wt_indices.map (fun p => p.1)).filter
        (fun st => st ∉ sites) =
      (bm.wt_indices.map (fun p => p.1)).filter
        (fun st => !(decide (st ∈ sites))) := by
    refine List.filter_congr ?_
    intro a _
    simp
  have hmain : List.Perm
      (r.map (fun j => bm.binary_sites.getD j (Site.num 0)))
      (bm.wt_indices.map (fun p => p.1)) := by
    refine (hperm0.map _).trans ?_
    rw [List.map_append, hmap, hexmap, hfilter_eq]
    refine List.Perm.trans (List.Perm.append hsites_perm (List.Perm.refl _)) ?_
    exact List.filter_append_perm _ _
  have hkeyslen : (bm.wt_indices.map (fun p => p.1)).length = w.length := by
    rw [hkeys, List.length_map, List.length_range]
  have hlen_r : r.length = w.length := by
    have := hmain.length_eq
    rw [List.length_map, hkeyslen] at this
    exact this
  have hndidxs : idxs.Nodup := List.Nodup.of_map _ (hmap ▸ hnds)
  have hndex : ((bm.wt_indices.filter (fun p => p.1 ∉ sites)).map
      (fun p => p.2)).Nodup := by
    refine List.Nodup.of_map (fun j => bm.binary_sites.getD j (Site.num 0)) ?_
    rw [hexmap]
    exact List.Nodup.filter _ hksnodup
  have hdisj : idxs.Disjoint ((bm.wt_indices.filter (fun p => p.1 ∉ sites)).map
      (fun p => p.2)) := by
    intro j hj1 hj2
    have h1 : bm.binary_sites.getD j (Site.num 0) ∈ sites := by
      rw [← hmap]
      exact List.mem_map.mpr ⟨j, hj1, rfl⟩
    have h2 : bm.binary_sites.getD j (Site.num 0) ∈
        (bm.wt_indices.map (fun p => p.1)).filter (fun st => st ∉ sites) := by
      rw [← hexmap]
      exact List.mem_map.mpr ⟨j, hj2, rfl⟩
    have := (List.mem_filter.mp h2).2
    simp only [decide_not, Bool.not_eq_true', decide_eq_false_iff_not] at this
    exact this h1
  have hndr : r.Nodup := by
    rw [hperm0.nodup_iff]
    exact List.nodup_append.mpr ⟨hndidxs, hndex, hdisj⟩
  have hltr : ∀ j ∈ r, j < bm.binarylength := by
    intro j hj
    rcases List.mem_append.mp (hperm0.mem_iff.mp hj) with h' | h'
    · exact (hbounds j h').1
    · obtain ⟨p, hpf, hpe⟩ := List.mem_map.mp h'
      have := (hwti p (List.mem_filter.mp hpf).1).1
      omega
  refine ⟨by rw [← hkeys]; exact hmain, ?_⟩
  rw [sum_indicator_ones (fun j => j ∈ r) (List.range bm.binarylength)]
  have hflen : ((List.range bm.binarylength).filter
      (fun j => decide (j ∈ r))).length = w.length := by
    rw [(perm_filter_range hndr hltr).length_eq, hlen_r]
  rw [hflen]

def c5bm : BinaryMap :=
  ⟨['A', 'C', 'G', 'K', 'M'], false,
   [['M', '1', 'A'], ['M', '1', 'C'], ['M', '1', 'G'], ['M', '1', 'K'],
    ['M', '1', 'M'], ['A', '2', 'A'], ['A', '2', 'C'], ['A', '2', 'G'],
    ['A', '2', 'K'], ['A', '2', 'M'], ['K', '3', 'A'], ['K', '3', 'C'],
    ['K', '3', 'G'], ['K', '3', 'K'], ['K', '3', 'M'], ['G', '4', 'A'],
    ['G', '4', 'C'], ['G', '4', 'G'], ['G', '4', 'K'], ['G', '4', 'M']],
   [Site.num 1, Site.num 1, Site.num 1, Site.num 1, Site.num 1,
    Site.num 2, Site.num 2, Site.num 2, Site.num 2, Site.num 2,
    Site.num 3, Site.num 3, Site.num 3, Site.num 3, Site.num 3,
    Site.num 4, Site.num 4, Site.num 4, Site.num 4, Site.num 4],
   [(Site.num 1, 4), (Site.num 2, 5), (Site.num 3, 13), (Site.num 4, 17)],
   [['M', '1', 'A'], ['M', '1', 'C', ' ', 'K', '3', 'A']],
   [[0, 5, 13, 17], [1, 5, 10, 17]]⟩

theorem C5_expand_invariants_witness :
    c5bm.binarylength =
      (['M', 'A', 'K', 'G'] : PyStr).length * ['A', 'C', 'G', 'K', 'M'].length ∧
    (∀ s r, c5bm.sub_str_to_indices s = .ok r →
       List.Perm (r.map (fun j => c5bm.binary_sites.getD j (Site.num 0)))
         ((List.range (['M', 'A', 'K', 'G'] : PyStr).length).map
           (fun (k : Nat) => Site.num (1 + (k : Int)))) ∧
       ((List.range c5bm.binarylength).map
         (fun j => if j ∈ r then (1 : Int) else 0)).sum =
         (((['M', 'A', 'K', 'G'] : PyStr).length : Nat) : Int)) ∧
    List.Forall₂ (fun v r => c5bm.sub_str_to_indices v = .ok r)
      [['M', '1', 'A'], ['M', '1', 'C', ' ', 'K', '3', 'A']]
      c5bm.binary_variants :=
  @C5_expand_invariants [['M', '1', 'A'], ['M', '1', 'C', ' ', 'K', '3', 'A']]
    ['A', 'C', 'G', 'K', 'M'] none false ['M', 'A', 'K', 'G'] c5bm (by rfl)

theorem flatnonzeroAux_mem_bounds :
    ∀ (b : List Int) (k : Nat), ∀ j ∈ flatnonzeroAux k b,
      k ≤ j ∧ j < k + b.length := by
  intro b
  induction b with
  | nil => intro k j hj; cases hj
  | cons x xs ih =>
    intro k j hj
    rw [flatnonzeroAux] at hj
    split at hj
    · have := ih (k + 1) j hj
      simp only [List.length_cons]
      omega
    · rcases List.mem_cons.mp hj with rfl | hj'
      · simp only [List.length_cons]
        omega
      · have := ih (k + 1) j hj'
        simp only [List.length_cons]
        omega

theorem flatnonzero_lt {b : List Int} : ∀ j ∈ flatnonzero b, j < b.length := by
  intro j hj
  have := flatnonzeroAux_mem_bounds b 0 j hj
  omega

theorem i_to_sub_total {bm : BinaryMap} {j : Nat} (hj : j < bm.binarylength) :
    bm.i_to_sub j =
      .ok (if j ∈ bm.wtIndexSet then [] else bm.i_to_sub_list.getD j []) := by
  by_cases hjw : j ∈ bm.wtIndexSet
  · rw [BinaryMap.i_to_sub, if_pos hjw, if_pos hjw]
  · rw [BinaryMap.i_to_sub, if_neg hjw, if_neg hjw,
      List.getD_eq_getElem _ _ hj, List.getElem?_eq_getElem hj]

theorem decode_stage1 {bm : BinaryMap} (W : MapWF bm) :
    ∀ (js : List Nat), (∀ j ∈ js, j < bm.binarylength) →
      ∃ subs0, js.mapM bm.i_to_sub = .ok subs0 ∧
        subs0.filter (fun s => ¬ s.isEmpty) =
          (js.filter (fun j => j ∉ bm.wtIndexSet)).map
            (fun j => bm.i_to_sub_list.getD j []) := by
  intro js
  induction js with
  | nil => exact fun _ => ⟨[], by rw [List.mapM_nil]; rfl, rfl⟩
  | cons j js ih =>
    intro hb
    obtain ⟨subs0, h1, h2⟩ := ih (fun x hx => hb x (List.mem_cons_of_mem _ hx))
    have hjL : j < bm.binarylength := hb j (List.mem_cons_self _ _)
    by_cases hjw : j ∈ bm.wtIndexSet
    · refine ⟨[] :: subs0, ?_, ?_⟩
      · rw [List.mapM_cons, i_to_sub_total hjL, if_pos hjw, exc_ok_bind, h1,
          exc_ok_bind]
        rfl
      · rw [List.filter_cons, List.filter_cons]
        simp only [List.isEmpty_nil]
        rw [if_neg (by simp), if_neg (by simpa using hjw)]
        exact h2
    · obtain ⟨sb, he, _, _, _, _, _⟩ := W.entry_form j hjL
      refine ⟨bm.i_to_sub_list.getD j [] :: subs0, ?_, ?_⟩
      · rw [List.mapM_cons, i_to_sub_total hjL, if_neg hjw, exc_ok_bind, h1,
          exc_ok_bind]
        rfl
      · rw [List.filter_cons, List.filter_cons]
        rw [if_pos (by rw [he, subStr]; simp), if_pos (by simpa using hjw),
          List.map_cons]
        rw [h2]
  
theorem decode_stage2 {bm : BinaryMap} (W : MapWF bm) :
    ∀ (js : List Nat),
      (∀ j ∈ js, j < bm.binarylength ∧ j ∉ bm.wtIndexSet) →
      ∃ sbs, (js.map (fun j => bm.i_to_sub_list.getD j [])).mapM
          (fun t => parseSub bm.alphabet bm.sites_as_str t) = .ok sbs ∧
        sbs.map (fun sb => sb.site) =
          js.map (fun j => bm.binary_sites.getD j (Site.num 0)) := by
  intro js
  induction js with
  | nil => exact fun _ => ⟨[], by rw [List.map_nil, List.mapM_nil]; rfl, rfl⟩
  | cons j js ih =>
    intro hb
    obtain ⟨sbs, h1, h2⟩ := ih (fun x hx => hb x (List.mem_cons_of_mem _ hx))
    obtain ⟨hjL, hjw⟩ := hb j (List.mem_cons_self _ _)
    obtain ⟨sb, hp, hsite⟩ := entry_parses W hjL hjw
    refine ⟨sb :: sbs, ?_, ?_⟩
    · rw [List.map_cons, List.mapM_cons, hp, exc_ok_bind, h1, exc_ok_bind]
      rfl
    · rw [List.map_cons, List.map_cons, h2, hsite]

theorem decode_main {bm : BinaryMap} (W : MapWF bm) {b : List Int}
    (hlen : ¬ b.length ≠ bm.binarylength)
    (hvals : ¬ ¬ (b.all (fun x => x == 0 || x == 1) = true)) :
    bm.binary_to_sub_str b =
      (if (((flatnonzero b).filter (fun j => j ∉ bm.wtIndexSet)).map
            (fun j => bm.binary_sites.getD j (Site.num 0))).Nodup
       then .ok (joinSpace (((flatnonzero b).filter
         (fun j => j ∉ bm.wtIndexSet)).map
           (fun j => bm.i_to_sub_list.getD j [])))
       else .error .dupSiteBinary) := by
  have hlen' : b.length = bm.binarylength := not_not.mp (by simpa using hlen)
  have hb : ∀ j ∈ flatnonzero b, j < bm.binarylength := by
    intro j hj
    have := flatnonzero_lt j hj
    omega
  obtain ⟨subs0, h1, h2⟩ := decode_stage1 W (flatnonzero b) hb
  have hb2 : ∀ j ∈ (flatnonzero b).filter (fun j => j ∉ bm.wtIndexSet),
      j < bm.binarylength ∧ j ∉ bm.wtIndexSet := by
    intro j hj
    obtain ⟨hj1, hj2⟩ := List.mem_filter.mp hj
    exact ⟨hb j hj1, by simpa using hj2⟩
  obtain ⟨sbs, h3, h4⟩ := decode_stage2 W _ hb2
  replace h3 : (subs0.filter (fun s => ¬ s.isEmpty)).mapM
      (fun t => parseSub bm.alphabet bm.sites_as_str t) = .ok sbs := by
    rw [h2]
    exact h3
  have happ : bm.binary_to_sub_str b =
      ((subs0.filter (fun s => ¬ s.isEmpty)).mapM
          (fun t => parseSub bm.alphabet bm.sites_as_str t) >>= fun sbs =>
        if (sbs.map (fun sb => sb.site)).Nodup
        then Except.ok (joinSpace (subs0.filter (fun s => ¬ s.isEmpty)))
        else Except.error BMError.dupSiteBinary) := by
    rw [BinaryMap.binary_to_sub_str, if_neg hlen, if_neg hvals, h1]
    rfl
  rw [happ, h3, exc_ok_bind, h4, h2]

/-- C2 (amended): decoding a binary vector fails exactly when its length
differs from `binarylength`, it contains a value outside {0, 1}, or two
active NON-wildtype indices map to the same site.  An active wildtype
index (expansion mode) decodes to the empty string and is dropped before
the duplicate-site check, so the expansion-mode case named by the
claim's last sentence does not raise. -/
theorem C2_decode_error_iff {variants : List PyStr} {alphabet : List Char}
    {allowed : Option (List PyStr)} {mode exp : Bool}
    {wtseq : Option PyStr} {bm : BinaryMap}
    (h : mkBinaryMap variants alphabet allowed mode exp wtseq = .ok bm) :
    ∀ b : List Int,
      (∃ e, bm.binary_to_sub_str b = .error e) ↔
      (b.length ≠ bm.binarylength ∨
       (∃ x ∈ b, ¬ (x = 0 ∨ x = 1)) ∨
       ¬ (((flatnonzero b).filter (fun j => j ∉ bm.wtIndexSet)).map
           (fun j => bm.binary_sites.getD j (Site.num 0))).Nodup) := by
  have W := mapWF_of_mk h
  intro b
  constructor
  · rintro ⟨e, he⟩
    by_contra hcon
    push_neg at hcon
    obtain ⟨hl, hv, hnd⟩ := hcon
    have hvals : b.all (fun x => x == 0 || x == 1) = true := by
      rw [List.all_eq_true]
      intro x hx
      rcases hv x hx with h0 | h1
      · simp [h0]
      · simp [h1]
    rw [decode_main W (fun hne => hne hl) (not_not_intro hvals),
      if_pos hnd] at he
    cases he
  · intro hcon
    by_cases hl : b.length ≠ bm.binarylength
    · exact ⟨.badLength, by rw [BinaryMap.binary_to_sub_str, if_pos hl]⟩
    by_cases hv : ¬ (b.all (fun x => x == 0 || x == 1) = true)
    · exact ⟨.badValues,
        by rw [BinaryMap.binary_to_sub_str, if_neg hl, if_pos hv]⟩
    have hvals : b.all (fun x => x == 0 || x == 1) = true := not_not.mp hv
    have hnd : ¬ (((flatnonzero b).filter (fun j => j ∉ bm.wtIndexSet)).map
        (fun j => bm.binary_sites.getD j (Site.num 0))).Nodup := by
      rcases hcon with h' | h' | h'
      · exact absurd h' hl
      · exfalso
        obtain ⟨x, hx, hxx⟩ := h'
        have hall := List.all_eq_true.mp hvals x hx
        apply hxx
        simpa using hall
      · exact h'
    exact ⟨.dupSiteBinary, by rw [decode_main W hl hv, if_neg hnd]⟩

def c2bm : BinaryMap :=
  ⟨['A', 'C'], false,
   [['A', '1', 'A'], ['A', '1', 'C']],
   [Site.num 1, Site.num 1],
   [(Site.num 1, 0)],
   [['A', '1', 'C']],
   [[1]]⟩

theorem C2_decode_error_iff_witness :
    (∃ e, c2bm.binary_to_sub_str [1, 1] = .error e) ↔
    (([1, 1] : List Int).length ≠ c2bm.binarylength ∨
     (∃ x ∈ ([1, 1] : List Int), ¬ (x = 0 ∨ x = 1)) ∨
     ¬ (((flatnonzero [1, 1]).filter (fun j => j ∉ c2bm.wtIndexSet)).map
         (fun j => c2bm.binary_sites.getD j (Site.num 0))).Nodup) :=
  @C2_decode_error_iff [['A', '1', 'C']] ['A', 'C'] none false true
    (some ['A']) c2bm (by rfl) [1, 1]

/-- Counterexample to C2's last sentence: in this expansion-mode map the
vector [1, 1] has two active indices mapping to site 1, one of them the
site's wildtype index, yet decoding succeeds (returning "A1C") instead
of failing with ValidationError. -/
theorem C2_counterexample :
    mkBinaryMap [['A', '1', 'C']] ['A', 'C'] none false true (some ['A']) =
      .ok c2bm ∧
    (0 : Nat) ∈ c2bm.wtIndexSet ∧
    (flatnonzero [1, 1]).map
      (fun j => c2bm.binary_sites.getD j (Site.num 0)) =
      [Site.num 1, Site.num 1] ∧
    c2bm.binary_to_sub_str [1, 1] = .ok ['A', '1', 'C'] :=
  ⟨by rfl, by decide, by rfl, by rfl⟩

theorem sub_str_to_binary_ok_desc {bm : BinaryMap} {s : PyStr}
    {b : List Int} (h : bm.sub_str_to_binary s = .ok b) :
    ∃ r, bm.sub_str_to_indices s = .ok r ∧
      b = (List.range bm.binarylength).map
        (fun j => if j ∈ r then (1 : Int) else 0) := by
  rw [BinaryMap.sub_str_to_binary] at h
  rcases hr : bm.sub_str_to_indices s with e | r
  · rw [hr, exc_error_bind] at h; cases h
  · rw [hr, exc_ok_bind] at h
    replace h : (Except.ok ((List.range bm.binarylength).map
        (fun j => if j ∈ r then (1 : Int) else 0)) :
        Except BMError (List Int)) = .ok b := h
    injection h with h'
    exact ⟨r, rfl, h'.symm⟩

theorem encodeTokens_toks_desc (bm : BinaryMap) :
    ∀ (toks : List PyStr) (seen : List Site) (sites : List Site)
      (idxs : List Nat),
      bm.encodeTokens toks seen = .ok (sites, idxs) →
      List.Forall₂ (fun tok idx =>
        lookupIdx bm.i_to_sub_list tok = some idx) toks idxs := by
  intro toks
  induction toks with
  | nil =>
    intro seen sites idxs h
    have h' : (Except.ok ([], []) : Except BMError (List Site × List Nat)) =
        .ok (sites, idxs) := h
    injection h' with h''
    injection h'' with h1 h2
    subst h2
    exact List.Forall₂.nil
  | cons tok rest ih =>
    intro seen sites idxs h
    obtain ⟨sb, i, sites', idxs', hp, hs, hi, hrec, h1, h2⟩ :=
      encodeTokens_cons_ok h
    subst h1; subst h2
    refine List.Forall₂.cons ?_ (ih _ _ _ hrec)
    rw [BinaryMap.sub_to_i] at hi
    rcases hli : lookupIdx bm.i_to_sub_list tok with _ | i'
    · rw [hli] at hi; cases hi
    · rw [hli] at hi
      replace hi : (Except.ok i' : Except BMError Nat) = .ok i := hi
      injection hi with hi'
      rw [hi']

theorem forall2_map_eq {R : α → β → Prop} {f : β → α} :
    ∀ {l1 : List α} {l2 : List β}, List.Forall₂ R l1 l2 →
      (∀ a b, R a b → f b = a) → l2.map f = l1 := by
  intro l1 l2 hfa hf
  induction hfa with
  | nil => rfl
  | cons hrel _ ih => rw [List.map_cons, hf _ _ hrel, ih]

theorem flatnonzero_indicator_aux (p : Nat → Prop) [DecidablePred p] :
    ∀ (n k : Nat),
      flatnonzeroAux k ((List.range' k n).map
        (fun j => if p j then (1 : Int) else 0)) =
      (List.range' k n).filter (fun j => decide (p j)) := by
  intro n
  induction n with
  | zero => intro k; rfl
  | succ n ih =>
    intro k
    rw [List.range'_succ, List.map_cons, List.filter_cons]
    by_cases hp : p k
    · rw [if_pos hp, flatnonzeroAux, if_neg (by norm_num), ih,
        if_pos (by simpa using hp)]
    · rw [if_neg hp, flatnonzeroAux, if_pos rfl, ih,
        if_neg (by simpa using hp)]

theorem flatnonzero_indicator (p : Nat → Prop) [DecidablePred p] (L : Nat) :
    flatnonzero ((List.range L).map (fun j => if p j then (1 : Int) else 0)) =
      (List.range L).filter (fun j => decide (p j)) := by
  rw [flatnonzero, List.range_eq_range']
  exact flatnonzero_indicator_aux p L 0

theorem filter_range_eq_sorted {r : List Nat} {L : Nat} (hnd : r.Nodup)
    (hlt : ∀ j ∈ r, j < L) (hs : List.Sorted (fun i j => i ≤ j) r) :
    (List.range L).filter (fun j => decide (j ∈ r)) = r := by
  refine List.eq_of_perm_of_sorted (perm_filter_range hnd hlt) ?_ hs
  refine List.Pairwise.filter _ ?_
  exact (List.pairwise_lt_range L).imp (fun h => le_of_lt h)

theorem map_orderedInsert (g : PyStr → Nat) (f : Nat → PyStr) :
    ∀ (a : Nat) (l : List Nat), g (f a) = a → (∀ j ∈ l, g (f j) = j) →
      (List.orderedInsert (fun i j => i ≤ j) a l).map f =
        List.orderedInsert (fun t u => g t ≤ g u) (f a) (l.map f) := by
  intro a l
  induction l with
  | nil => intro _ _; rfl
  | cons b l ih =>
    intro ha hl
    rw [List.orderedInsert, List.map_cons, List.orderedInsert]
    have hb : g (f b) = b := hl b (List.mem_cons_self _ _)
    by_cases hab : a ≤ b
    · rw [if_pos hab, if_pos (by rw [ha, hb]; exact hab), List.map_cons,
        List.map_cons]
    · rw [if_neg hab, if_neg (by rw [ha, hb]; exact hab), List.map_cons,
        ih ha (fun j hj => hl j (List.mem_cons_of_mem _ hj))]

theorem map_insertionSort_toks (g : PyStr → Nat) (f : Nat → PyStr) :
    ∀ (l : List Nat), (∀ j ∈ l, g (f j) = j) →
      (List.insertionSort (fun i j => i ≤ j) l).map f =
        List.insertionSort (fun t u => g t ≤ g u) (l.map f) := by
  intro l
  induction l with
  | nil => intro _; rfl
  | cons a l ih =>
    intro hl
    rw [List.insertionSort, List.map_cons, List.insertionSort,
      ← ih (fun j hj => hl j (List.mem_cons_of_mem _ hj))]
    refine map_orderedInsert g f a _ (hl a (List.mem_cons_self _ _)) ?_
    intro j hj
    exact hl j
      (List.mem_cons_of_mem a ((List.perm_insertionSort _ _).mem_iff.mp hj))

/-- Registry index of a token, used to phrase C1's canonical order
("equivalently, ascending registry index"). -/
def tokIdx (bm : BinaryMap) (t : PyStr) : Nat :=
  (lookupIdx bm.i_to_sub_list t).getD 0

/-- The canonicalization named by C1: the variant's tokens reordered by
ascending registry index, joined by single spaces. -/
def canonSubStr (bm : BinaryMap) (s : PyStr) : PyStr :=
  joinSpace (List.insertionSort
    (fun t u => tokIdx bm t ≤ tokIdx bm u) (tokenize s))

/-- C1: round trip.  For every substitution string that encodes
successfully (in particular every variant used to build the map, in
either mode), decoding the encoded binary vector returns the string's
canonicalization: its tokens reordered by ascending registry index,
which is the registry's natural ascending site order. -/
theorem C1_round_trip {variants : List PyStr} {alphabet : List Char}
    {allowed : Option (List PyStr)} {mode exp : Bool}
    {wtseq : Option PyStr} {bm : BinaryMap}
    (h : mkBinaryMap variants alphabet allowed mode exp wtseq = .ok bm) :
    ∀ s b, bm.sub_str_to_binary s = .ok b →
      bm.binary_to_sub_str b = .ok (canonSubStr bm s) := by
  have W := mapWF_of_mk h
  intro s b hsb
  obtain ⟨r, hr, hbdef⟩ := sub_str_to_binary_ok_desc hsb
  obtain ⟨sites, idxs, he, hrdef⟩ := sub_str_to_indices_ok_desc hr
  obtain ⟨hnds, _, hfa⟩ := encodeTokens_ok_desc bm _ _ _ _ he
  obtain ⟨hmap, hbounds⟩ := forall2_sites_map W hfa
  have htoksfa := encodeTokens_toks_desc bm _ _ _ _ he
  have htoks : idxs.map (fun j => bm.i_to_sub_list.getD j []) = tokenize s :=
    forall2_map_eq htoksfa (fun tok idx hrel => (idx_of_lookup hrel).2)
  have hperm0 : List.Perm r
      (idxs ++ (bm.wt_indices.filter (fun p => p.1 ∉ sites)).map
        (fun p => p.2)) := by
    rw [hrdef]
    exact List.perm_insertionSort _ _
  have hexwt : ∀ j ∈ (bm.wt_indices.filter (fun p => p.1 ∉ sites)).map
      (fun p => p.2), j ∈ bm.wtIndexSet := by
    intro j hj
    obtain ⟨p, hp, hpe⟩ := List.mem_map.mp hj
    rw [BinaryMap.wtIndexSet]
    exact List.mem_map.mpr ⟨p, (List.mem_filter.mp hp).1, hpe⟩
  have hltr : ∀ j ∈ r, j < bm.binarylength := by
    intro j hj
    rcases List.mem_append.mp (hperm0.mem_iff.mp hj) with h' | h'
    · exact (hbounds j h').1
    · exact W.wt_lt j (hexwt j h')
  have hexmap2 : ((bm.wt_indices.filter (fun p => p.1 ∉ sites)).map
        (fun p => p.2)).map
        (fun j => bm.binary_sites.getD j (Site.num 0)) =
      (bm.wt_indices.map (fun p => p.1)).filter (fun st => st ∉ sites) := by
    rw [List.map_map]
    have hmc : ((bm.wt_indices.filter (fun p => p.1 ∉ sites)).map
        ((fun j => bm.binary_sites.getD j (Site.num 0)) ∘ (fun p => p.2))) =
        (bm.wt_indices.filter (fun p => p.1 ∉ sites)).map (fun p => p.1) := by
      refine List.map_congr_left ?_
      intro p hp
      exact W.wt_site p (List.mem_filter.mp hp).1
    rw [hmc, map_fst_filter_key]
  have hndr : r.Nodup := by
    rw [hperm0.nodup_iff]
    refine List.nodup_append.mpr ⟨?_, ?_, ?_⟩
    · exact List.Nodup.of_map _ (hmap ▸ hnds)
    · refine List.Nodup.of_map
        (fun j => bm.binary_sites.getD j (Site.num 0)) ?_
      rw [hexmap2]
      exact List.Nodup.filter _ W.wt_keys_nodup
    · intro j hj1 hj2
      exact (hbounds j hj1).2 (hexwt j hj2)
  have hsr : List.Sorted (fun i j => i ≤ j) r := by
    rw [hrdef]
    exact List.sorted_insertionSort _ _
  have hblen : ¬ b.length ≠ bm.binarylength := by
    rw [hbdef]
    simp
  have hbvals : ¬ ¬ (b.all (fun x => x == 0 || x == 1) = true) := by
    refine not_not_intro ?_
    rw [hbdef, List.all_eq_true]
    intro x hx
    obtain ⟨j, _, hxe⟩ := List.mem_map.mp hx
    by_cases hjr : j ∈ r
    · rw [← hxe, if_pos hjr]
      rfl
    · rw [← hxe, if_neg hjr]
      rfl
  rw [decode_main W hblen hbvals]
  have hfz : flatnonzero b = r := by
    rw [hbdef, flatnonzero_indicator (fun j => j ∈ r) bm.binarylength,
      filter_range_eq_sorted hndr hltr hsr]
  rw [hfz]
  have hact : r.filter (fun j => j ∉ bm.wtIndexSet) =
      List.insertionSort (fun i j => i ≤ j) idxs := by
    refine @List.eq_of_perm_of_sorted Nat (fun i j => i ≤ j)
      ⟨fun a b h1 h2 => le_antisymm h1 h2⟩ _ _ ?_ ?_ ?_
    · refine (hperm0.filter _).trans ?_
      rw [List.filter_append,
        List.filter_eq_self.mpr
          (fun j hj => by simpa using (hbounds j hj).2),
        List.filter_eq_nil_iff.mpr
          (fun j hj => by simpa using hexwt j hj),
        List.append_nil]
      exact (List.perm_insertionSort _ _).symm
    · exact List.Pairwise.filter _ hsr
    · exact List.sorted_insertionSort _ _
  rw [hact]
  have hcond : ((List.insertionSort (fun i j => i ≤ j) idxs).map
      (fun j => bm.binary_sites.getD j (Site.num 0))).Nodup := by
    refine (((List.perm_insertionSort (fun i j => i ≤ j) idxs).map
      _).nodup_iff).mpr ?_
    rw [hmap]
    exact hnds
  rw [if_pos hcond]
  have hginv : ∀ j ∈ idxs, tokIdx bm (bm.i_to_sub_list.getD j []) = j := by
    intro j hj
    have hjL : j < bm.binarylength := (hbounds j hj).1
    have hli : lookupIdx bm.i_to_sub_list (bm.i_to_sub_list.getD j []) =
        some j := by
      refine lookupIdx_of_get_nodup W.nodup ?_
      rw [List.getD_eq_getElem _ _ hjL, List.getElem?_eq_getElem hjL]
    rw [tokIdx, hli]
    rfl
  have hmaps : (List.insertionSort (fun i j => i ≤ j) idxs).map
      (fun j => bm.i_to_sub_list.getD j []) =
      List.insertionSort (fun t u => tokIdx bm t ≤ tokIdx bm u)
        (idxs.map (fun j => bm.i_to_sub_list.getD j [])) :=
    map_insertionSort_toks (tokIdx bm) _ idxs hginv
  rw [canonSubStr, ← htoks, hmaps]

def c1bm : BinaryMap :=
  ⟨['A', 'C'], false,
   [['A', '1', 'A'], ['A', '1', 'C']],
   [Site.num 1, Site.num 1],
   [(Site.num 1, 0)],
   [['A', '1', 'C']],
   [[1]]⟩

theorem C1_round_trip_witness :
    c1bm.binary_to_sub_str [0, 1] = .ok (canonSubStr c1bm ['A', '1', 'C']) :=
  @C1_round_trip [['A', '1', 'C']] ['A', 'C'] none false true (some ['A'])
    c1bm (by rfl) ['A', '1', 'C'] [0, 1] (by rfl)

theorem validSite_false_num {st : Site} (hv : ValidSite false st) :
    ∃ n, st = Site.num n := by
  rcases st with n | t
  · exact ⟨n, rfl⟩
  · exfalso
    have h2 := hv.2
    rw [show siteStr (Site.str t) = t from rfl, siteOfMid.eq_def,
      if_neg (by simp)] at h2
    rcases t with _ | ⟨c, ds⟩
    · cases h2
    · by_cases hc : c = '-'
      · replace h2 : (if c = '-' then Site.num (-(digitsVal ds : Int))
            else Site.num (digitsVal (c :: ds) : Int)) =
            Site.str (c :: ds) := h2
        rw [if_pos hc] at h2
        cases h2
      · replace h2 : (if c = '-' then Site.num (-(digitsVal ds : Int))
            else Site.num (digitsVal (c :: ds) : Int)) =
            Site.str (c :: ds) := h2
        rw [if_neg hc] at h2
        cases h2

theorem siteLe_num_iff (a b : Int) :
    siteLe (Site.num a) (Site.num b) ↔ a ≤ b := by
  simp [siteLe, siteLeB]

theorem observed_zip_pairwise {variants : List PyStr} {alphabet : List Char}
    {ais mode : Bool} {subs : List PyStr} {bm : BinaryMap}
    (hfs : mkFromSubs variants alphabet ais mode false none subs = .ok bm)
    (hnd : alphabet.Nodup) :
    List.Pairwise (specObsLt alphabet)
      (bm.i_to_sub_list.zip bm.binary_sites) := by
  obtain ⟨wts, muts, hc, hinv, hba, hbm, hwt, hsv, hndl, hlen, hzip, hrows⟩ :=
    observed_description hfs
  rw [hzip]
  rw [List.pairwise_flatten]
  constructor
  · intro l hl
    obtain ⟨p, hp, hl'⟩ := List.mem_map.mp hl
    have hpw : p ∈ wts :=
      (List.perm_insertionSort wtsLe wts).mem_iff.mp hp
    rw [← hl']
    exact obsBlock_pairwise hnd muts p (hinv.muts_nodup p hpw)
      (fun m hm => (hinv.muts_good p hpw m hm).1)
  · rw [List.pairwise_map]
    refine (sorted_wts_pairwise wts hinv.keys_nodup).imp_of_mem ?_
    intro p q _ _ hpq x hx y hy
    have hxp : x.2 = p.1 := obsBlock_site hx
    have hyq : y.2 = q.1 := obsBlock_site hy
    refine ⟨?_, fun heq => ?_⟩
    · rw [hxp, hyq]
      exact wtsLe_siteLe hpq.1
    · exact absurd (hxp ▸ hyq ▸ heq) hpq.2

/-- Decomposition of a registry pair of the observed-only branch. -/
theorem observed_zip_mem {variants : List PyStr} {alphabet : List Char}
    {ais mode : Bool} {subs : List PyStr} {bm : BinaryMap}
    (hfs : mkFromSubs variants alphabet ais mode false none subs = .ok bm) :
    ∃ wts muts,
      collectSubs alphabet mode subs [] [] = .ok (wts, muts) ∧
      CollectInv alphabet mode wts muts ∧
      (∀ q ∈ bm.i_to_sub_list.zip bm.binary_sites, ∃ p m,
        p ∈ wts ∧ m ∈ mutsOfSite muts p.1 ∧
        q = (p.2 :: siteStr p.1 ++ [m], p.1)) ∧
      (∀ p ∈ wts, ∀ m ∈ mutsOfSite muts p.1,
        (p.2 :: siteStr p.1 ++ [m], p.1) ∈
          bm.i_to_sub_list.zip bm.binary_sites) := by
  obtain ⟨wts, muts, hc, hinv, hba, hbm, hwt, hsv, hndl, hlen, hzip, hrows⟩ :=
    observed_description hfs
  refine ⟨wts, muts, hc, hinv, ?_, ?_⟩
  · intro q hq
    rw [hzip] at hq
    obtain ⟨blk, hblk, hqin⟩ := List.mem_flatten.mp hq
    obtain ⟨p, hp, hblk'⟩ := List.mem_map.mp hblk
    rw [← hblk', obsBlock, List.mem_map] at hqin
    obtain ⟨m, hm, heq⟩ := hqin
    exact ⟨p, m, (List.perm_insertionSort wtsLe wts).mem_iff.mp hp,
      (List.perm_insertionSort (mutLe alphabet) _).mem_iff.mp hm, heq.symm⟩
  · intro p hp m hm
    rw [hzip]
    refine List.mem_flatten.mpr ⟨obsBlock alphabet muts p, ?_, ?_⟩
    · exact List.mem_map.mpr
        ⟨p, (List.perm_insertionSort wtsLe wts).mem_iff.mpr hp, rfl⟩
    · rw [obsBlock]
      exact List.mem_map.mpr
        ⟨m, (List.perm_insertionSort (mutLe alphabet) _).mem_iff.mpr hm, rfl⟩

def siteIntOf : Site → Int
  | .num n => n
  | .str _ => 0

/-- Lexicographic sort key of a registry pair in numeric-site mode:
site value first, then alphabet position of the mutant character. -/
def pairKey (alphabet : List Char) (q : PyStr × Site) : Lex (Int × Nat) :=
  toLex (siteIntOf q.2, alphabet.indexOf (q.1.getLastD ' '))

theorem pairwise_key_of_specObsLt {alphabet : List Char}
    {l : List (PyStr × Site)}
    (hp : List.Pairwise (specObsLt alphabet) l)
    (hnum : ∀ q ∈ l, ∃ n, q.2 = Site.num n) :
    List.Pairwise (fun a b => pairKey alphabet a < pairKey alphabet b) l := by
  refine hp.imp_of_mem ?_
  intro a b ha hb hab
  obtain ⟨n, hn⟩ := hnum a ha
  obtain ⟨m, hm⟩ := hnum b hb
  obtain ⟨hle, himp⟩ := hab
  rw [hn, hm, siteLe_num_iff] at hle
  rw [pairKey, pairKey, Prod.Lex.lt_iff]
  rcases lt_or_eq_of_le hle with hlt | heq
  · left
    rw [hn, hm]
    exact hlt
  · right
    constructor
    · rw [hn, hm, heq]
    · exact himp (by rw [hn, hm, heq])

theorem sublist_of_subset_of_sorted_keys {β : Type} [LinearOrder β]
    (f : α → β) :
    ∀ (l2 l1 : List α), List.Pairwise (fun a b => f a < f b) l1 →
      List.Pairwise (fun a b => f a < f b) l2 → l1 ⊆ l2 → l1.Sublist l2 := by
  intro l2
  induction l2 with
  | nil =>
    intro l1 _ _ hsub
    rw [List.subset_nil] at hsub
    exact hsub ▸ List.nil_sublist []
  | cons b t2 ih =>
    intro l1 hp1 hp2 hsub
    rcases l1 with _ | ⟨a, t1⟩
    · exact List.nil_sublist _
    by_cases hab : a = b
    · subst hab
      refine List.Sublist.cons₂ a (ih t1 hp1.of_cons hp2.of_cons ?_)
      intro x hx
      have hax : f a < f x := (List.pairwise_cons.mp hp1).1 x hx
      rcases List.mem_cons.mp (hsub (List.mem_cons_of_mem a hx)) with heq | hxt
      · exfalso
        rw [heq] at hax
        exact lt_irrefl _ hax
      · exact hxt
    · refine List.Sublist.cons b (ih (a :: t1) hp1 hp2.of_cons ?_)
      intro x hx
      have hxl2 := hsub hx
      rcases List.mem_cons.mp hxl2 with heq | hxt
      · exfalso
        have hal2 := hsub (List.mem_cons_self a t1)
        rcases List.mem_cons.mp hal2 with heq2 | hat
        · exact hab heq2
        · have hba : f b < f a := (List.pairwise_cons.mp hp2).1 a hat
          rcases List.mem_cons.mp hx with heq3 | hxt1
          · exact hab (heq3.symm.trans heq)
          · have hax : f a < f x := (List.pairwise_cons.mp hp1).1 x hxt1
            rw [heq] at hax
            exact lt_irrefl _ (lt_trans hba hax)
      · exact hxt

/-- C3 (amended): with numeric sites, when `allowed_subs` is supplied as
a superset of the observed substitutions, the observed entries keep
their relative order (the observed registry is a sublist of the
allowed-subs registry), but the supplied-but-unobserved substitutions
are interleaved into the same natural (site, then alphabet-position)
order rather than appended at the end. -/
theorem C3_allowed_order {variants : List PyStr} {alphabet : List Char}
    {allowed : List PyStr} {bmO bmA : BinaryMap}
    (hO : mkBinaryMap variants alphabet none false false none = .ok bmO)
    (hA : mkBinaryMap variants alphabet (some allowed) false false none =
      .ok bmA)
    (hnd : alphabet.Nodup) :
    bmO.i_to_sub_list.Sublist bmA.i_to_sub_list ∧
    List.Pairwise (specObsLt alphabet)
      (bmA.i_to_sub_list.zip bmA.binary_sites) := by
  rcases mkBinaryMap_ok_cases hO with ⟨_, hfO⟩ | ⟨a, haeq, _, _⟩
  swap
  · cases haeq
  rcases mkBinaryMap_ok_cases hA with ⟨haeq, _⟩ | ⟨a, haeq, hsub, hfA⟩
  · cases haeq
  have WO := mapWF_of_mkFromSubs hfO
  have WA := mapWF_of_mkFromSubs hfA
  have hpO := observed_zip_pairwise hfO hnd
  have hpA := observed_zip_pairwise hfA hnd
  obtain ⟨wtsO, mutsO, hcO, hinvO, hdecO, hcompO⟩ := observed_zip_mem hfO
  obtain ⟨wtsA, mutsA, hcA, hinvA, hdecA, hcompA⟩ := observed_zip_mem hfA
  have hnumO : ∀ q ∈ bmO.i_to_sub_list.zip bmO.binary_sites,
      ∃ n, q.2 = Site.num n := by
    intro q hq
    obtain ⟨p, m, hpw, _, hqe⟩ := hdecO q hq
    rw [hqe]
    exact validSite_false_num (hinvO.wts_good p hpw).1
  have hnumA : ∀ q ∈ bmA.i_to_sub_list.zip bmA.binary_sites,
      ∃ n, q.2 = Site.num n := by
    intro q hq
    obtain ⟨p, m, hpw, _, hqe⟩ := hdecA q hq
    rw [hqe]
    exact validSite_false_num (hinvA.wts_good p hpw).1
  have hkO := pairwise_key_of_specObsLt hpO hnumO
  have hkA := pairwise_key_of_specObsLt hpA hnumA
  have hsubset : bmO.i_to_sub_list.zip bmO.binary_sites ⊆
      bmA.i_to_sub_list.zip bmA.binary_sites := by
    intro q hq
    obtain ⟨p, m, hpw, hmw, hqe⟩ := hdecO q hq
    rcases collectSubs_wts_sound alphabet false _ [] [] wtsO mutsO hcO p hpw
      with hin0 | ⟨sub, hsub0, sb, hps, hsite, hwteq⟩
    · cases hin0
    have hsubA : sub ∈ a.dedup := List.mem_dedup.mpr (hsub sub hsub0)
    have hlookA : lookupSite wtsA sb.site = some sb.wt :=
      collectSubs_lookup_final alphabet false _ [] [] wtsA mutsA hcA
        sub hsubA sb hps
    have hpA' : (p.1, p.2) ∈ wtsA := by
      rw [← hsite, ← hwteq]
      exact lookupSite_mem hlookA
    rcases collectSubs_muts_sound alphabet false _ [] [] wtsO mutsO hcO
        p.1 m hmw with h0 | ⟨sub2, hsub2, sb2, hps2, hsite2, hmut2⟩
    · simp [mutsOfSite, lookupSite] at h0
    have hsub2A : sub2 ∈ a.dedup := List.mem_dedup.mpr (hsub sub2 hsub2)
    have hm2A : sb2.mutCh ∈ mutsOfSite mutsA sb2.site :=
      collectSubs_mut_final alphabet false _ [] [] wtsA mutsA hcA
        sub2 hsub2A sb2 hps2
    rw [hsite2, hmut2] at hm2A
    have := hcompA (p.1, p.2) hpA' m hm2A
    rw [hqe]
    exact this
  have hzipsub : (bmO.i_to_sub_list.zip bmO.binary_sites).Sublist
      (bmA.i_to_sub_list.zip bmA.binary_sites) :=
    sublist_of_subset_of_sorted_keys (pairKey alphabet) _ _ hkO hkA hsubset
  have hproj := hzipsub.map Prod.fst
  rw [List.map_fst_zip _ _ (le_of_eq WO.sites_len.symm),
    List.map_fst_zip _ _ (le_of_eq WA.sites_len.symm)] at hproj
  exact ⟨hproj, hpA⟩

def c3bmO : BinaryMap :=
  ⟨['A', 'C', 'M'], false, [['M', '2', 'A']], [Site.num 2], [],
   [['M', '2', 'A']], [[0]]⟩

def c3bmA : BinaryMap :=
  ⟨['A', 'C', 'M'], false, [['A', '1', 'C'], ['M', '2', 'A']],
   [Site.num 1, Site.num 2], [], [['M', '2', 'A']], [[1]]⟩

theorem C3_allowed_order_witness :
    c3bmO.i_to_sub_list.Sublist c3bmA.i_to_sub_list ∧
    List.Pairwise (specObsLt ['A', 'C', 'M'])
      (c3bmA.i_to_sub_list.zip c3bmA.binary_sites) :=
  @C3_allowed_order [['M', '2', 'A']] ['A', 'C', 'M']
    [['M', '2', 'A'], ['A', '1', 'C']] c3bmO c3bmA
    (by rfl) (by rfl) (by decide)

/-- Counterexample to C3's "appended at the end": the supplied-but-
unobserved substitution A1C receives index 0, BEFORE the observed
substitution M2A (index 1), because the allowed-subs registry is sorted
by site like any other registry. -/
theorem C3_counterexample :
    mkBinaryMap [['M', '2', 'A']] ['A', 'C', 'M'] none false false none =
      .ok c3bmO ∧
    mkBinaryMap [['M', '2', 'A']] ['A', 'C', 'M']
      (some [['M', '2', 'A'], ['A', '1', 'C']]) false false none =
      .ok c3bmA ∧
    c3bmO.i_to_sub_list = [['M', '2', 'A']] ∧
    lookupIdx c3bmA.i_to_sub_list ['A', '1', 'C'] = some 0 ∧
    lookupIdx c3bmA.i_to_sub_list ['M', '2', 'A'] = some 1 :=
  ⟨by rfl, by rfl, rfl, by rfl, by rfl⟩
